import Mathlib

/-!
Verification development for the ZenBasic memory/storage core: the 64K
memory arena with its symbol table and tokenized-program linked list
(src/memory.py, src/tokenized_program.py, src/tokens.py) and the NCDOS
virtual floppy disk (src/ncdos/disk.py).

The Python code is shallowly embedded: byte arrays become functions
from addresses to bytes (Fin 256, matching Python's bytearray whose
cells are always in range(256)); methods that can raise become
computations in a state-plus-error monad M; loops whose termination is
not structural take an explicit fuel argument, with fuel exhaustion
modelled by a distinguished "hang" outcome.
-/

set_option maxRecDepth 10000

namespace ZB

/-- Error outcomes of an embedded operation.  The first group models
documented, recoverable failures (raised as MemoryError in Python);
the second group models undocumented exceptions: ValueError from a
bytearray cell assignment out of range(256), IndexError / the explicit
address range check, and UnicodeEncode/DecodeError from
str.encode('ascii') / bytes.decode('ascii'). -/
inductive Err where
  | memoryFull
  | symbolTableFull
  | byteRange
  | addrRange
  | encodeAscii
  | decodeAscii
  deriving DecidableEq, Repr

/-- Outcome of running an embedded operation on a state of type σ:
normal return, a raised exception (the Python object survives the
exception, so the state at raise time is kept), or non-termination
(fuel exhaustion). -/
inductive Out (σ : Type) (α : Type) where
  | ok : α → σ → Out σ α
  | err : Err → σ → Out σ α
  | hang : Out σ α

/-- State-plus-error monad over a state type σ. -/
def M (σ : Type) (α : Type) : Type := σ → Out σ α

def M.pure (a : α) : M σ α := fun s => .ok a s

def M.bind (x : M σ α) (f : α → M σ β) : M σ β := fun s =>
  match x s with
  | .ok a s' => f a s'
  | .err e s' => .err e s'
  | .hang => .hang

instance : Monad (M σ) where
  pure := M.pure
  bind := M.bind

/-- Raise an exception, keeping the current state. -/
def M.raise (e : Err) : M σ α := fun s => .err e s

/-- Non-termination marker (returned when loop fuel runs out). -/
def M.hang : M σ α := fun _ => .hang

def M.get : M σ σ := fun s => .ok s s

def M.set (s : σ) : M σ Unit := fun _ => .ok () s

/-- Value projection of an outcome (for decidable observations). -/
def Out.val? : Out σ α → Option α
  | .ok a _ => some a
  | _ => none

/-- Normal-return test of an outcome. -/
def Out.isOk : Out σ α → Prop
  | .ok _ _ => True
  | _ => False

@[simp] theorem run_bind (x : M σ α) (f : α → M σ β) (s : σ) :
    (x >>= f) s = match x s with
      | .ok a s' => f a s'
      | .err e s' => .err e s'
      | .hang => .hang := rfl

@[simp] theorem run_pure (a : α) (s : σ) :
    (Pure.pure a : M σ α) s = .ok a s := rfl

@[simp] theorem run_mpure (a : α) (s : σ) : (M.pure a : M σ α) s = .ok a s := rfl

@[simp] theorem run_raise (e : Err) (s : σ) : (M.raise e : M σ α) s = .err e s := rfl

@[simp] theorem run_hang (s : σ) : (M.hang : M σ α) s = .hang := rfl

@[simp] theorem run_get (s : σ) : (M.get : M σ σ) s = .ok s s := rfl

@[simp] theorem run_set (s s0 : σ) : (M.set s) s0 = .ok () s := rfl

/-!  ## Memory arena (src/memory.py)

`MemoryManager.__init__` creates `bytearray(size)` with `size = 65536`
plus the Python attribute `program_top`.  A byte of the arena is a
`Fin 256`, exactly the possible values of a bytearray cell. -/

/-- One byte, as stored in a Python bytearray cell. -/
abbrev Byte := Fin 256

/-- Memory map constants from src/memory.py. -/
def MEM_SIZE : Nat := 65536
def SYSTEM_START : Nat := 0x0200
def VARS_START : Nat := 0x0800
def VARS_END : Nat := 0x0FFF
def PROGRAM_START : Nat := 0x1000
def PROGRAM_END : Nat := 0xEFFF
def SYMBOL_TABLE_END : Nat := 0x03FF
def HEADER_VAR_COUNT : Nat := 0x0200
def HEADER_NEXT_SYMBOL : Nat := 0x0202
def HEADER_NEXT_VAR : Nat := 0x0204
def HEADER_PAGE : Nat := 0x0206
def SYMBOL_DATA_START : Nat := 0x0208
def DEFAULT_PAGE : Nat := PROGRAM_START

/-- State of a `MemoryManager`: the 64K bytearray `self.memory` (as a
function from addresses to bytes) and the attribute `self.program_top`. -/
structure Mem where
  mem : Nat → Byte
  program_top : Nat

/-- Pointwise function update, modelling a bytearray cell assignment. -/
def upd (f : Nat → Byte) (a : Nat) (v : Byte) : Nat → Byte :=
  fun x => if x = a then v else f x

@[simp] theorem upd_same (f : Nat → Byte) (a : Nat) (v : Byte) : upd f a v a = v := by
  simp [upd]

theorem upd_other (f : Nat → Byte) (a : Nat) (v : Byte) (x : Nat) (h : x ≠ a) :
    upd f a v x = f x := by
  simp [upd, h]

/-- Read of `self.memory[a]` (IndexError modelled as addrRange). -/
def read_byte (a : Nat) : M Mem Nat := fun s =>
  if a < MEM_SIZE then .ok (s.mem a).val s else .err .addrRange s

/-- Assignment `self.memory[a] = v`: IndexError outside the array,
ValueError when the value is not in range(256). -/
def set_byte (a : Nat) (v : Nat) : M Mem Unit := fun s =>
  if a < MEM_SIZE then
    if h : v < 256 then .ok () { s with mem := upd s.mem a ⟨v, h⟩ }
    else .err .byteRange s
  else .err .addrRange s

/-- MemoryManager.store_int16: raises when `address + 1 >= self.size`,
clamps the value to 16 bits, writes low byte then high byte.  The two
cell writes are in range(256) by the clamp, so they are written
directly. -/
def store_int16 (address value : Nat) : M Mem Unit := fun s =>
  if address + 1 ≥ MEM_SIZE then .err .addrRange s
  else
    let v := value % 65536
    .ok () { s with mem := upd (upd s.mem address ⟨v % 256, by omega⟩)
                              (address + 1) ⟨v / 256 % 256, by omega⟩ }

/-- MemoryManager.read_int16: `low | (high << 8)`; written as
`low + 256 * high`, equal to the bitwise-or because the low byte is
below 256. -/
def read_int16 (address : Nat) : M Mem Nat := fun s =>
  if address + 1 ≥ MEM_SIZE then .err .addrRange s
  else .ok ((s.mem address).val + 256 * (s.mem (address + 1)).val) s

/-- MemoryManager.store_float32: `struct.pack('<f', value)` always
yields exactly 4 bytes, each in range(256); the embedding takes the
packed 32-bit pattern as input (the claims under study concern only
the error behaviour of this operation, not IEEE-754 semantics). -/
def store_float32 (address bits : Nat) : M Mem Unit := fun s =>
  if address + 3 ≥ MEM_SIZE then .err .addrRange s
  else
    let v := bits % 4294967296
    let m1 := upd s.mem address ⟨v % 256, by omega⟩
    let m2 := upd m1 (address + 1) ⟨v / 256 % 256, by omega⟩
    let m3 := upd m2 (address + 2) ⟨v / 65536 % 256, by omega⟩
    .ok () { s with mem := upd m3 (address + 3) ⟨v / 16777216 % 256, by omega⟩ }

/-- MemoryManager.read_float32, returning the packed 32-bit pattern. -/
def read_float32 (address : Nat) : M Mem Nat := fun s =>
  if address + 3 ≥ MEM_SIZE then .err .addrRange s
  else .ok ((s.mem address).val + 256 * (s.mem (address + 1)).val
            + 65536 * (s.mem (address + 2)).val
            + 16777216 * (s.mem (address + 3)).val) s

/-- MemoryManager.clear_variables. -/
def clear_variables : M Mem Unit := do
  store_int16 HEADER_VAR_COUNT 0
  store_int16 HEADER_NEXT_SYMBOL SYMBOL_DATA_START
  store_int16 HEADER_NEXT_VAR VARS_START

/-- Header initialization sequence of MemoryManager.__init__. -/
def init_header : M Mem Unit := do
  store_int16 HEADER_VAR_COUNT 0
  store_int16 HEADER_NEXT_SYMBOL SYMBOL_DATA_START
  store_int16 HEADER_NEXT_VAR VARS_START
  store_int16 HEADER_PAGE DEFAULT_PAGE

/-- The all-zero arena `bytearray(65536)` before header setup. -/
def mem0 : Mem := { mem := fun _ => (0 : Byte), program_top := DEFAULT_PAGE }

/-- A freshly constructed MemoryManager (the init stores cannot fail). -/
def freshMem : Mem :=
  match init_header mem0 with
  | .ok _ s => s
  | .err _ s => s
  | .hang => mem0

/-!  ## Symbol table (src/memory.py, write_symbol_entry / find_symbol /
allocate_variable) -/

/-- Default fuel for the embedded while-loops: far more iterations than
any loop of the source can make on a 64K arena / 640-sector disk. -/
def FUEL : Nat := 65536

/-- str.encode('ascii'): UnicodeEncodeError outside code points 0..127. -/
def encode_ascii (name : List Char) : M σ (List Nat) := fun s =>
  if name.all (fun c => c.toNat < 128) then .ok (name.map Char.toNat) s
  else .err .encodeAscii s

/-- Inner comparison loop of find_symbol (runs when the stored length
equals the length of the searched name; stops at the first mismatch). -/
def match_bytes : List Nat → Nat → M Mem Bool
  | [], _ => M.pure true
  | b :: rest, a => do
    let x ← read_byte a
    if x ≠ b then M.pure false else match_bytes rest (a + 1)

/-- The while-loop of MemoryManager.find_symbol. -/
def find_symbol_loop (fuel : Nat) (nb : List Nat) (limit ptr : Nat) :
    M Mem (Option (Nat × Nat)) :=
  match fuel with
  | 0 => M.hang
  | f + 1 =>
    if ptr < limit then do
      let name_len ← read_byte ptr
      if name_len = 0 then M.pure none
      else do
        let ms ← if name_len = nb.length then match_bytes nb (ptr + 1) else M.pure false
        if ms then do
          let lo ← read_byte (ptr + 1 + name_len)
          let hi ← read_byte (ptr + 1 + name_len + 1)
          let sz ← read_byte (ptr + 1 + name_len + 2)
          M.pure (some (lo + 256 * hi, sz))
        else
          find_symbol_loop f nb limit (ptr + 1 + name_len + 3)
    else M.pure none

/-- MemoryManager.find_symbol. -/
def find_symbol (name : List Char) : M Mem (Option (Nat × Nat)) := do
  let nb ← encode_ascii name
  let nsa ← read_int16 HEADER_NEXT_SYMBOL
  find_symbol_loop FUEL nb nsa SYMBOL_DATA_START

/-- Sequential cell writes (the name-byte loop of write_symbol_entry). -/
def write_bytes : List Nat → Nat → M Mem Unit
  | [], _ => M.pure ()
  | b :: rest, a => do
    set_byte a b
    write_bytes rest (a + 1)

/-- MemoryManager.write_symbol_entry. -/
def write_symbol_entry (name : List Char) (address size : Nat) :
    M Mem (Option Nat) := do
  let nb ← encode_ascii name
  let entry_size := 1 + nb.length + 2 + 1
  let nsa ← read_int16 HEADER_NEXT_SYMBOL
  if nsa + entry_size > SYMBOL_TABLE_END then M.pure none
  else do
    set_byte nsa nb.length
    write_bytes nb (nsa + 1)
    set_byte (nsa + 1 + nb.length) (address % 256)
    set_byte (nsa + 1 + nb.length + 1) (address / 256 % 256)
    set_byte (nsa + 1 + nb.length + 2) size
    store_int16 HEADER_NEXT_SYMBOL (nsa + 1 + nb.length + 3)
    M.pure (some nsa)

/-- Body of MemoryManager.allocate_variable for a name that is not in
the symbol table (the code after the early `return symbol_info[0]`).
The MemoryError raises become the reported values memoryFull /
symbolTableFull; note that the HEADER_NEXT_VAR cursor update has
already happened when symbolTableFull is raised, exactly as in the
source. -/
def allocate_variable_fresh (name : List Char) (size : Nat) : M Mem Nat := do
  let next_var_address ← read_int16 HEADER_NEXT_VAR
  if next_var_address + size > VARS_END then M.raise .memoryFull
  else do
    store_int16 HEADER_NEXT_VAR (next_var_address + size)
    let symbol_addr ← write_symbol_entry name next_var_address size
    match symbol_addr with
    | none => M.raise .symbolTableFull
    | some _ => do
      let var_count ← read_int16 HEADER_VAR_COUNT
      store_int16 HEADER_VAR_COUNT (var_count + 1)
      M.pure next_var_address

/-- MemoryManager.allocate_variable. -/
def allocate_variable (name : List Char) (size : Nat) : M Mem Nat := do
  let symbol_info ← find_symbol name
  match symbol_info with
  | some (addr, _) => M.pure addr
  | none => allocate_variable_fresh name size

/-!  ## Tokenized program linked list (src/memory.py,
store_program_line / delete_program_line / get_program_lines /
clear_program) -/

def get_top : M Mem Nat := fun s => .ok s.program_top s

def set_top (t : Nat) : M Mem Unit := fun s => .ok () { s with program_top := t }

@[simp] theorem run_get_top (s : Mem) : get_top s = .ok s.program_top s := rfl

@[simp] theorem run_set_top (t : Nat) (s : Mem) :
    set_top t s = .ok () { s with program_top := t } := rfl

/-- Token-byte write loop of store_program_line (the written values are
bytes of a Python bytes object, hence always in range(256)). -/
def write_tokens : List Byte → Nat → M Mem Unit
  | [], _ => M.pure ()
  | b :: rest, a => do
    set_byte a b.val
    write_tokens rest (a + 1)

/-- Tail of store_program_line after the walk: write the node at
program_top, link it according to (prev_ptr, curr_ptr), move
program_top. -/
def finish_insert (line_num : Nat) (tokens : List Byte)
    (line_size page prev_ptr curr_ptr : Nat) : M Mem Bool := do
  let top ← get_top
  let new_line_ptr := top
  store_int16 new_line_ptr 0
  store_int16 (new_line_ptr + 2) line_num
  write_tokens tokens (new_line_ptr + 4)
  set_byte (new_line_ptr + 4 + tokens.length) 13
  if prev_ptr = 0 then
    if curr_ptr = page ∧ top = page then
      store_int16 new_line_ptr 0
    else do
      store_int16 new_line_ptr curr_ptr
      store_int16 HEADER_PAGE new_line_ptr
  else do
    let next_of_prev ← read_int16 prev_ptr
    store_int16 prev_ptr new_line_ptr
    store_int16 new_line_ptr next_of_prev
  set_top (new_line_ptr + line_size)
  M.pure true

/-- The while-loop of MemoryManager.delete_program_line. -/
def delete_walk (fuel : Nat) (line_num page prev_ptr curr_ptr : Nat) :
    M Mem Bool :=
  match fuel with
  | 0 => M.hang
  | f + 1 => do
    let top ← get_top
    if curr_ptr < top then do
      let curr_line_num ← read_int16 (curr_ptr + 2)
      if curr_line_num = line_num then do
        let next_ptr ← read_int16 curr_ptr
        if prev_ptr = 0 then
          store_int16 HEADER_PAGE (if next_ptr ≠ 0 then next_ptr else page)
        else
          store_int16 prev_ptr next_ptr
        M.pure true
      else do
        let next_ptr ← read_int16 curr_ptr
        if next_ptr = 0 then M.pure false
        else delete_walk f line_num page curr_ptr next_ptr
    else M.pure false

/-- MemoryManager.delete_program_line (fuelled). -/
def delete_program_line_f (fuel line_num : Nat) : M Mem Bool := do
  let page ← read_int16 HEADER_PAGE
  delete_walk fuel line_num page 0 page

mutual

/-- MemoryManager.store_program_line (fuelled; one unit of fuel per
walk iteration and per delete-and-reinsert recursion). -/
def store_program_line_f (fuel : Nat) (line_num : Nat) (tokens : List Byte) :
    M Mem Bool :=
  match fuel with
  | 0 => M.hang
  | f + 1 => do
    let line_size := 4 + tokens.length + 1
    let top ← get_top
    if top + line_size > PROGRAM_END then M.pure false
    else do
      let page ← read_int16 HEADER_PAGE
      store_walk f line_num tokens line_size page 0 page

/-- The insertion-point walk of store_program_line. -/
def store_walk (fuel : Nat) (line_num : Nat) (tokens : List Byte)
    (line_size page prev_ptr curr_ptr : Nat) : M Mem Bool :=
  match fuel with
  | 0 => M.hang
  | f + 1 => do
    let top ← get_top
    if curr_ptr < top then do
      let curr_line_num ← read_int16 (curr_ptr + 2)
      if curr_line_num = line_num then do
        let _ ← delete_program_line_f f line_num
        store_program_line_f f line_num tokens
      else if curr_line_num > line_num then
        finish_insert line_num tokens line_size page prev_ptr curr_ptr
      else do
        let next_ptr ← read_int16 curr_ptr
        if next_ptr = 0 then
          finish_insert line_num tokens line_size page curr_ptr curr_ptr
        else
          store_walk f line_num tokens line_size page curr_ptr next_ptr
    else finish_insert line_num tokens line_size page prev_ptr curr_ptr

end

/-- Token reader of get_program_lines: bytes from i up to (but not
including) the first 0x0D, stopping at program_top. -/
def tokens_from (m : Nat → Byte) (top i : Nat) : List Byte :=
  if h : i < top then
    if (m i).val = 13 then [] else m i :: tokens_from m top (i + 1)
  else []
termination_by top - i
decreasing_by simp_wf; omega

/-- The while-loop of MemoryManager.get_program_lines. -/
def lines_walk (fuel curr_ptr : Nat) : M Mem (List (Nat × List Byte)) :=
  match fuel with
  | 0 => M.hang
  | f + 1 => do
    let top ← get_top
    if curr_ptr < top then do
      let line_num ← read_int16 (curr_ptr + 2)
      let s ← M.get
      let tokens := tokens_from s.mem s.program_top (curr_ptr + 4)
      let next_ptr ← read_int16 curr_ptr
      if next_ptr = 0 then M.pure [(line_num, tokens)]
      else do
        let rest ← lines_walk f next_ptr
        M.pure ((line_num, tokens) :: rest)
    else M.pure []

/-- MemoryManager.get_program_lines (fuelled). -/
def get_program_lines_f (fuel : Nat) : M Mem (List (Nat × List Byte)) := do
  let page ← read_int16 HEADER_PAGE
  lines_walk fuel page

/-- MemoryManager.clear_program. -/
def clear_program : M Mem Unit := do
  let page ← read_int16 HEADER_PAGE
  set_top page
  store_int16 page 0

/-- store_program_line with the default fuel. -/
def store_program_line (line_num : Nat) (tokens : List Byte) : M Mem Bool :=
  store_program_line_f FUEL line_num tokens

/-- delete_program_line with the default fuel. -/
def delete_program_line (line_num : Nat) : M Mem Bool :=
  delete_program_line_f FUEL line_num

/-- get_program_lines with the default fuel. -/
def get_program_lines : M Mem (List (Nat × List Byte)) :=
  get_program_lines_f FUEL

/-!  ## Token codec (src/tokens.py) -/

/-- The BBC BASIC token map TOKENS from src/tokens.py (token byte to
keyword text, in source order). -/
def TOKENS : List (Nat × String) :=
  [(0x80, "AND"), (0x81, "DIV"), (0x82, "EOR"), (0x83, "MOD"),
   (0x84, "OR"), (0x85, "ERROR"), (0x86, "LINE"), (0x87, "OFF"),
   (0x88, "STEP"), (0x89, "SPC"), (0x8A, "TAB("), (0x8B, "ELSE"),
   (0x8C, "THEN"), (0x8D, "<line>"), (0x8E, "OPENIN"), (0x8F, "PTR"),
   (0x90, "PAGE"), (0x91, "TIME"), (0x92, "LOMEM"), (0x93, "HIMEM"),
   (0x94, "ABS"), (0x95, "ACS"), (0x96, "ADVAL"), (0x97, "ASC"),
   (0x98, "ASN"), (0x99, "ATN"), (0x9A, "BGET"), (0x9B, "COS"),
   (0x9C, "COUNT"), (0x9D, "DEG"), (0x9E, "ERL"), (0x9F, "ERR"),
   (0xA0, "EVAL"), (0xA1, "EXP"), (0xA2, "EXT"), (0xA3, "FALSE"),
   (0xA4, "FN"), (0xA5, "GET"), (0xA6, "INKEY"), (0xA7, "INSTR("),
   (0xA8, "INT"), (0xA9, "LEN"), (0xAA, "LN"), (0xAB, "LOG"),
   (0xAC, "NOT"), (0xAD, "OPENUP"), (0xAE, "OPENOUT"), (0xAF, "PI"),
   (0xB0, "POINT("), (0xB1, "POS"), (0xB2, "RAD"), (0xB3, "RND"),
   (0xB4, "SGN"), (0xB5, "SIN"), (0xB6, "SQR"), (0xB7, "TAN"),
   (0xB8, "TO"), (0xB9, "TRUE"), (0xBA, "USR"), (0xBB, "VAL"),
   (0xBC, "VPOS"), (0xBD, "CHR$"), (0xBE, "GET$"), (0xBF, "INKEY$"),
   (0xC0, "LEFT$("), (0xC1, "MID$("), (0xC2, "RIGHT$("), (0xC3, "STR$"),
   (0xC4, "STRING$"), (0xC5, "EOF"), (0xC6, "AUTO"), (0xC7, "DELETE"),
   (0xC8, "LOAD"), (0xC9, "LIST"), (0xCA, "NEW"), (0xCB, "OLD"),
   (0xCC, "RENUMBER"), (0xCD, "SAVE"), (0xCE, "PUT"), (0xCF, "PTR"),
   (0xD0, "CONT"), (0xD1, "CLEAR"), (0xD2, "CLOSE"), (0xD3, "CLG"),
   (0xD4, "CLS"), (0xD5, "DATA"), (0xD6, "DEF"), (0xD7, "DIM"),
   (0xD8, "DRAW"), (0xD9, "END"), (0xDA, "ENDPROC"), (0xDB, "ENVELOPE"),
   (0xDC, "FOR"), (0xDD, "GOSUB"), (0xDE, "GOTO"), (0xDF, "GCOL"),
   (0xE0, "IF"), (0xE1, "INPUT"), (0xE2, "LET"), (0xE3, "LOCAL"),
   (0xE4, "MODE"), (0xE5, "MOVE"), (0xE6, "NEXT"), (0xE7, "ON"),
   (0xE8, "VDU"), (0xE9, "PLOT"), (0xEA, "PRINT"), (0xEB, "PROC"),
   (0xEC, "READ"), (0xED, "REM"), (0xEE, "REPEAT"), (0xEF, "REPORT"),
   (0xF0, "RESTORE"), (0xF1, "RETURN"), (0xF2, "RUN"), (0xF3, "STOP"),
   (0xF4, "COLOUR"), (0xF5, "TRACE"), (0xF6, "UNTIL"), (0xF7, "WIDTH"),
   (0xF8, "OSCLI"), (0xF9, "ESCAPE"), (0xFA, "TAB"), (0xFB, "QUIT"),
   (0xFC, "HELP"), (0xFD, "TURBO"), (0xFE, "SLOW"), (0xFF, "VARS")]

/-- ZENBASIC_TOKENS from src/tokens.py. -/
def ZENBASIC_TOKENS : List (String × Nat) :=
  [("QUIT", 0xFB), ("HELP", 0xFC), ("TURBO", 0xFD), ("SLOW", 0xFE),
   ("VARS", 0xFF), ("MEMORY", 0xF6), ("MAP", 0xF6), ("EXIT", 0xFB),
   ("SYMBOLS", 0xFA), ("DUMP", 0xF9)]

/-- Python dict assignment `d[k] = v` on an insertion-ordered
association list: replace in place when the key exists, else append. -/
def dict_set (d : List (String × Nat)) (k : String) (v : Nat) :
    List (String × Nat) :=
  if d.any (fun p => p.1 == k) then
    d.map (fun p => if p.1 == k then (k, v) else p)
  else d ++ [(k, v)]

/-- KEYWORDS_TO_TOKENS: the inversion of TOKENS (dropping the "<line>"
pseudo-keyword) updated with ZENBASIC_TOKENS, with Python dict
last-assignment-wins semantics. -/
def KEYWORDS_TO_TOKENS : List (String × Nat) :=
  ZENBASIC_TOKENS.foldl (fun d p => dict_set d p.1 p.2)
    ((TOKENS.filter (fun p => p.2 ≠ "<line>")).foldl
      (fun d p => dict_set d p.2 p.1) [])

/-- Membership lookup `word in KEYWORDS_TO_TOKENS` plus the value. -/
def lookup_kw (w : List Char) : Option Nat :=
  (KEYWORDS_TO_TOKENS.find? (fun p => p.1.toList == w)).map (fun p => p.2)

def up_char (c : Char) : Char := c.toUpper

/-- The longest-match loop of tokenize_line: try match lengths n, n-1,
..., 1 and return the token plus the matched length. -/
def find_kw (l : List Char) : Nat → Option (Nat × Nat)
  | 0 => none
  | k + 1 =>
    match lookup_kw ((l.take (k + 1)).map up_char) with
    | some t => some (t, k + 1)
    | none => find_kw l k

theorem find_kw_pos (l : List Char) :
    ∀ (n t len : Nat), find_kw l n = some (t, len) → 1 ≤ len ∧ len ≤ n := by
  intro n
  induction n with
  | zero => intro t len h; simp [find_kw] at h
  | succ k ih =>
    intro t len h
    simp only [find_kw] at h
    cases hl : lookup_kw ((l.take (k + 1)).map up_char) with
    | some tk => rw [hl] at h; simp at h; omega
    | none =>
      rw [hl] at h; simp at h
      have := ih t len h
      omega

/-- The scanning loop of tokenize_line, with the in_string / in_rem
state made explicit. -/
def tokenize_aux (in_string in_rem : Bool) (l : List Char) : List Nat :=
  match l with
  | [] => []
  | c :: rest =>
    if in_string then
      if c = '"' then c.toNat :: tokenize_aux false in_rem rest
      else c.toNat :: tokenize_aux true in_rem rest
    else if in_rem then
      c.toNat :: tokenize_aux false true rest
    else if c = '"' then
      Char.toNat '"' :: tokenize_aux true false rest
    else
      match h : find_kw (c :: rest) (min 8 (c :: rest).length) with
      | some (t, len) =>
        t :: tokenize_aux false
          (decide ((((c :: rest).take len).map up_char) = "REM".toList))
          ((c :: rest).drop len)
      | none => c.toNat :: tokenize_aux false false rest
termination_by l.length
decreasing_by
  all_goals simp_wf
  all_goals try omega
  have := find_kw_pos (c :: rest) (min 8 (c :: rest).length) t len h
  simp at this ⊢
  omega

/-- tokenize_line from src/tokens.py (raw code list, before the final
bytes() construction). -/
def tokenize_line (l : List Char) : List Nat := tokenize_aux false false l

/-- The final `bytes(result)` construction: ValueError when any entry
is not in range(256). -/
def to_bytes : List Nat → Option (List Byte)
  | [] => some []
  | b :: rest =>
    if h : b < 256 then (to_bytes rest).map (fun t => (⟨b, h⟩ : Byte) :: t)
    else none

/-- Uppercase hex digit (for the f-string placeholder of detokenize). -/
def hex_digit (n : Nat) : Char :=
  if n < 10 then Char.ofNat (48 + n) else Char.ofNat (55 + n)

/-- TOKENS.get(byte, placeholder) of detokenize. -/
def tok_keyword (b : Nat) : List Char :=
  match TOKENS.find? (fun p => p.1 == b) with
  | some p => p.2.toList
  | none => ['<', hex_digit (b / 16 % 16), hex_digit (b % 16), '>']

/-- The scanning loop of detokenize (the tracked in_string / in_rem
state never affects the output, exactly as in the source). -/
def detokenize_aux (in_string in_rem : Bool) : List Nat → List Char
  | [] => []
  | b :: rest =>
    if b ≥ 128 then
      let kw := tok_keyword b
      kw ++ detokenize_aux in_string (in_rem || kw == "REM".toList) rest
    else if b = 34 then '"' :: detokenize_aux (!in_string) in_rem rest
    else Char.ofNat b :: detokenize_aux in_string in_rem rest

/-- detokenize from src/tokens.py. -/
def detokenize (tokens : List Nat) : List Char := detokenize_aux false false tokens

/-- detokenize applied to a stored bytes object. -/
def detokenize_bytes (tokens : List Byte) : List Char :=
  detokenize (tokens.map Fin.val)

/-!  ## TokenizedProgramStore (src/tokenized_program.py) -/

/-- Python str whitespace (the characters str.strip removes for the
ASCII inputs this embedding covers). -/
def py_space (c : Char) : Bool :=
  c = ' ' || c = '\t' || c = '\n' || c = '\x0d' || c = '\x0b' || c = '\x0c'

def py_strip_left : List Char → List Char
  | [] => []
  | c :: rest => if py_space c then py_strip_left rest else c :: rest

/-- Python str.strip(). -/
def py_strip (l : List Char) : List Char :=
  py_strip_left ((py_strip_left l.reverse).reverse)

/-- Python str.isalpha restricted to ASCII (all inputs the claims
exercise are ASCII, where the two notions agree). -/
def ascii_alpha (c : Char) : Bool :=
  ('A' ≤ c && c ≤ 'Z') || ('a' ≤ c && c ≤ 'z')

/-- Python str.isalnum restricted to ASCII. -/
def ascii_alnum (c : Char) : Bool := ascii_alpha c || ('0' ≤ c && c ≤ '9')

/-- The characters of the Python literal '=<>+-*/'. -/
def op_chars : List Char := ['=', '<', '>', '+', '-', '*', '/']

/-- One lookahead/lookbehind step of _strip_whitespace; acc holds the
result list in reverse (so acc.head? is result[-1]). -/
def strip_ws_loop (in_string in_rem : Bool) (acc : List Char) :
    List Char → List Char
  | [] => acc
  | c :: rest =>
    if c = '"' && !in_rem then
      strip_ws_loop (!in_string) in_rem (c :: acc) rest
    else if in_string || in_rem then
      strip_ws_loop in_string in_rem (c :: acc) rest
    else if c = ' ' || c = '\t' then
      let prevOp := match acc.head? with
        | some p => op_chars.contains p
        | none => false
      let nextOp := match rest.head? with
        | some n => op_chars.contains n
        | none => false
      let prevAlnum := match acc.head? with
        | some p => ascii_alnum p
        | none => false
      let nextAlpha := match rest.head? with
        | some n => ascii_alpha n
        | none => false
      if prevOp || nextOp then
        if acc ≠ [] ∧ acc.head? ≠ some ' ' then
          strip_ws_loop in_string in_rem (' ' :: acc) rest
        else strip_ws_loop in_string in_rem acc rest
      else if prevAlnum && nextAlpha then
        if acc ≠ [] ∧ acc.head? ≠ some ' ' then
          strip_ws_loop in_string in_rem (' ' :: acc) rest
        else strip_ws_loop in_string in_rem acc rest
      else strip_ws_loop in_string in_rem acc rest
    else
      let acc' := c :: acc
      let prior_alpha : Bool := match acc'.get? 3 with
        | some x => ascii_alpha x
        | none => false
      let rem_hit : Bool :=
        decide (((acc'.take 3).reverse.map up_char) = "REM".toList) &&
          (decide (acc'.length = 3) || !prior_alpha)
      let in_rem' :=
        if acc'.length ≥ 3 then (if rem_hit then true else in_rem) else in_rem
      strip_ws_loop in_string in_rem' acc' rest

/-- TokenizedProgramStore._strip_whitespace. -/
def strip_whitespace (code : List Char) : List Char :=
  py_strip (strip_ws_loop false false [] code).reverse

/-- TokenizedProgramStore.add_line (console printing dropped): blank
code deletes the line, anything else is whitespace-stripped, tokenized
and stored. -/
def add_line (line_num : Nat) (code : List Char) : M Mem Unit :=
  if py_strip code ≠ [] then
    match to_bytes (tokenize_line (strip_whitespace code)) with
    | none => M.raise .byteRange
    | some tb => do
      let _ ← store_program_line line_num tb
      M.pure ()
  else do
    let _ ← delete_program_line line_num
    M.pure ()

/-- TokenizedProgramStore.delete_line. -/
def delete_line (line_num : Nat) : M Mem Bool := delete_program_line line_num

/-- TokenizedProgramStore.get_all_lines. -/
def get_all_lines : M Mem (List (Nat × List Char)) := do
  let lines ← get_program_lines
  M.pure (lines.map (fun p => (p.1, detokenize_bytes p.2)))

/-!  ## NCDOS virtual disk (src/ncdos/disk.py)

The 163,840-byte image is addressed sector-wise: sector index
`track * 16 + sector` maps to the 256-byte slice at offset
`(track * 16 + sector) * 256`.  Every `_write_sector` call of the
source passes exactly 256 bytes, so each stored sector always holds a
256-byte list; byte reads use the stored list with default 0.
Persistence (save_disk / load_disk) writes the image to a backing
file, which is outside this model and becomes a no-op. -/

structure Disk where
  sec : Nat → List Byte

def TRACKS : Nat := 40
def SECTORS_PER_TRACK : Nat := 16
def BYTES_PER_SECTOR : Nat := 256
def DIR_ENTRIES : Nat := 64
def FAT_SECTOR : Nat := 8
def FAT_SIZE : Nat := 8 * BYTES_PER_SECTOR

/-- Byte read from a stored sector / entry list. -/
def bget (l : List Byte) (i : Nat) : Nat := (l.getD i 0).val

/-- NCDOSDisk._write_sector. -/
def write_sector (track sector : Nat) (data : List Byte) : M Disk Unit :=
  fun d => .ok () ⟨fun i =>
    if i = track * SECTORS_PER_TRACK + sector then data.take 256 else d.sec i⟩

/-- NCDOSDisk._read_sector. -/
def read_sector (track sector : Nat) : M Disk (List Byte) :=
  fun d => .ok (d.sec (track * SECTORS_PER_TRACK + sector)) d

/-- Validated byte construction (a bytearray cell assignment of a
computed value). -/
def to_byte (v : Nat) : M σ Byte := fun s =>
  if h : v < 256 then .ok ⟨v, h⟩ s else .err .byteRange s

/-- Validated bytes() construction from computed values. -/
def bytes_of (l : List Nat) : M σ (List Byte) := fun s =>
  match to_bytes l with
  | some bs => .ok bs s
  | none => .err .byteRange s

/-- bytes.decode('ascii'): UnicodeDecodeError at any byte above 127. -/
def decode_ascii (l : List Byte) : M σ (List Char) := fun s =>
  if l.all (fun b => b.val < 128) then .ok (l.map (fun b => Char.ofNat b.val)) s
  else .err .decodeAscii s

def upper_l (l : List Char) : List Char := l.map up_char

/-- Python str.ljust with spaces. -/
def ljust (l : List Char) (n : Nat) : List Char :=
  l ++ List.replicate (n - l.length) ' '

/-- Python str.split('.'). -/
def split_dot_aux (cur : List Char) : List Char → List (List Char)
  | [] => [cur.reverse]
  | c :: rest =>
    if c = '.' then cur.reverse :: split_dot_aux [] rest
    else split_dot_aux (c :: cur) rest

def split_dot (l : List Char) : List (List Char) := split_dot_aux [] l

/-- NCDOSDisk._create_dir_entry. -/
def create_dir_entry (name ext : List Char) (track sector attributes size : Nat) :
    M σ (List Byte) := do
  let name_nats ← encode_ascii ((ljust (upper_l name) 8).take 8)
  let name_bytes ← bytes_of name_nats
  let ext_nats ← encode_ascii ((ljust (upper_l ext) 3).take 3)
  let ext_bytes ← bytes_of ext_nats
  let attr_b ← to_byte attributes
  let track_b ← to_byte track
  let sector_b ← to_byte sector
  let size_lo : Byte := ⟨size % 256, by omega⟩
  let size_hi : Byte := ⟨size / 256 % 256, by omega⟩
  M.pure (name_bytes ++ ext_bytes ++ [attr_b, track_b, sector_b, size_lo, size_hi]
          ++ List.replicate 16 (0 : Byte))

/-- NCDOSDisk._read_dir_entry. -/
def read_dir_entry (index : Nat) : M Disk (List Byte) := do
  let sector_data ← read_sector 0 (1 + (index * 32) / 256)
  M.pure ((sector_data.drop ((index * 32) % 256)).take 32)

/-- Scan loop of NCDOSDisk._find_free_dir_entry. -/
def find_free_dir_scan : List Nat → M Disk (Option (Nat × Nat × Nat))
  | [] => M.pure none
  | i :: rest => do
    let entry ← read_dir_entry i
    if bget entry 0 = 255 ∨ bget entry 0 = 0 ∨ bget entry 11 ≥ 128 then
      M.pure (some (0, 1 + (i * 32) / 256, (i * 32) % 256))
    else find_free_dir_scan rest

/-- NCDOSDisk._find_free_dir_entry. -/
def find_free_dir_entry : M Disk (Option (Nat × Nat × Nat)) :=
  find_free_dir_scan (List.range DIR_ENTRIES)

/-- Scan loop shared by _find_file and _find_file_entry (they differ
only in what is returned for the matching index). -/
def find_file_scan (name ext : List Char) : List Nat → M Disk (Option Nat)
  | [] => M.pure none
  | i :: rest => do
    let entry ← read_dir_entry i
    if bget entry 0 ≠ 255 ∧ bget entry 0 ≠ 0 then do
      let entry_name ← decode_ascii (entry.take 8)
      let entry_ext ← decode_ascii ((entry.drop 8).take 3)
      if py_strip entry_name = name ∧ py_strip entry_ext = ext then
        if bget entry 11 < 128 then M.pure (some i)
        else find_file_scan name ext rest
      else find_file_scan name ext rest
    else find_file_scan name ext rest

/-- Filename parsing shared by _find_file / _find_file_entry (ext
defaults to the empty string there). -/
def parse_83 (filename : List Char) : List Char × List Char :=
  let parts := split_dot (upper_l filename)
  let name := match parts with
    | [] => filename.take 8
    | p :: _ => p.take 8
  let ext := match parts with
    | _ :: e :: _ => e.take 3
    | _ => []
  (name, ext)

/-- NCDOSDisk._find_file. -/
def find_file (filename : List Char) : M Disk (Option (List Byte)) := do
  let i? ← find_file_scan (parse_83 filename).1 (parse_83 filename).2
            (List.range DIR_ENTRIES)
  match i? with
  | none => M.pure none
  | some i => read_dir_entry i

/-- NCDOSDisk._find_file_entry. -/
def find_file_entry (filename : List Char) :
    M Disk (Option (Nat × Nat × Nat)) := do
  let i? ← find_file_scan (parse_83 filename).1 (parse_83 filename).2
            (List.range DIR_ENTRIES)
  match i? with
  | none => M.pure none
  | some i => M.pure (some (0, 1 + (i * 32) / 256, (i * 32) % 256))

/-- Concatenation loop of NCDOSDisk._read_fat. -/
def read_fat_loop : List Nat → M Disk (List Nat)
  | [] => M.pure []
  | i :: rest => do
    let sd ← read_sector 0 (FAT_SECTOR + i)
    let tl ← read_fat_loop rest
    M.pure (sd.map Fin.val ++ tl)

/-- NCDOSDisk._read_fat. -/
def read_fat : M Disk (List Nat) := read_fat_loop (List.range 8)

/-- Sector-write loop of NCDOSDisk._write_fat. -/
def write_fat_loop (fat : List Nat) : List Nat → M Disk Unit
  | [] => M.pure ()
  | i :: rest => do
    let chunk ← bytes_of ((fat.drop (i * 256)).take 256)
    write_sector 0 (FAT_SECTOR + i) chunk
    write_fat_loop fat rest

/-- NCDOSDisk._write_fat. -/
def write_fat (fat : List Nat) : M Disk Unit := write_fat_loop fat (List.range 8)

/-- Read `fat[i]` (IndexError when out of range). -/
def fat_get (fat : List Nat) (i : Nat) : M σ Nat := fun s =>
  if h : i < fat.length then .ok (fat.get ⟨i, h⟩) s else .err .addrRange s

/-- Assignment `fat[i] = v` on the FAT bytearray: IndexError out of
range, ValueError when the value is not in range(256) — the latter is
reachable from _update_fat_chain, see C3. -/
def fat_set (fat : List Nat) (i v : Nat) : M σ (List Nat) := fun s =>
  if i < fat.length then
    if v < 256 then .ok (fat.set i v) s else .err .byteRange s
  else .err .addrRange s

/-- NCDOSDisk._get_fat_entry. -/
def get_fat_entry (track sector : Nat) : M Disk Nat := do
  let fat ← read_fat
  fat_get fat (track * SECTORS_PER_TRACK + sector)

/-- The data-sector scan order of _allocate_sectors: track 1..39,
sector 0..15. -/
def track_sector_pairs : List (Nat × Nat) :=
  (((List.range TRACKS).drop 1).map
    (fun t => (List.range SECTORS_PER_TRACK).map (fun s => (t, s)))).join

/-- Scan loop of NCDOSDisk._allocate_sectors (returns the accumulated
list as soon as it reaches `count` entries, [] when the scan ends
without reaching it). -/
def allocate_scan (count : Nat) (fat : List Nat) (acc : List (Nat × Nat)) :
    List (Nat × Nat) → M Disk (List (Nat × Nat))
  | [] => M.pure []
  | (t, s) :: rest => do
    let v ← fat_get fat (t * SECTORS_PER_TRACK + s)
    if v = 255 then
      let acc' := acc ++ [(t, s)]
      if acc'.length ≥ count then M.pure acc'
      else allocate_scan count fat acc' rest
    else allocate_scan count fat acc rest

/-- NCDOSDisk._allocate_sectors. -/
def allocate_sectors (count : Nat) : M Disk (List (Nat × Nat)) := do
  let fat ← read_fat
  allocate_scan count fat [] track_sector_pairs

/-- FAT mutation loop of NCDOSDisk._update_fat_chain: every allocated
sector points at the next one (the raw sector index, which raises
ValueError when it does not fit one byte), the last is end-of-file. -/
def update_chain_loop : List (Nat × Nat) → List Nat → M Disk (List Nat)
  | [], fat => M.pure fat
  | [(t, s)], fat => fat_set fat (t * SECTORS_PER_TRACK + s) 254
  | (t, s) :: (nt, ns) :: rest, fat => do
    let fat' ← fat_set fat (t * SECTORS_PER_TRACK + s)
                (nt * SECTORS_PER_TRACK + ns)
    update_chain_loop ((nt, ns) :: rest) fat'

/-- NCDOSDisk._update_fat_chain. -/
def update_fat_chain (sectors : List (Nat × Nat)) : M Disk Unit := do
  let fat ← read_fat
  let fat' ← update_chain_loop sectors fat
  write_fat fat'

/-- Chain-walk loop of NCDOSDisk._free_fat_chain (marks each visited
sector free; stops at end-of-chain, at an already-free entry, or at
track 0 sector 0). -/
def free_chain_loop (fuel : Nat) (track sector : Nat) (fat : List Nat) :
    M Disk (List Nat) :=
  match fuel with
  | 0 => M.hang
  | f + 1 =>
    if track ≠ 0 ∨ sector ≠ 0 then do
      let next_val ← fat_get fat (track * SECTORS_PER_TRACK + sector)
      let fat' ← fat_set fat (track * SECTORS_PER_TRACK + sector) 255
      if next_val = 254 then M.pure fat'
      else if next_val = 255 then M.pure fat'
      else free_chain_loop f (next_val / SECTORS_PER_TRACK)
             (next_val % SECTORS_PER_TRACK) fat'
    else M.pure fat

/-- NCDOSDisk._free_fat_chain. -/
def free_fat_chain (track sector : Nat) : M Disk Unit := do
  let fat ← read_fat
  let fat' ← free_chain_loop FUEL track sector fat
  write_fat fat'

/-- NCDOSDisk.save_disk: writes the image to the backing file; outside
this model of the in-memory filesystem state. -/
def save_disk : M Disk Unit := M.pure ()

/-- NCDOSDisk.delete_file. -/
def delete_file (filename : List Char) : M Disk Bool := do
  let entry_addr ← find_file_entry filename
  match entry_addr with
  | none => M.pure false
  | some (t, s, off) => do
    let sector_data ← read_sector t s
    let file_track := bget sector_data (off + 12)
    let file_sector := bget sector_data (off + 13)
    let new_attr ← to_byte (Nat.lor (bget sector_data (off + 11)) 128)
    write_sector t s (sector_data.set (off + 11) new_attr)
    free_fat_chain file_track file_sector
    save_disk
    M.pure true

/-- Data-sector write loop of NCDOSDisk.save_file (zero-pads the final
sector to 256 bytes). -/
def write_data_loop (data : List Byte) : Nat → List (Nat × Nat) → M Disk Unit
  | _, [] => M.pure ()
  | i, (t, s) :: rest => do
    let sector_data := (data.drop (i * 256)).take 256
    write_sector t s (sector_data ++ List.replicate (256 - sector_data.length) (0 : Byte))
    write_data_loop data (i + 1) rest

/-- NCDOSDisk.save_file.  Note the unconditional delete_file of any
same-named file before the free-slot / free-sector checks. -/
def save_file (filename : List Char) (data : List Byte) : M Disk Bool := do
  let parts := split_dot (upper_l filename)
  let name := match parts with
    | [] => filename.take 8
    | p :: _ => p.take 8
  let ext := match parts with
    | _ :: e :: _ => e.take 3
    | _ => [' ', ' ', ' ']
  let _ ← delete_file filename
  let dir_entry_addr ← find_free_dir_entry
  match dir_entry_addr with
  | none => M.pure false
  | some (dt, ds, off) => do
    let sectors_needed := (data.length + BYTES_PER_SECTOR - 1) / BYTES_PER_SECTOR
    let allocated ← allocate_sectors sectors_needed
    match allocated with
    | [] => M.pure false
    | (first_track, first_sector) :: _ => do
      write_data_loop data 0 allocated
      let dir_entry ← create_dir_entry name ext first_track first_sector 0 data.length
      let sector_data ← read_sector dt ds
      write_sector dt ds ((sector_data.take off) ++ dir_entry
                          ++ (sector_data.drop (off + 32)))
      update_fat_chain allocated
      save_disk
      M.pure true

/-- Chain-follow loop of NCDOSDisk.load_file. -/
def load_chain (fuel : Nat) (track sector : Nat) (data : List Byte)
    (size : Nat) : M Disk (Option (List Byte)) :=
  match fuel with
  | 0 => M.hang
  | f + 1 =>
    if track ≠ 0 ∨ sector ≠ 0 then do
      let sector_data ← read_sector track sector
      let data' := data ++ sector_data
      let fat_entry ← get_fat_entry track sector
      if fat_entry = 254 then M.pure (some (data'.take size))
      else if fat_entry = 255 then M.pure none
      else load_chain f (fat_entry / SECTORS_PER_TRACK)
             (fat_entry % SECTORS_PER_TRACK) data' size
    else M.pure (some (data.take size))

/-- NCDOSDisk.load_file. -/
def load_file (filename : List Char) : M Disk (Option (List Byte)) := do
  let entry? ← find_file filename
  match entry? with
  | none => M.pure none
  | some entry => do
    let track := bget entry 12
    let sector := bget entry 13
    let size := bget entry 14 + 256 * bget entry 15
    load_chain FUEL track sector [] size

/-- Scan loop of NCDOSDisk.list_files. -/
def list_files_scan : List Nat → M Disk (List (List Char × Nat))
  | [] => M.pure []
  | i :: rest => do
    let entry ← read_dir_entry i
    if bget entry 0 ≠ 255 ∧ bget entry 0 ≠ 0 then
      if bget entry 11 < 128 then do
        let name ← decode_ascii (entry.take 8)
        let ext ← decode_ascii ((entry.drop 8).take 3)
        let filename :=
          if py_strip ext ≠ [] then py_strip name ++ '.' :: py_strip ext
          else py_strip name
        let size := bget entry 14 + 256 * bget entry 15
        if bget entry 11 / 8 % 2 = 1 then list_files_scan rest
        else do
          let tl ← list_files_scan rest
          M.pure ((filename, size) :: tl)
      else list_files_scan rest
    else list_files_scan rest

/-- NCDOSDisk.list_files. -/
def list_files : M Disk (List (List Char × Nat)) :=
  list_files_scan (List.range DIR_ENTRIES)

/-- Boot sector contents written by format_disk:
b'NCDOS1.0' + 248 zero bytes. -/
def BOOT_SIG : List Byte :=
  [78, 67, 68, 79, 83, 49, 46, 48] ++ List.replicate 248 (0 : Byte)

/-- The FAT image built by format_disk: every entry set to 0xFF (free),
then entries 0..15 (all of track 0) set to 0x00 (used). -/
def fat_init : List Nat :=
  ((List.range 16).drop 1).foldl (fun f i => f.set i 0)
    ((List.replicate FAT_SIZE 255).set 0 0)

/-- The image of `bytearray(DISK_SIZE)`: every sector all zeros. -/
def blankDisk : Disk := ⟨fun _ => List.replicate 256 (0 : Byte)⟩

/-- NCDOSDisk.format_disk (the eight FAT sector writes of the source
are the write_fat loop applied to fat_init). -/
def format_disk (label : List Char) : M Disk Unit := do
  M.set blankDisk
  write_sector 0 0 BOOT_SIG
  write_fat fat_init
  let label_entry ← create_dir_entry (label.take 8) ['V', 'O', 'L'] 0 0 8 0
  write_sector 0 1 (label_entry ++ List.replicate 224 (255 : Byte))
  save_disk
  M.pure ()

/-- The state of a freshly formatted disk (format_disk "NCDOS", the
default label). -/
def freshDisk : Disk :=
  match format_disk ['N', 'C', 'D', 'O', 'S'] blankDisk with
  | .ok _ d => d
  | .err _ d => d
  | .hang => blankDisk

/-!  ## Evaluation lemmas for the primitives -/

/-- Truncation of a computed value to a byte. -/
def byteOf (n : Nat) : Byte := ⟨n % 256, Nat.mod_lt _ (by norm_num)⟩

@[simp] theorem byteOf_val (n : Nat) : (byteOf n).val = n % 256 := rfl

/-- The 16-bit little-endian read, as a pure function of the arena. -/
def r16 (m : Nat → Byte) (a : Nat) : Nat := (m a).val + 256 * (m (a + 1)).val

/-- The 16-bit little-endian store, as a pure function of the arena. -/
def st16 (m : Nat → Byte) (a v : Nat) : Nat → Byte :=
  upd (upd m a (byteOf v)) (a + 1) (byteOf (v / 256))

theorem r16_lt (m : Nat → Byte) (a : Nat) : r16 m a < 65536 := by
  have h1 := (m a).isLt
  have h2 := (m (a + 1)).isLt
  simp only [r16]
  omega

theorem read_byte_run (a : Nat) (s : Mem) (h : a < 65536) :
    read_byte a s = .ok (s.mem a).val s := by
  simp [read_byte, MEM_SIZE, h]

theorem set_byte_run (a v : Nat) (s : Mem) (ha : a < 65536) (hv : v < 256) :
    set_byte a v s = .ok () { s with mem := upd s.mem a (byteOf v) } := by
  simp only [set_byte, MEM_SIZE]
  rw [if_pos ha, dif_pos hv]
  congr 2
  simp [byteOf, Nat.mod_eq_of_lt hv]

theorem store_int16_run (a v : Nat) (s : Mem) (h : a + 1 < 65536) (hv : v < 65536) :
    store_int16 a v s = .ok () { s with mem := st16 s.mem a v } := by
  simp only [store_int16, MEM_SIZE]
  rw [if_neg (by omega)]
  have hmod : v % 65536 = v := Nat.mod_eq_of_lt hv
  simp only [hmod, st16, byteOf]

theorem read_int16_run (a : Nat) (s : Mem) (h : a + 1 < 65536) :
    read_int16 a s = .ok (r16 s.mem a) s := by
  simp only [read_int16, MEM_SIZE, r16]
  rw [if_neg (by omega)]

theorem r16_st16_same (m : Nat → Byte) (a v : Nat) (hv : v < 65536) :
    r16 (st16 m a v) a = v := by
  simp only [r16, st16, upd]
  have : ¬ (a = a + 1) := by omega
  simp [this]
  omega

theorem st16_frame (m : Nat → Byte) (a v x : Nat) (hx : x ≠ a ∧ x ≠ a + 1) :
    st16 m a v x = m x := by
  simp [st16, upd, hx.1, hx.2]

theorem r16_frame (m m' : Nat → Byte) (a : Nat)
    (h1 : m' a = m a) (h2 : m' (a + 1) = m (a + 1)) :
    r16 m' a = r16 m a := by
  simp [r16, h1, h2]

theorem run_bind_ok (x : M σ α) (f : α → M σ β) (s s' : σ) (a : α)
    (h : x s = .ok a s') : (x >>= f) s = f a s' := by
  simp [run_bind, h]

theorem run_bind_err (x : M σ α) (f : α → M σ β) (s s' : σ) (e : Err)
    (h : x s = .err e s') : (x >>= f) s = .err e s' := by
  simp [run_bind, h]

theorem run_bind_hang (x : M σ α) (f : α → M σ β) (s : σ)
    (h : x s = .hang) : (x >>= f) s = .hang := by
  simp [run_bind, h]

/-!  ## C10: clear_variables frame property -/

/-- C10.  clear_variables writes exactly the six header bytes holding
the variable count (0x0200-0x0201, reset to 0), the next-free-symbol
offset (0x0202-0x0203, reset to 0x0208) and the next-free-variable
address (0x0204-0x0205, reset to 0x0800), and leaves every other
arena byte — including the PAGE field at 0x0206-0x0207, the program
area and all stale variable/symbol bytes — and program_top unchanged. -/
theorem C10_clear_variables_frame (s : Mem) :
    ∃ s', clear_variables s = .ok () s' ∧ s'.program_top = s.program_top ∧
      ∀ a : Nat, s'.mem a =
        if a = 0x200 then (0 : Byte) else if a = 0x201 then (0 : Byte)
        else if a = 0x202 then (8 : Byte) else if a = 0x203 then (2 : Byte)
        else if a = 0x204 then (0 : Byte) else if a = 0x205 then (8 : Byte)
        else s.mem a := by
  refine ⟨{ s with mem := st16 (st16 (st16 s.mem HEADER_VAR_COUNT 0)
      HEADER_NEXT_SYMBOL SYMBOL_DATA_START) HEADER_NEXT_VAR VARS_START }, ?_, rfl, ?_⟩
  · show (store_int16 HEADER_VAR_COUNT 0 >>= fun _ =>
        store_int16 HEADER_NEXT_SYMBOL SYMBOL_DATA_START >>= fun _ =>
        store_int16 HEADER_NEXT_VAR VARS_START) s = _
    rw [run_bind_ok _ _ _ _ _ (store_int16_run _ _ _ (by decide) (by decide))]
    rw [run_bind_ok _ _ _ _ _ (store_int16_run _ _ _ (by decide) (by decide))]
    exact store_int16_run _ _ _ (by decide) (by decide)
  · intro a
    by_cases h0 : a = 0x200 <;> by_cases h1 : a = 0x201 <;>
      by_cases h2 : a = 0x202 <;> by_cases h3 : a = 0x203 <;>
      by_cases h4 : a = 0x204 <;> by_cases h5 : a = 0x205 <;>
      simp_all [st16, upd, byteOf, HEADER_VAR_COUNT, HEADER_NEXT_SYMBOL,
        HEADER_NEXT_VAR, SYMBOL_DATA_START, VARS_START, Fin.ext_iff]

/-!  ## C4: allocation boundary at the end of the variable area -/

/-- Variant of store_int16_run for arbitrary values (the source clamps
to 16 bits). -/
theorem store_int16_run' (a v : Nat) (s : Mem) (h : a + 1 < 65536) :
    store_int16 a v s = .ok () { s with mem := st16 s.mem a (v % 65536) } := by
  simp only [store_int16, MEM_SIZE]
  rw [if_neg (by omega)]
  simp only [st16, byteOf]

theorem encode_ascii_run (name : List Char) (s : σ)
    (hname : name.all (fun c => c.toNat < 128) = true) :
    encode_ascii name s = .ok (name.map Char.toNat) s := by
  simp [encode_ascii, hname]

/-- The cumulative effect of write_bytes, as a pure arena function. -/
def store_fn (m : Nat → Byte) (a : Nat) : List Nat → (Nat → Byte)
  | [] => m
  | v :: rest => store_fn (upd m a (byteOf v)) (a + 1) rest

theorem write_bytes_run : ∀ (l : List Nat) (a : Nat) (s : Mem),
    (∀ b ∈ l, b < 256) → a + l.length ≤ 65536 →
    write_bytes l a s = .ok () { s with mem := store_fn s.mem a l }
  | [], a, s, _, _ => rfl
  | b :: rest, a, s, hb, hlen => by
    show (set_byte a b >>= fun _ => write_bytes rest (a + 1)) s = _
    rw [run_bind_ok _ _ _ _ _
      (set_byte_run _ _ _ (by simp at hlen; omega) (hb b (by simp)))]
    rw [write_bytes_run rest (a + 1) _ (fun x hx => hb x (by simp [hx]))
      (by simp at hlen; omega)]
    rfl

/-- Ascii-encoded name bytes are below 256. -/
theorem name_bytes_lt (name : List Char)
    (hname : name.all (fun c => c.toNat < 128) = true) :
    ∀ b ∈ name.map Char.toNat, b < 256 := by
  intro b hb
  simp only [List.mem_map] at hb
  obtain ⟨c, hc, rfl⟩ := hb
  have := List.all_eq_true.mp hname c hc
  simp at this
  omega

/-- The cumulative effect of a successful write_symbol_entry on the
arena, as a pure function (nsa is the next-free-symbol offset read
from the header). -/
def wse_fn (m : Nat → Byte) (nb : List Nat) (nsa address size : Nat) :
    Nat → Byte :=
  let m1 := upd m nsa (byteOf nb.length)
  let m2 := store_fn m1 (nsa + 1) nb
  let m3 := upd m2 (nsa + 1 + nb.length) (byteOf (address % 256))
  let m4 := upd m3 (nsa + 1 + nb.length + 1) (byteOf (address / 256 % 256))
  let m5 := upd m4 (nsa + 1 + nb.length + 2) (byteOf size)
  st16 m5 HEADER_NEXT_SYMBOL ((nsa + 1 + nb.length + 3) % 65536)

theorem write_symbol_entry_run (name : List Char) (address size : Nat)
    (nsa : Nat) (t : Mem)
    (hname : name.all (fun c => c.toNat < 128) = true)
    (hlen : name.length ≤ 255)
    (hsize : size < 256)
    (hnsa : r16 t.mem HEADER_NEXT_SYMBOL = nsa)
    (hroom : nsa + (4 + name.length) ≤ SYMBOL_TABLE_END) :
    write_symbol_entry name address size t =
      .ok (some nsa)
        { t with mem := wse_fn t.mem (name.map Char.toNat) nsa address size } := by
  have hb : nsa + 4 + name.length ≤ 1023 := by
    simp [SYMBOL_TABLE_END] at hroom; omega
  unfold write_symbol_entry
  rw [run_bind_ok _ _ _ _ _ (encode_ascii_run _ _ hname)]
  beta_reduce
  simp only [List.length_map]
  rw [run_bind_ok _ _ _ _ _ (read_int16_run HEADER_NEXT_SYMBOL t (by decide))]
  beta_reduce
  simp only [hnsa]
  rw [if_neg (by simp [SYMBOL_TABLE_END]; omega)]
  rw [run_bind_ok _ _ _ _ _ (set_byte_run nsa name.length _
    (by omega) (by omega))]
  beta_reduce
  rw [run_bind_ok _ _ _ _ _ (write_bytes_run (name.map Char.toNat) (nsa + 1) _
    (name_bytes_lt name hname) (by simp only [List.length_map]; omega))]
  beta_reduce
  rw [run_bind_ok _ _ _ _ _ (set_byte_run (nsa + 1 + name.length)
    (address % 256) _ (by omega) (by omega))]
  beta_reduce
  rw [run_bind_ok _ _ _ _ _ (set_byte_run (nsa + 1 + name.length + 1)
    (address / 256 % 256) _ (by omega) (by omega))]
  beta_reduce
  rw [run_bind_ok _ _ _ _ _ (set_byte_run (nsa + 1 + name.length + 2)
    size _ (by omega) hsize)]
  beta_reduce
  rw [run_bind_ok _ _ _ _ _
    (store_int16_run' HEADER_NEXT_SYMBOL (nsa + 1 + name.length + 3) _
      (by decide))]
  simp only [wse_fn, List.length_map]
  rfl

/-- allocate_variable immediately returns the recorded address, with no
state change, when find_symbol hits. -/
theorem allocate_variable_hit (name : List Char) (size : Nat) (s : Mem)
    (addr sz : Nat) (hfind : find_symbol name s = .ok (some (addr, sz)) s) :
    allocate_variable name size s = .ok addr s := by
  unfold allocate_variable
  rw [run_bind_ok _ _ _ _ _ hfind]
  rfl

/-- allocate_variable reduces to the fresh-allocation body when
find_symbol misses. -/
theorem allocate_variable_miss (name : List Char) (size : Nat) (s : Mem)
    (hfind : find_symbol name s = .ok none s) :
    allocate_variable name size s = allocate_variable_fresh name size s := by
  unfold allocate_variable
  rw [run_bind_ok _ _ _ _ _ hfind]

/-- The variable-count bump at the end of allocate_variable. -/
theorem bump_count_run (nv : Nat) (t : Mem) :
    (do
      let var_count ← read_int16 HEADER_VAR_COUNT
      store_int16 HEADER_VAR_COUNT (var_count + 1)
      M.pure nv : M Mem Nat) t =
    .ok nv { t with
             mem := st16 t.mem HEADER_VAR_COUNT ((r16 t.mem HEADER_VAR_COUNT + 1) % 65536) } := by
  rw [run_bind_ok _ _ _ _ _ (read_int16_run HEADER_VAR_COUNT t (by decide))]
  beta_reduce
  rw [run_bind_ok _ _ _ _ _
    (store_int16_run' HEADER_VAR_COUNT (r16 t.mem HEADER_VAR_COUNT + 1) t (by decide))]
  rfl

/-- The cumulative arena effect of a successful fresh allocation:
cursor bump, symbol entry write, variable-count bump. -/
def alloc_fn (m : Nat → Byte) (nb : List Nat) (nsa nv size : Nat) : Nat → Byte :=
  let m1 := st16 m HEADER_NEXT_VAR (nv + size)
  let m2 := wse_fn m1 nb nsa nv size
  st16 m2 HEADER_VAR_COUNT ((r16 m2 HEADER_VAR_COUNT + 1) % 65536)

theorem allocate_variable_fresh_run (name : List Char) (size : Nat) (s : Mem)
    (hname : name.all (fun c => c.toNat < 128) = true)
    (hlen : name.length ≤ 255)
    (hsize : size < 256)
    (hroom : r16 s.mem HEADER_NEXT_SYMBOL + (4 + name.length) ≤ SYMBOL_TABLE_END)
    (hfit : r16 s.mem HEADER_NEXT_VAR + size ≤ VARS_END) :
    allocate_variable_fresh name size s =
      .ok (r16 s.mem HEADER_NEXT_VAR)
        { s with mem := alloc_fn s.mem (name.map Char.toNat)
                          (r16 s.mem HEADER_NEXT_SYMBOL)
                          (r16 s.mem HEADER_NEXT_VAR) size } := by
  have hnv : r16 s.mem HEADER_NEXT_VAR + size < 65536 := by
    simp [VARS_END] at hfit; omega
  unfold allocate_variable_fresh
  rw [run_bind_ok _ _ _ _ _ (read_int16_run HEADER_NEXT_VAR s (by decide))]
  beta_reduce
  rw [if_neg (by simp only [VARS_END] at hfit ⊢; omega)]
  rw [run_bind_ok _ _ _ _ _ (store_int16_run HEADER_NEXT_VAR
    (r16 s.mem HEADER_NEXT_VAR + size) s (by decide) hnv)]
  rw [run_bind_ok _ _ _ _ _ (write_symbol_entry_run name
    (r16 s.mem HEADER_NEXT_VAR) size (r16 s.mem HEADER_NEXT_SYMBOL) _
    hname hlen hsize ?hn hroom)]
  case hn =>
    exact r16_frame s.mem
      (st16 s.mem HEADER_NEXT_VAR (r16 s.mem HEADER_NEXT_VAR + size))
      HEADER_NEXT_SYMBOL
      (st16_frame s.mem HEADER_NEXT_VAR _ HEADER_NEXT_SYMBOL (by decide))
      (st16_frame s.mem HEADER_NEXT_VAR _ (HEADER_NEXT_SYMBOL + 1) (by decide))
  exact bump_count_run (r16 s.mem HEADER_NEXT_VAR) _

/-- Amended C4.  With the next-free-variable cursor at nv, allocating a
fresh name fails with MemoryFull exactly when nv + size > 0x0FFF — so
an allocation whose last byte would be exactly the area's last byte
0x0FFF (nv + size = 0x1000) also fails, one byte earlier than the
claim's boundary — and a failing allocation returns with no state
change at all; an allocation with nv + size ≤ 0x0FFF succeeds and
returns nv. -/
theorem C4_allocate_boundary (s : Mem) (name : List Char) (size : Nat)
    (hname : name.all (fun c => c.toNat < 128) = true)
    (hlen : name.length ≤ 255)
    (hfind : find_symbol name s = .ok none s)
    (hroom : r16 s.mem HEADER_NEXT_SYMBOL + (4 + name.length) ≤ SYMBOL_TABLE_END) :
    (r16 s.mem HEADER_NEXT_VAR + size > VARS_END →
      allocate_variable name size s = .err .memoryFull s)
    ∧ (r16 s.mem HEADER_NEXT_VAR + size ≤ VARS_END → size < 256 →
      ∃ s', allocate_variable name size s = .ok (r16 s.mem HEADER_NEXT_VAR) s') := by
  constructor
  · intro hfull
    rw [allocate_variable_miss name size s hfind]
    unfold allocate_variable_fresh
    rw [run_bind_ok _ _ _ _ _ (read_int16_run HEADER_NEXT_VAR s (by decide))]
    beta_reduce
    rw [if_pos hfull]
    rfl
  · intro hfit hsize
    exact ⟨_, by
      rw [allocate_variable_miss name size s hfind]
      exact allocate_variable_fresh_run name size s hname hlen hsize hroom hfit⟩

/-- C4 counterexample.  On a fresh arena the next-free-variable cursor
is 0x0800, so a 2048-byte allocation occupies 0x0800..0x0FFF, ending
exactly at the variable area's last byte; the claim says it succeeds,
but allocate_variable raises MemoryFull (with no state change). -/
theorem C4_counterexample :
    allocate_variable ['A'] 2048 freshMem = .err .memoryFull freshMem
    ∧ r16 freshMem.mem HEADER_NEXT_VAR = VARS_START
    ∧ VARS_START + 2048 - 1 = VARS_END := by
  refine ⟨?_, rfl, rfl⟩
  rfl

/-- Witness for the amended C4: a concrete in-bounds allocation from
the fresh state succeeds and returns the cursor value 0x0800. -/
theorem C4_allocate_boundary_witness :
    (∃ s', allocate_variable ['B'] 100 freshMem =
      .ok (r16 freshMem.mem HEADER_NEXT_VAR) s')
    ∧ r16 freshMem.mem HEADER_NEXT_VAR = 2048
    ∧ r16 freshMem.mem HEADER_NEXT_VAR + 100 ≤ VARS_END :=
  ⟨(C4_allocate_boundary freshMem ['B'] 100 (by decide) (by decide) rfl
      (by decide)).2 (by decide) (by decide), rfl, by decide⟩

/-!  ## Symbol table representation and find_symbol correctness -/

/-- Raw bytes of the arena from a, n bytes long. -/
def mem_bytes (m : Nat → Byte) : Nat → Nat → List Nat
  | _, 0 => []
  | a, n + 1 => (m a).val :: mem_bytes m (a + 1) n

/-- The symbol region [ptr, limit) holds exactly the given entries
(name bytes, address, size), laid out back to back in the
write_symbol_entry format. -/
inductive SymRep (m : Nat → Byte) (limit : Nat) : Nat → List (List Nat × Nat × Nat) → Prop
  | nil (ptr : Nat) (h : ptr = limit) : SymRep m limit ptr []
  | cons (ptr : Nat) (nb : List Nat) (addr size : Nat)
      (rest : List (List Nat × Nat × Nat))
      (hlen : (m ptr).val = nb.length)
      (hpos : 1 ≤ nb.length)
      (hbytes : mem_bytes m (ptr + 1) nb.length = nb)
      (haddr : (m (ptr + 1 + nb.length)).val
               + 256 * (m (ptr + 1 + nb.length + 1)).val = addr)
      (hsize : (m (ptr + 1 + nb.length + 2)).val = size)
      (hrest : SymRep m limit (ptr + 1 + nb.length + 3) rest) :
      SymRep m limit ptr ((nb, addr, size) :: rest)

theorem symRep_le {m : Nat → Byte} {limit ptr : Nat}
    {E : List (List Nat × Nat × Nat)} (h : SymRep m limit ptr E) :
    ptr + 5 * E.length ≤ limit := by
  induction h with
  | nil ptr h => simp [h]
  | cons ptr nb addr size rest hlen hpos _ _ _ _ ih =>
    simp only [List.length_cons]
    omega

/-- First-match association lookup among the represented entries —
the reference semantics of find_symbol. -/
def symAssoc (nb : List Nat) : List (List Nat × Nat × Nat) → Option (Nat × Nat)
  | [] => none
  | (enb, addr, size) :: rest =>
    if enb = nb then some (addr, size) else symAssoc nb rest

theorem match_bytes_spec : ∀ (l : List Nat) (a : Nat) (s : Mem),
    a + l.length ≤ 65536 →
    match_bytes l a s = .ok (decide (mem_bytes s.mem a l.length = l)) s
  | [], a, s, _ => rfl
  | b :: rest, a, s, hle => by
    show (read_byte a >>= fun x => _) s = _
    rw [run_bind_ok _ _ _ _ _ (read_byte_run a s (by simp at hle; omega))]
    beta_reduce
    by_cases hx : (s.mem a).val = b
    · rw [if_neg (by simpa using hx)]
      rw [match_bytes_spec rest (a + 1) s (by simp at hle; omega)]
      simp [mem_bytes, hx]
    · rw [if_pos (by simpa using hx)]
      simp [mem_bytes, hx]

theorem find_symbol_loop_spec (s : Mem) (nbs : List Nat) (limit : Nat) :
    ∀ (E : List (List Nat × Nat × Nat)) (ptr fuel : Nat),
    SymRep s.mem limit ptr E → limit ≤ 1023 → E.length < fuel →
    find_symbol_loop fuel nbs limit ptr s = .ok (symAssoc nbs E) s := by
  intro E ptr fuel hrep
  induction hrep generalizing fuel with
  | nil ptr h =>
    intro hlim hfuel
    match fuel, hfuel with
    | f + 1, _ =>
      show (if ptr < limit then _ else M.pure none) s = _
      rw [if_neg (by omega)]
      rfl
  | cons ptr nb addr size rest hlen hpos hbytes haddr hsize hrest ih =>
    intro hlim hfuel
    have hend : ptr + 4 + nb.length ≤ limit := by
      have := symRep_le hrest
      omega
    have hptr : ptr < limit := by omega
    match fuel, hfuel with
    | f + 1, hfuel =>
      show (if ptr < limit then _ else M.pure none) s = _
      rw [if_pos hptr]
      rw [run_bind_ok _ _ _ _ _ (read_byte_run ptr s (by omega))]
      beta_reduce
      rw [hlen]
      rw [if_neg (by omega)]
      by_cases hl : nb.length = nbs.length
      · rw [if_pos hl]
        rw [run_bind_ok _ _ _ _ _
          (match_bytes_spec nbs (ptr + 1) s (by omega))]
        beta_reduce
        by_cases heq : nb = nbs
        · have hmb : mem_bytes s.mem (ptr + 1) nbs.length = nbs := by
            rw [← hl, hbytes, heq]
          rw [hmb]
          rw [if_pos (show decide (nbs = nbs) = true by simp)]
          rw [run_bind_ok _ _ _ _ _ (read_byte_run (ptr + 1 + nb.length) s (by omega))]
          beta_reduce
          rw [run_bind_ok _ _ _ _ _
            (read_byte_run (ptr + 1 + nb.length + 1) s (by omega))]
          beta_reduce
          rw [run_bind_ok _ _ _ _ _
            (read_byte_run (ptr + 1 + nb.length + 2) s (by omega))]
          beta_reduce
          simp only [symAssoc, if_pos heq]
          rw [haddr, hsize]
          rfl
        · have hmb : mem_bytes s.mem (ptr + 1) nbs.length ≠ nbs := by
            rw [← hl, hbytes]; exact heq
          rw [decide_eq_false hmb]
          rw [if_neg (by simp)]
          rw [ih f hlim (by simp at hfuel ⊢; omega)]
          simp [symAssoc, if_neg heq]
      · rw [if_neg hl]
        rw [run_bind_ok _ _ _ _ _ (run_mpure false s)]
        beta_reduce
        rw [if_neg (by simp)]
        rw [ih f hlim (by simp at hfuel ⊢; omega)]
        have : nb ≠ nbs := fun h => hl (by rw [h])
        simp [symAssoc, if_neg this]

/-- find_symbol on a well-represented symbol region returns the first
matching entry (and changes nothing). -/
theorem find_symbol_spec (s : Mem) (name : List Char)
    (E : List (List Nat × Nat × Nat))
    (hrep : SymRep s.mem (r16 s.mem HEADER_NEXT_SYMBOL) SYMBOL_DATA_START E)
    (hlim : r16 s.mem HEADER_NEXT_SYMBOL ≤ 1023)
    (hname : name.all (fun c => c.toNat < 128) = true) :
    find_symbol name s = .ok (symAssoc (name.map Char.toNat) E) s := by
  unfold find_symbol
  rw [run_bind_ok _ _ _ _ _ (encode_ascii_run _ _ hname)]
  beta_reduce
  rw [run_bind_ok _ _ _ _ _ (read_int16_run HEADER_NEXT_SYMBOL s (by decide))]
  beta_reduce
  apply find_symbol_loop_spec s _ _ E SYMBOL_DATA_START FUEL hrep hlim
  have := symRep_le hrep
  simp only [SYMBOL_DATA_START] at this
  simp only [FUEL]
  omega

/-!  ## Allocation preserves the symbol-table representation (C8) -/

theorem store_fn_frame : ∀ (l : List Nat) (m : Nat → Byte) (a x : Nat),
    (x < a ∨ a + l.length ≤ x) → store_fn m a l x = m x
  | [], m, a, x, _ => rfl
  | b :: rest, m, a, x, h => by
    show store_fn (upd m a (byteOf b)) (a + 1) rest x = m x
    rw [store_fn_frame rest _ (a + 1) x (by simp at h; omega)]
    exact upd_other m a (byteOf b) x (by simp at h; omega)

theorem mem_bytes_congr : ∀ (n a : Nat) (g f : Nat → Byte),
    (∀ i, i < n → g (a + i) = f (a + i)) → mem_bytes g a n = mem_bytes f a n
  | 0, _, _, _, _ => rfl
  | n + 1, a, g, f, h => by
    show (g a).val :: mem_bytes g (a + 1) n = (f a).val :: mem_bytes f (a + 1) n
    have h0 := h 0 (by omega)
    simp only [Nat.add_zero] at h0
    rw [h0, mem_bytes_congr n (a + 1) g f
      (fun i hi => by have := h (1 + i) (by omega); rwa [show a + (1 + i) = a + 1 + i by omega] at this)]

theorem mem_bytes_store_fn : ∀ (l : List Nat) (m : Nat → Byte) (a : Nat),
    (∀ b ∈ l, b < 256) → mem_bytes (store_fn m a l) a l.length = l
  | [], _, _, _ => rfl
  | b :: rest, m, a, hb => by
    show (store_fn (upd m a (byteOf b)) (a + 1) rest a).val ::
      mem_bytes (store_fn (upd m a (byteOf b)) (a + 1) rest) (a + 1) rest.length
      = b :: rest
    rw [store_fn_frame rest _ (a + 1) a (by omega)]
    rw [upd_same]
    rw [mem_bytes_store_fn rest _ (a + 1) (fun x hx => hb x (by simp [hx]))]
    simp [byteOf, Nat.mod_eq_of_lt (hb b (by simp))]

/-- Rebuild a symbol representation over a changed arena that agrees on
the represented region, appending extra entries represented at the old
limit. -/
theorem symRep_append {m m' : Nat → Byte} {limit limit' ptr : Nat}
    {E F : List (List Nat × Nat × Nat)}
    (hE : SymRep m limit ptr E)
    (hagree : ∀ x, ptr ≤ x → x < limit → m' x = m x)
    (hF : SymRep m' limit' limit F) :
    SymRep m' limit' ptr (E ++ F) := by
  induction hE with
  | nil p h => subst h; simpa using hF
  | cons p nb addr size rest hlen hpos hbytes haddr hsize hrest ih =>
    have hend : p + 4 + nb.length ≤ limit := by
      have := symRep_le hrest; omega
    refine SymRep.cons p nb addr size (rest ++ F) ?_ hpos ?_ ?_ ?_ ?_
    · rw [hagree p (by omega) (by omega)]; exact hlen
    · rw [mem_bytes_congr nb.length (p + 1) m' m
        (fun i hi => hagree (p + 1 + i) (by omega) (by omega))]
      exact hbytes
    · rw [hagree (p + 1 + nb.length) (by omega) (by omega),
          hagree (p + 1 + nb.length + 1) (by omega) (by omega)]
      exact haddr
    · rw [hagree (p + 1 + nb.length + 2) (by omega) (by omega)]
      exact hsize
    · exact ih (fun x hx1 hx2 => hagree x (by omega) hx2)

theorem symAssoc_append_none (nb : List Nat)
    (E F : List (List Nat × Nat × Nat)) (h : symAssoc nb E = none) :
    symAssoc nb (E ++ F) = symAssoc nb F := by
  induction E with
  | nil => simp
  | cons e rest ih =>
    obtain ⟨enb, addr, size⟩ := e
    simp only [symAssoc, List.cons_append] at h ⊢
    by_cases he : enb = nb
    · simp [he] at h
    · rw [if_neg he] at h ⊢
      exact ih h

section AllocFacts

variable (m : Nat → Byte) (nb : List Nat) (nsa nv size : Nat)

/-- Below the old next-symbol offset (and above the header) the
allocation writes nothing. -/
theorem alloc_fn_frame (hn8 : SYMBOL_DATA_START ≤ nsa) :
    ∀ x, SYMBOL_DATA_START ≤ x → x < nsa →
      alloc_fn m nb nsa nv size x = m x := by
  intro x hx1 hx2
  simp only [SYMBOL_DATA_START] at hx1 hn8
  simp only [alloc_fn, wse_fn, st16]
  rw [upd_other _ (HEADER_VAR_COUNT + 1) _ x (by simp only [HEADER_VAR_COUNT]; omega)]
  rw [upd_other _ HEADER_VAR_COUNT _ x (by simp only [HEADER_VAR_COUNT]; omega)]
  rw [upd_other _ (HEADER_NEXT_SYMBOL + 1) _ x (by simp only [HEADER_NEXT_SYMBOL]; omega)]
  rw [upd_other _ HEADER_NEXT_SYMBOL _ x (by simp only [HEADER_NEXT_SYMBOL]; omega)]
  rw [upd_other _ (nsa + 1 + nb.length + 2) _ x (by omega)]
  rw [upd_other _ (nsa + 1 + nb.length + 1) _ x (by omega)]
  rw [upd_other _ (nsa + 1 + nb.length) _ x (by omega)]
  rw [store_fn_frame _ _ _ _ (by omega)]
  rw [upd_other _ nsa _ x (by omega)]
  rw [upd_other _ (HEADER_NEXT_VAR + 1) _ x (by simp only [HEADER_NEXT_VAR]; omega)]
  rw [upd_other _ HEADER_NEXT_VAR _ x (by simp only [HEADER_NEXT_VAR]; omega)]

/-- The stored name-length byte of the new entry. -/
theorem alloc_fn_len (hn8 : SYMBOL_DATA_START ≤ nsa) (hlen : nb.length ≤ 255) :
    (alloc_fn m nb nsa nv size nsa).val = nb.length := by
  have h8 : (520 : Nat) ≤ nsa := hn8
  simp only [alloc_fn, wse_fn, st16]
  rw [upd_other _ (HEADER_VAR_COUNT + 1) _ nsa (by simp only [HEADER_VAR_COUNT]; omega)]
  rw [upd_other _ HEADER_VAR_COUNT _ nsa (by simp only [HEADER_VAR_COUNT]; omega)]
  rw [upd_other _ (HEADER_NEXT_SYMBOL + 1) _ nsa (by simp only [HEADER_NEXT_SYMBOL]; omega)]
  rw [upd_other _ HEADER_NEXT_SYMBOL _ nsa (by simp only [HEADER_NEXT_SYMBOL]; omega)]
  rw [upd_other _ (nsa + 1 + nb.length + 2) _ nsa (by omega)]
  rw [upd_other _ (nsa + 1 + nb.length + 1) _ nsa (by omega)]
  rw [upd_other _ (nsa + 1 + nb.length) _ nsa (by omega)]
  rw [store_fn_frame _ _ _ _ (by omega)]
  rw [upd_same]
  simp [byteOf, Nat.mod_eq_of_lt (by omega : nb.length < 256)]

/-- The stored name bytes of the new entry. -/
theorem alloc_fn_name (hn8 : SYMBOL_DATA_START ≤ nsa)
    (hb : ∀ b ∈ nb, b < 256) :
    mem_bytes (alloc_fn m nb nsa nv size) (nsa + 1) nb.length = nb := by
  have h8 : (520 : Nat) ≤ nsa := hn8
  have hcongr : ∀ i, i < nb.length →
      alloc_fn m nb nsa nv size (nsa + 1 + i) =
      store_fn (upd (st16 m HEADER_NEXT_VAR (nv + size)) nsa (byteOf nb.length))
        (nsa + 1) nb (nsa + 1 + i) := by
    intro i hi
    simp only [alloc_fn, wse_fn, st16]
    rw [upd_other _ (HEADER_VAR_COUNT + 1) _ _ (by simp only [HEADER_VAR_COUNT]; omega)]
    rw [upd_other _ HEADER_VAR_COUNT _ _ (by simp only [HEADER_VAR_COUNT]; omega)]
    rw [upd_other _ (HEADER_NEXT_SYMBOL + 1) _ _ (by simp only [HEADER_NEXT_SYMBOL]; omega)]
    rw [upd_other _ HEADER_NEXT_SYMBOL _ _ (by simp only [HEADER_NEXT_SYMBOL]; omega)]
    rw [upd_other _ (nsa + 1 + nb.length + 2) _ _ (by omega)]
    rw [upd_other _ (nsa + 1 + nb.length + 1) _ _ (by omega)]
    rw [upd_other _ (nsa + 1 + nb.length) _ _ (by omega)]
  rw [mem_bytes_congr nb.length (nsa + 1) _ _ hcongr]
  exact mem_bytes_store_fn nb _ (nsa + 1) hb

/-- The stored variable address of the new entry. -/
theorem alloc_fn_addr (hn8 : SYMBOL_DATA_START ≤ nsa) (hnv : nv < 65536) :
    (alloc_fn m nb nsa nv size (nsa + 1 + nb.length)).val
    + 256 * (alloc_fn m nb nsa nv size (nsa + 1 + nb.length + 1)).val = nv := by
  have h8 : (520 : Nat) ≤ nsa := hn8
  have e1 : (alloc_fn m nb nsa nv size (nsa + 1 + nb.length)).val = nv % 256 := by
    simp only [alloc_fn, wse_fn, st16]
    rw [upd_other _ (HEADER_VAR_COUNT + 1) _ _ (by simp only [HEADER_VAR_COUNT]; omega)]
    rw [upd_other _ HEADER_VAR_COUNT _ _ (by simp only [HEADER_VAR_COUNT]; omega)]
    rw [upd_other _ (HEADER_NEXT_SYMBOL + 1) _ _ (by simp only [HEADER_NEXT_SYMBOL]; omega)]
    rw [upd_other _ HEADER_NEXT_SYMBOL _ _ (by simp only [HEADER_NEXT_SYMBOL]; omega)]
    rw [upd_other _ (nsa + 1 + nb.length + 2) _ _ (by omega)]
    rw [upd_other _ (nsa + 1 + nb.length + 1) _ _ (by omega)]
    rw [upd_same]
    simp [byteOf]
  have e2 : (alloc_fn m nb nsa nv size (nsa + 1 + nb.length + 1)).val
      = nv / 256 % 256 := by
    simp only [alloc_fn, wse_fn, st16]
    rw [upd_other _ (HEADER_VAR_COUNT + 1) _ _ (by simp only [HEADER_VAR_COUNT]; omega)]
    rw [upd_other _ HEADER_VAR_COUNT _ _ (by simp only [HEADER_VAR_COUNT]; omega)]
    rw [upd_other _ (HEADER_NEXT_SYMBOL + 1) _ _ (by simp only [HEADER_NEXT_SYMBOL]; omega)]
    rw [upd_other _ HEADER_NEXT_SYMBOL _ _ (by simp only [HEADER_NEXT_SYMBOL]; omega)]
    rw [upd_other _ (nsa + 1 + nb.length + 2) _ _ (by omega)]
    rw [upd_same]
    simp [byteOf]
  rw [e1, e2]
  omega

/-- The stored size byte of the new entry. -/
theorem alloc_fn_size (hn8 : SYMBOL_DATA_START ≤ nsa) (hsize : size < 256) :
    (alloc_fn m nb nsa nv size (nsa + 1 + nb.length + 2)).val = size := by
  have h8 : (520 : Nat) ≤ nsa := hn8
  simp only [alloc_fn, wse_fn, st16]
  rw [upd_other _ (HEADER_VAR_COUNT + 1) _ _ (by simp only [HEADER_VAR_COUNT]; omega)]
  rw [upd_other _ HEADER_VAR_COUNT _ _ (by simp only [HEADER_VAR_COUNT]; omega)]
  rw [upd_other _ (HEADER_NEXT_SYMBOL + 1) _ _ (by simp only [HEADER_NEXT_SYMBOL]; omega)]
  rw [upd_other _ HEADER_NEXT_SYMBOL _ _ (by simp only [HEADER_NEXT_SYMBOL]; omega)]
  rw [upd_same]
  simp [byteOf, Nat.mod_eq_of_lt hsize]

/-- The next-free-symbol header field after the allocation. -/
theorem alloc_fn_nsa (hn8 : SYMBOL_DATA_START ≤ nsa)
    (hend : nsa + 4 + nb.length ≤ 65535) :
    r16 (alloc_fn m nb nsa nv size) HEADER_NEXT_SYMBOL = nsa + 4 + nb.length := by
  have h8 : (520 : Nat) ≤ nsa := hn8
  have e1 : alloc_fn m nb nsa nv size HEADER_NEXT_SYMBOL
      = byteOf ((nsa + 1 + nb.length + 3) % 65536) := by
    simp only [alloc_fn, wse_fn, st16]
    rw [upd_other _ (HEADER_VAR_COUNT + 1) _ _
      (by simp only [HEADER_VAR_COUNT, HEADER_NEXT_SYMBOL]; omega)]
    rw [upd_other _ HEADER_VAR_COUNT _ _
      (by simp only [HEADER_VAR_COUNT, HEADER_NEXT_SYMBOL]; omega)]
    rw [upd_other _ (HEADER_NEXT_SYMBOL + 1) _ _ (by omega)]
    rw [upd_same]
  have e2 : alloc_fn m nb nsa nv size (HEADER_NEXT_SYMBOL + 1)
      = byteOf ((nsa + 1 + nb.length + 3) % 65536 / 256) := by
    simp only [alloc_fn, wse_fn, st16]
    rw [upd_other _ (HEADER_VAR_COUNT + 1) _ _
      (by simp only [HEADER_VAR_COUNT, HEADER_NEXT_SYMBOL]; omega)]
    rw [upd_other _ HEADER_VAR_COUNT _ _
      (by simp only [HEADER_VAR_COUNT, HEADER_NEXT_SYMBOL]; omega)]
    rw [upd_same]
  simp only [r16, e1, e2, byteOf_val]
  omega

/-- The next-free-variable header field after the allocation. -/
theorem alloc_fn_nv (hn8 : SYMBOL_DATA_START ≤ nsa) (hfit : nv + size ≤ 65535) :
    r16 (alloc_fn m nb nsa nv size) HEADER_NEXT_VAR = nv + size := by
  have h8 : (520 : Nat) ≤ nsa := hn8
  have e1 : alloc_fn m nb nsa nv size HEADER_NEXT_VAR = byteOf (nv + size) := by
    simp only [alloc_fn, wse_fn, st16]
    rw [upd_other _ (HEADER_VAR_COUNT + 1) _ _
      (by simp only [HEADER_VAR_COUNT, HEADER_NEXT_VAR]; omega)]
    rw [upd_other _ HEADER_VAR_COUNT _ _
      (by simp only [HEADER_VAR_COUNT, HEADER_NEXT_VAR]; omega)]
    rw [upd_other _ (HEADER_NEXT_SYMBOL + 1) _ _
      (by simp only [HEADER_NEXT_SYMBOL, HEADER_NEXT_VAR]; omega)]
    rw [upd_other _ HEADER_NEXT_SYMBOL _ _
      (by simp only [HEADER_NEXT_SYMBOL, HEADER_NEXT_VAR]; omega)]
    rw [upd_other _ (nsa + 1 + nb.length + 2) _ _
      (by simp only [HEADER_NEXT_VAR]; omega)]
    rw [upd_other _ (nsa + 1 + nb.length + 1) _ _
      (by simp only [HEADER_NEXT_VAR]; omega)]
    rw [upd_other _ (nsa + 1 + nb.length) _ _
      (by simp only [HEADER_NEXT_VAR]; omega)]
    rw [store_fn_frame _ _ _ _ (by simp only [HEADER_NEXT_VAR]; omega)]
    rw [upd_other _ nsa _ _ (by simp only [HEADER_NEXT_VAR]; omega)]
    rw [upd_other _ (HEADER_NEXT_VAR + 1) _ _ (by omega)]
    rw [upd_same]
  have e2 : alloc_fn m nb nsa nv size (HEADER_NEXT_VAR + 1)
      = byteOf ((nv + size) / 256) := by
    simp only [alloc_fn, wse_fn, st16]
    rw [upd_other _ (HEADER_VAR_COUNT + 1) _ _
      (by simp only [HEADER_VAR_COUNT, HEADER_NEXT_VAR]; omega)]
    rw [upd_other _ HEADER_VAR_COUNT _ _
      (by simp only [HEADER_VAR_COUNT, HEADER_NEXT_VAR]; omega)]
    rw [upd_other _ (HEADER_NEXT_SYMBOL + 1) _ _
      (by simp only [HEADER_NEXT_SYMBOL, HEADER_NEXT_VAR]; omega)]
    rw [upd_other _ HEADER_NEXT_SYMBOL _ _
      (by simp only [HEADER_NEXT_SYMBOL, HEADER_NEXT_VAR]; omega)]
    rw [upd_other _ (nsa + 1 + nb.length + 2) _ _
      (by simp only [HEADER_NEXT_VAR]; omega)]
    rw [upd_other _ (nsa + 1 + nb.length + 1) _ _
      (by simp only [HEADER_NEXT_VAR]; omega)]
    rw [upd_other _ (nsa + 1 + nb.length) _ _
      (by simp only [HEADER_NEXT_VAR]; omega)]
    rw [store_fn_frame _ _ _ _ (by simp only [HEADER_NEXT_VAR]; omega)]
    rw [upd_other _ nsa _ _ (by simp only [HEADER_NEXT_VAR]; omega)]
    rw [upd_same]
  simp only [r16, e1, e2, byteOf_val]
  omega

end AllocFacts

/-!  ## C8: allocate_variable is idempotent per name -/

/-- Well-formed symbol region: the bytes between SYMBOL_DATA_START and
the next-free-symbol header field parse exactly as the entries E. -/
def WfSym (s : Mem) (E : List (List Nat × Nat × Nat)) : Prop :=
  SymRep s.mem (r16 s.mem HEADER_NEXT_SYMBOL) SYMBOL_DATA_START E
  ∧ r16 s.mem HEADER_NEXT_SYMBOL ≤ 1023

theorem allocate_fresh_memfull (name : List Char) (size : Nat) (s : Mem)
    (hfull : r16 s.mem HEADER_NEXT_VAR + size > VARS_END) :
    allocate_variable_fresh name size s = .err .memoryFull s := by
  unfold allocate_variable_fresh
  rw [run_bind_ok _ _ _ _ _ (read_int16_run HEADER_NEXT_VAR s (by decide))]
  beta_reduce
  rw [if_pos hfull]
  rfl

theorem write_symbol_entry_none_run (name : List Char) (address size : Nat)
    (nsa : Nat) (t : Mem)
    (hname : name.all (fun c => c.toNat < 128) = true)
    (hnsa : r16 t.mem HEADER_NEXT_SYMBOL = nsa)
    (hnoroom : nsa + (1 + name.length + 2 + 1) > SYMBOL_TABLE_END) :
    write_symbol_entry name address size t = .ok none t := by
  unfold write_symbol_entry
  rw [run_bind_ok _ _ _ _ _ (encode_ascii_run _ _ hname)]
  beta_reduce
  simp only [List.length_map]
  rw [run_bind_ok _ _ _ _ _ (read_int16_run HEADER_NEXT_SYMBOL t (by decide))]
  beta_reduce
  simp only [hnsa]
  rw [if_pos hnoroom]
  rfl

theorem allocate_fresh_symfull (name : List Char) (size : Nat) (s : Mem)
    (hname : name.all (fun c => c.toNat < 128) = true)
    (hfit : r16 s.mem HEADER_NEXT_VAR + size ≤ VARS_END)
    (hnoroom : r16 s.mem HEADER_NEXT_SYMBOL + (4 + name.length) > SYMBOL_TABLE_END) :
    allocate_variable_fresh name size s = .err .symbolTableFull
      { s with mem := st16 s.mem HEADER_NEXT_VAR (r16 s.mem HEADER_NEXT_VAR + size) } := by
  have hnv : r16 s.mem HEADER_NEXT_VAR + size < 65536 := by
    simp only [VARS_END] at hfit; omega
  unfold allocate_variable_fresh
  rw [run_bind_ok _ _ _ _ _ (read_int16_run HEADER_NEXT_VAR s (by decide))]
  beta_reduce
  rw [if_neg (by omega)]
  rw [run_bind_ok _ _ _ _ _ (store_int16_run HEADER_NEXT_VAR
    (r16 s.mem HEADER_NEXT_VAR + size) s (by decide) hnv)]
  have hn : r16 ({ s with mem := st16 s.mem HEADER_NEXT_VAR (r16 s.mem HEADER_NEXT_VAR + size) } : Mem).mem HEADER_NEXT_SYMBOL
      = r16 s.mem HEADER_NEXT_SYMBOL :=
    r16_frame s.mem _ HEADER_NEXT_SYMBOL
      (st16_frame s.mem HEADER_NEXT_VAR (r16 s.mem HEADER_NEXT_VAR + size)
        HEADER_NEXT_SYMBOL (by decide))
      (st16_frame s.mem HEADER_NEXT_VAR (r16 s.mem HEADER_NEXT_VAR + size)
        (HEADER_NEXT_SYMBOL + 1) (by decide))
  rw [run_bind_ok _ _ _ _ _ (write_symbol_entry_none_run name
    (r16 s.mem HEADER_NEXT_VAR) size (r16 s.mem HEADER_NEXT_SYMBOL) _ hname hn
    (by omega))]
  rfl

/-- C8.  (1) allocate_variable on any state in which the name already
has a symbol-table entry returns that entry's recorded address with no
state change at all (so the next-free-variable cursor, next-free-symbol
cursor and variable count are untouched).  (2) On any state with a
well-formed symbol region, if allocate_variable(name, size) succeeds
with address a, an immediately following allocate_variable with the
same name returns the same address a and leaves the state unchanged. -/
theorem C8_allocate_idempotent :
    (∀ (s : Mem) (name : List Char) (size addr sz : Nat),
      find_symbol name s = .ok (some (addr, sz)) s →
      allocate_variable name size s = .ok addr s)
    ∧ (∀ (s s1 : Mem) (E : List (List Nat × Nat × Nat))
        (name : List Char) (size size2 a : Nat),
      WfSym s E →
      name.all (fun c => c.toNat < 128) = true →
      1 ≤ name.length → name.length ≤ 255 → size < 256 →
      allocate_variable name size s = .ok a s1 →
      allocate_variable name size2 s1 = .ok a s1) := by
  constructor
  · intro s name size addr sz hfind
    exact allocate_variable_hit name size s addr sz hfind
  · intro s s1 E name size size2 a hwf hname hpos hlen hsize hok
    obtain ⟨hrep, hlim⟩ := hwf
    have hfind := find_symbol_spec s name E hrep hlim hname
    cases hass : symAssoc (name.map Char.toNat) E with
    | some p =>
      obtain ⟨addr, sz⟩ := p
      rw [hass] at hfind
      rw [allocate_variable_hit name size s addr sz hfind] at hok
      cases hok
      exact allocate_variable_hit name size2 s a sz hfind
    | none =>
      rw [hass] at hfind
      rw [allocate_variable_miss name size s hfind] at hok
      by_cases hfit : r16 s.mem HEADER_NEXT_VAR + size > VARS_END
      · rw [allocate_fresh_memfull name size s hfit] at hok
        exact absurd hok (by simp)
      · push_neg at hfit
        by_cases hroom : r16 s.mem HEADER_NEXT_SYMBOL + (4 + name.length)
            ≤ SYMBOL_TABLE_END
        · rw [allocate_variable_fresh_run name size s hname hlen hsize hroom hfit]
            at hok
          cases hok
          have hn8 : SYMBOL_DATA_START ≤ r16 s.mem HEADER_NEXT_SYMBOL := by
            have := symRep_le hrep; omega
          have hend : r16 s.mem HEADER_NEXT_SYMBOL + 4
              + (name.map Char.toNat).length ≤ 1023 := by
            simp only [List.length_map]
            simp only [SYMBOL_TABLE_END] at hroom
            omega
          have hnv : r16 s.mem HEADER_NEXT_VAR < 65536 := r16_lt s.mem HEADER_NEXT_VAR
          set mf : Nat → Byte := alloc_fn s.mem (name.map Char.toNat) (r16 s.mem HEADER_NEXT_SYMBOL) (r16 s.mem HEADER_NEXT_VAR) size with hmf
          set s1 : Mem := { s with mem := mf } with hs1
          have hnsa1 : r16 s1.mem HEADER_NEXT_SYMBOL =
              r16 s.mem HEADER_NEXT_SYMBOL + 4 + (name.map Char.toNat).length :=
            alloc_fn_nsa s.mem (name.map Char.toNat)
              (r16 s.mem HEADER_NEXT_SYMBOL) (r16 s.mem HEADER_NEXT_VAR) size
              hn8 (by omega)
          have hF : SymRep s1.mem
              (r16 s.mem HEADER_NEXT_SYMBOL + 4 + (name.map Char.toNat).length)
              (r16 s.mem HEADER_NEXT_SYMBOL)
              [(name.map Char.toNat, r16 s.mem HEADER_NEXT_VAR, size)] := by
            refine SymRep.cons _ _ _ _ _ ?_ ?_ ?_ ?_ ?_ ?_
            · exact alloc_fn_len s.mem _ _ _ _ hn8 (by simp only [List.length_map]; omega)
            · simp only [List.length_map]; omega
            · exact alloc_fn_name s.mem _ _ _ _ hn8 (name_bytes_lt name hname)
            · exact alloc_fn_addr s.mem _ _ _ _ hn8 hnv
            · exact alloc_fn_size s.mem _ _ _ _ hn8 hsize
            · exact SymRep.nil _ (by omega)
          have hrep1 : SymRep s1.mem (r16 s1.mem HEADER_NEXT_SYMBOL)
              SYMBOL_DATA_START
              (E ++ [(name.map Char.toNat, r16 s.mem HEADER_NEXT_VAR, size)]) := by
            rw [hnsa1]
            exact symRep_append hrep
              (fun x hx1 hx2 => alloc_fn_frame s.mem _ _ _ _ hn8 x hx1 hx2) hF
          have hfind1 : find_symbol name s1 =
              .ok (some (r16 s.mem HEADER_NEXT_VAR, size)) s1 := by
            rw [find_symbol_spec s1 name _ hrep1 (by rw [hnsa1]; omega) hname]
            rw [symAssoc_append_none _ _ _ hass]
            simp [symAssoc]
          exact allocate_variable_hit name size2 s1
            (r16 s.mem HEADER_NEXT_VAR) size hfind1
        · push_neg at hroom
          rw [allocate_fresh_symfull name size s hname hfit hroom] at hok
          exact absurd hok (by simp)

/-- The state after allocating variable C (4 bytes) on a fresh arena. -/
def memAfterC : Mem :=
  match allocate_variable ['C'] 4 freshMem with
  | .ok _ t => t
  | .err _ t => t
  | .hang => freshMem

/-- Witness for C8 at a concrete input: allocating C twice returns
0x0800 both times, and the second call changes nothing. -/
theorem C8_allocate_idempotent_witness :
    allocate_variable ['C'] 9 memAfterC = .ok 2048 memAfterC :=
  C8_allocate_idempotent.2 freshMem memAfterC [] ['C'] 4 9 2048
    ⟨SymRep.nil SYMBOL_DATA_START (by decide), by decide⟩
    (by decide) (by decide) (by decide) (by decide) rfl

/-!  ## C9: string and REM contents survive tokenize / detokenize -/

/-- In the REM state the tokenizer copies every character literally. -/
theorem tokenize_aux_rem : ∀ (r : List Char),
    tokenize_aux false true r = r.map Char.toNat
  | [] => by rw [tokenize_aux]; rfl
  | c :: rest => by
    rw [tokenize_aux, tokenize_aux_rem rest]
    simp

/-- In the string state the tokenizer copies every character up to and
including the closing double quote literally. -/
theorem tokenize_aux_string : ∀ (b : List Char) (inr : Bool) (w : List Char),
    '"' ∉ b →
    tokenize_aux true inr (b ++ '"' :: w) =
      b.map Char.toNat ++ Char.toNat '"' :: tokenize_aux false inr w
  | [], inr, w, _ => by
    rw [List.nil_append, tokenize_aux]
    simp
  | c :: b, inr, w, hq => by
    have hc : ¬ c = '"' := fun h => hq (by simp [h])
    rw [List.cons_append, tokenize_aux,
      tokenize_aux_string b inr w (fun h => hq (by simp [h]))]
    simp [hc]

/-- detokenize restores ASCII byte lists character for character,
whatever the scanning state. -/
theorem detokenize_aux_ascii : ∀ (l : List Char) (inS inR : Bool),
    (∀ c ∈ l, c.toNat < 128) →
    detokenize_aux inS inR (l.map Char.toNat) = l
  | [], _, _, _ => rfl
  | c :: rest, inS, inR, h => by
    have hc : c.toNat < 128 := h c (by simp)
    rw [List.map_cons, detokenize_aux]
    rw [if_neg (by omega)]
    by_cases h34 : c.toNat = 34
    · have hcq : c = '"' := by
        have := congrArg Char.ofNat h34
        rwa [Char.ofNat_toNat] at this
      rw [if_pos h34]
      rw [detokenize_aux_ascii rest _ _ (fun x hx => h x (by simp [hx]))]
      rw [hcq]
    · rw [if_neg h34]
      rw [detokenize_aux_ascii rest _ _ (fun x hx => h x (by simp [hx]))]
      rw [Char.ofNat_toNat]

/-- The keyword table maps REM to token 0xED. -/
theorem lookup_kw_rem : lookup_kw ['R', 'E', 'M'] = some 0xED := by decide

/-- No keyword of the table extends REM: every key is at most 3
characters long or does not start with R, E, M. -/
theorem kw_no_rem_extended :
    ∀ p ∈ KEYWORDS_TO_TOKENS,
      p.1.toList.length ≤ 3 ∨ p.1.toList.take 3 ≠ ['R', 'E', 'M'] := by decide

/-- Any strict extension of REM misses the keyword table. -/
theorem lookup_kw_rem_ext (w : List Char) (hw : w ≠ []) :
    lookup_kw (['R', 'E', 'M'] ++ w) = none := by
  unfold lookup_kw
  rw [List.find?_eq_none.mpr]
  · rfl
  · intro p hp hbeq
    have heq : p.1.toList = ['R', 'E', 'M'] ++ w := by
      simpa using hbeq
    rcases kw_no_rem_extended p hp with h | h
    · rw [heq] at h
      simp at h
      exact hw h
    · apply h
      rw [heq]
      rfl

/-- The longest-match scan starting with R, E, M finds exactly the REM
keyword (length 3), for any scan budget between 3 and the line length. -/
theorem find_kw_rem (r : List Char) : ∀ (k : Nat), 3 ≤ k → k ≤ 3 + r.length →
    find_kw ('R' :: 'E' :: 'M' :: r) k = some (0xED, 3)
  | 0, h, _ => by omega
  | 1, h, _ => by omega
  | 2, h, _ => by omega
  | 3, _, _ => by
    have e : find_kw ('R' :: 'E' :: 'M' :: r) 3 =
        match lookup_kw ['R', 'E', 'M'] with
        | some t => some (t, 3)
        | none => find_kw ('R' :: 'E' :: 'M' :: r) 2 := rfl
    rw [e, lookup_kw_rem]
  | (k + 4), _, hle => by
    have hw : ((r.take (k + 1)).map up_char) ≠ [] := by
      apply List.ne_nil_of_length_pos
      simp only [List.length_map, List.length_take]
      omega
    have e : find_kw ('R' :: 'E' :: 'M' :: r) (k + 4) =
        match lookup_kw (['R', 'E', 'M'] ++ (r.take (k + 1)).map up_char) with
        | some t => some (t, k + 4)
        | none => find_kw ('R' :: 'E' :: 'M' :: r) (k + 3) := rfl
    rw [e, lookup_kw_rem_ext _ hw]
    exact find_kw_rem r (k + 3) (by omega) (by omega)

/-- A line beginning with the characters R, E, M tokenizes to the REM
token followed by the literal byte of every remaining character. -/
theorem tokenize_line_rem (r : List Char) :
    tokenize_line ('R' :: 'E' :: 'M' :: r) = 0xED :: r.map Char.toNat := by
  unfold tokenize_line
  rw [tokenize_aux]
  simp only [if_neg (show ¬ (false = true) by simp),
    if_neg (show ¬ ('R' = '"') by decide)]
  have hfk := find_kw_rem r (min 8 (3 + r.length)) (by omega) (by omega)
  split
  · rename_i t len heq
    have : ('R' :: 'E' :: 'M' :: r).length = 3 + r.length := by simp; omega
    rw [this] at heq
    rw [heq] at hfk
    injection hfk with hfk'
    injection hfk' with h1 h2
    subst h1; subst h2
    have hword : (List.map up_char (List.take 3 ('R' :: 'E' :: 'M' :: r)))
        = "REM".toList := rfl
    rw [hword]
    rw [show decide ("REM".toList = "REM".toList) = true from by decide]
    rw [show ('R' :: 'E' :: 'M' :: r).drop 3 = r from rfl]
    rw [tokenize_aux_rem r]
  · rename_i heq
    have : ('R' :: 'E' :: 'M' :: r).length = 3 + r.length := by simp; omega
    rw [this] at heq
    rw [heq] at hfk
    exact absurd hfk (by simp)

/-- C9.  For ASCII input: (1) inside a double-quoted string the
tokenizer copies every character literally up to the closing quote;
(2) in the REM state every character is copied literally; (3) a line
starting with REM is recognized and everything after the REM token is
the literal character bytes; (4)/(5) detokenize maps literally copied
ASCII bytes back to exactly the original characters; (6)/(7)
end-to-end, a quoted string line and a REM comment line survive
detokenize(tokenize(line)) verbatim. -/
theorem C9_string_rem_verbatim (b r w : List Char)
    (hb : ∀ c ∈ b, c.toNat < 128) (hq : '"' ∉ b)
    (hr : ∀ c ∈ r, c.toNat < 128) :
    tokenize_aux true false (b ++ '"' :: w)
      = b.map Char.toNat ++ Char.toNat '"' :: tokenize_aux false false w
    ∧ tokenize_aux false true r = r.map Char.toNat
    ∧ tokenize_line ('R' :: 'E' :: 'M' :: r) = 0xED :: r.map Char.toNat
    ∧ detokenize (b.map Char.toNat) = b
    ∧ detokenize (r.map Char.toNat) = r
    ∧ detokenize (tokenize_line ('"' :: (b ++ ['"']))) = '"' :: (b ++ ['"'])
    ∧ detokenize (tokenize_line ('R' :: 'E' :: 'M' :: r)) = 'R' :: 'E' :: 'M' :: r := by
  refine ⟨tokenize_aux_string b false w hq, tokenize_aux_rem r, tokenize_line_rem r,
    detokenize_aux_ascii b false false hb, detokenize_aux_ascii r false false hr,
    ?_, ?_⟩
  · unfold tokenize_line
    rw [tokenize_aux]
    simp only [if_neg (show ¬ (false = true) by simp), if_true]
    rw [tokenize_aux_string b false [] hq]
    rw [show tokenize_aux false false [] = [] from by rw [tokenize_aux]]
    have hl : Char.toNat '"' :: (b.map Char.toNat ++ Char.toNat '"' :: [])
        = ('"' :: (b ++ ['"'])).map Char.toNat := by simp
    rw [hl]
    apply detokenize_aux_ascii
    intro c hc
    simp only [List.mem_cons, List.mem_append, List.mem_singleton] at hc
    rcases hc with rfl | hc | rfl | h
    · decide
    · exact hb c hc
    · decide
    · simp at h
  · rw [tokenize_line_rem r]
    unfold detokenize
    rw [detokenize_aux]
    rw [if_pos (by norm_num)]
    rw [show tok_keyword 0xED = ['R', 'E', 'M'] from by decide]
    show ['R', 'E', 'M'] ++ detokenize_aux false
      (false || (['R', 'E', 'M'] == "REM".toList)) (r.map Char.toNat) = _
    rw [detokenize_aux_ascii r _ _ hr]
    rfl

/-- Witness for C9 at concrete inputs: a quoted-string line and a REM
comment line round-trip verbatim. -/
theorem C9_string_rem_verbatim_witness :
    detokenize (tokenize_line ('"' :: ("HI 123".toList ++ ['"'])))
      = '"' :: ("HI 123".toList ++ ['"'])
    ∧ detokenize (tokenize_line ('R' :: 'E' :: 'M' :: " print hello".toList))
      = 'R' :: 'E' :: 'M' :: " print hello".toList := by
  have h := C9_string_rem_verbatim "HI 123".toList " print hello".toList []
    (by decide) (by decide) (by decide)
  exact ⟨h.2.2.2.2.2.1, h.2.2.2.2.2.2⟩

/-!  ## Program linked-list representation -/

/-- A program line node as represented in the arena: its address, line
number, and the token bytes the line walk extracts (up to the first
0x0D). -/
structure PNode where
  addr : Nat
  line : Nat
  toks : List Byte

/-- The bytes of one node, as laid out by store_program_line: line
number at addr+2, token bytes from addr+4, 0x0D terminator, all inside
the program area below program_top.  (The next pointer at addr is chain
state, owned by ChainSeg.) -/
structure NodeRep (m : Nat → Byte) (top : Nat) (nd : PNode) : Prop where
  line_eq : r16 m (nd.addr + 2) = nd.line
  toks_eq : ∀ i, i < nd.toks.length → m (nd.addr + 4 + i) = nd.toks.getD i 0
  toks_ne : ∀ b ∈ nd.toks, b.val ≠ 13
  term_eq : (m (nd.addr + 4 + nd.toks.length)).val = 13
  lo : PROGRAM_START ≤ nd.addr
  ext : nd.addr + 5 + nd.toks.length ≤ top

/-- Chain segment: following next pointers from address a through the
nodes of l ends at the continuation pointer c. -/
inductive ChainSeg (m : Nat → Byte) (top : Nat) : Nat → Nat → List PNode → Prop
  | nil (c : Nat) : ChainSeg m top c c []
  | cons (nd : PNode) (c : Nat) (rest : List PNode)
      (hnd : NodeRep m top nd)
      (hrest : ChainSeg m top (r16 m nd.addr) c rest) :
      ChainSeg m top nd.addr c (nd :: rest)

/-- Fuel-step unfolding of the delete walk. -/
theorem delete_walk_succ (f line_num page prev_ptr curr_ptr : Nat) :
    delete_walk (f + 1) line_num page prev_ptr curr_ptr = (do
      let top ← get_top
      if curr_ptr < top then do
        let curr_line_num ← read_int16 (curr_ptr + 2)
        if curr_line_num = line_num then do
          let next_ptr ← read_int16 curr_ptr
          if prev_ptr = 0 then
            store_int16 HEADER_PAGE (if next_ptr ≠ 0 then next_ptr else page)
          else
            store_int16 prev_ptr next_ptr
          M.pure true
        else do
          let next_ptr ← read_int16 curr_ptr
          if next_ptr = 0 then M.pure false
          else delete_walk f line_num page curr_ptr next_ptr
      else M.pure false) := rfl

/-- Fuel-step unfolding of the lines walk. -/
theorem lines_walk_succ (f curr_ptr : Nat) :
    lines_walk (f + 1) curr_ptr = (do
      let top ← get_top
      if curr_ptr < top then do
        let line_num ← read_int16 (curr_ptr + 2)
        let s ← M.get
        let tokens := tokens_from s.mem s.program_top (curr_ptr + 4)
        let next_ptr ← read_int16 curr_ptr
        if next_ptr = 0 then M.pure [(line_num, tokens)]
        else do
          let rest ← lines_walk f next_ptr
          M.pure ((line_num, tokens) :: rest)
      else M.pure []) := rfl

/-- Token extraction from a represented node yields exactly its token
list. -/
theorem tokens_from_spec : ∀ (l : List Byte) (m : Nat → Byte) (top a : Nat),
    (∀ i, i < l.length → m (a + i) = l.getD i 0) →
    (∀ b ∈ l, b.val ≠ 13) →
    (m (a + l.length)).val = 13 →
    a + l.length + 1 ≤ top →
    tokens_from m top a = l
  | [], m, top, a, _, _, hterm, hle => by
    rw [tokens_from]
    rw [dif_pos (by omega)]
    rw [if_pos (by simpa using hterm)]
  | b :: rest, m, top, a, hbytes, hne, hterm, hle => by
    have h0 : m a = b := by
      have := hbytes 0 (by simp)
      simpa using this
    rw [tokens_from]
    rw [dif_pos (by simp at hle; omega)]
    rw [if_neg (by rw [h0]; exact hne b (by simp))]
    rw [h0]
    rw [tokens_from_spec rest m top (a + 1)
      (fun i hi => by
        have := hbytes (i + 1) (by simp; omega)
        rw [show a + (i + 1) = a + 1 + i by omega] at this
        simpa using this)
      (fun x hx => hne x (by simp [hx]))
      (by rw [show a + 1 + rest.length = a + (b :: rest).length by simp; omega]; exact hterm)
      (by simp at hle ⊢; omega)]

/-- NodeRep only depends on the bytes of the node's own region, and is
monotone in the top bound. -/
theorem NodeRep.congr {m m' : Nat → Byte} {top top' : Nat} {nd : PNode}
    (hnd : NodeRep m top nd)
    (h : ∀ x, nd.addr + 2 ≤ x → x < nd.addr + 5 + nd.toks.length → m' x = m x)
    (htop : top ≤ top') : NodeRep m' top' nd := by
  refine ⟨?_, ?_, hnd.toks_ne, ?_, hnd.lo, by have := hnd.ext; omega⟩
  · rw [r16_frame m m' (nd.addr + 2) (h _ (by omega) (by omega))
      (h _ (by omega) (by omega))]
    exact hnd.line_eq
  · intro i hi
    rw [h _ (by omega) (by omega)]
    exact hnd.toks_eq i hi
  · rw [h _ (by omega) (by omega)]
    exact hnd.term_eq

/-- The lines walk on a state whose current node has next pointer 0
returns exactly that node's line. -/
theorem lines_walk_single (f : Nat) (s : Mem) (nd : PNode)
    (hnext : r16 s.mem nd.addr = 0)
    (hnd : NodeRep s.mem s.program_top nd)
    (htop : s.program_top ≤ PROGRAM_END) :
    lines_walk (f + 1) nd.addr s = .ok [(nd.line, nd.toks)] s := by
  have hext := hnd.ext
  have htop' : s.program_top ≤ 61439 := by simpa [PROGRAM_END] using htop
  rw [lines_walk_succ]
  rw [run_bind_ok _ _ _ _ _ (run_get_top s)]
  beta_reduce
  rw [if_pos (show nd.addr < s.program_top by omega)]
  rw [run_bind_ok _ _ _ _ _ (read_int16_run (nd.addr + 2) s (by omega))]
  beta_reduce
  rw [hnd.line_eq]
  rw [run_bind_ok _ _ _ _ _ (run_get s)]
  beta_reduce
  rw [tokens_from_spec nd.toks s.mem s.program_top (nd.addr + 4)
    hnd.toks_eq hnd.toks_ne hnd.term_eq (by omega)]
  rw [run_bind_ok _ _ _ _ _ (read_int16_run nd.addr s (by omega))]
  beta_reduce
  rw [hnext]
  rw [if_pos rfl]
  rfl

/-- get_program_lines on a state whose PAGE node is sole and reachable. -/
theorem get_program_lines_single (s : Mem) (nd : PNode)
    (hpage : r16 s.mem HEADER_PAGE = nd.addr)
    (hnext : r16 s.mem nd.addr = 0)
    (hnd : NodeRep s.mem s.program_top nd)
    (htop : s.program_top ≤ PROGRAM_END) :
    get_program_lines s = .ok [(nd.line, nd.toks)] s := by
  unfold get_program_lines get_program_lines_f
  rw [run_bind_ok _ _ _ _ _ (read_int16_run HEADER_PAGE s (by decide))]
  beta_reduce
  rw [hpage]
  rw [show (FUEL : Nat) = 65535 + 1 from rfl]
  exact lines_walk_single 65535 s nd hnext hnd htop

/-- get_all_lines on a state whose PAGE node is sole and reachable. -/
theorem get_all_lines_single (s : Mem) (nd : PNode)
    (hpage : r16 s.mem HEADER_PAGE = nd.addr)
    (hnext : r16 s.mem nd.addr = 0)
    (hnd : NodeRep s.mem s.program_top nd)
    (htop : s.program_top ≤ PROGRAM_END) :
    get_all_lines s = .ok [(nd.line, detokenize_bytes nd.toks)] s := by
  unfold get_all_lines
  rw [run_bind_ok _ _ _ _ _ (get_program_lines_single s nd hpage hnext hnd htop)]
  rfl

/-- C5.  If the program's linked list consists of exactly one reachable
node (the node PAGE points to has next pointer 0), then delete_line
with that node's line number returns true, leaves the PAGE header
still pointing at that node, and a subsequent get_all_lines still
returns that line. -/
theorem C5_delete_sole_line_quirk (s : Mem) (nd : PNode)
    (hpage : r16 s.mem HEADER_PAGE = nd.addr)
    (hnext : r16 s.mem nd.addr = 0)
    (hnd : NodeRep s.mem s.program_top nd)
    (htop : s.program_top ≤ PROGRAM_END) :
    ∃ s', delete_line nd.line s = .ok true s'
      ∧ r16 s'.mem HEADER_PAGE = nd.addr
      ∧ get_all_lines s' = .ok [(nd.line, detokenize_bytes nd.toks)] s'
      ∧ get_all_lines s = .ok [(nd.line, detokenize_bytes nd.toks)] s := by
  have hext := hnd.ext
  have hlo := hnd.lo
  have htop' : s.program_top ≤ 61439 := by simpa [PROGRAM_END] using htop
  have hlo' : 4096 ≤ nd.addr := by simpa [PROGRAM_START] using hlo
  have haddr_lt : nd.addr < 65536 := by omega
  refine ⟨{ s with mem := st16 s.mem HEADER_PAGE nd.addr }, ?_, ?_, ?_, ?_⟩
  · unfold delete_line delete_program_line delete_program_line_f
    rw [run_bind_ok _ _ _ _ _ (read_int16_run HEADER_PAGE s (by decide))]
    beta_reduce
    rw [hpage]
    rw [show (FUEL : Nat) = 65535 + 1 from rfl, delete_walk_succ]
    rw [run_bind_ok _ _ _ _ _ (run_get_top s)]
    beta_reduce
    rw [if_pos (show nd.addr < s.program_top by omega)]
    rw [run_bind_ok _ _ _ _ _ (read_int16_run (nd.addr + 2) s (by omega))]
    beta_reduce
    rw [hnd.line_eq]
    rw [if_pos rfl]
    rw [run_bind_ok _ _ _ _ _ (read_int16_run nd.addr s (by omega))]
    beta_reduce
    rw [hnext]
    rw [if_pos rfl]
    rw [if_neg (by simp)]
    rw [run_bind_ok _ _ _ _ _
      (store_int16_run HEADER_PAGE nd.addr s (by decide) haddr_lt)]
    rfl
  · exact r16_st16_same s.mem HEADER_PAGE nd.addr haddr_lt
  · refine get_all_lines_single _ nd
      (r16_st16_same s.mem HEADER_PAGE nd.addr haddr_lt) ?_ ?_ htop
    · rw [r16_frame s.mem _ nd.addr
        (st16_frame s.mem HEADER_PAGE nd.addr nd.addr
          (by simp only [HEADER_PAGE]; omega))
        (st16_frame s.mem HEADER_PAGE nd.addr (nd.addr + 1)
          (by simp only [HEADER_PAGE]; omega))]
      exact hnext
    · exact hnd.congr (fun x hx1 _ => st16_frame s.mem HEADER_PAGE nd.addr x
        (by simp only [HEADER_PAGE]; omega)) le_rfl
  · exact get_all_lines_single s nd hpage hnext hnd htop

/-- A fresh arena holding the single line 10 with token byte 0x58 as
its sole node at PROGRAM_START (next pointer 0, line number 10, one
token byte, 0x0D terminator, program_top past the node). -/
def memC5 : Mem :=
  { mem := upd (upd (st16 freshMem.mem 4098 10) 4100 ⟨88, by decide⟩)
             4101 ⟨13, by decide⟩,
    program_top := 4102 }

theorem C5_delete_sole_line_quirk_witness :
    r16 memC5.mem HEADER_PAGE = 4096 ∧
    (∃ s', delete_line 10 memC5 = .ok true s'
      ∧ r16 s'.mem HEADER_PAGE = 4096
      ∧ get_all_lines s' = .ok [(10, detokenize_bytes [(88 : Byte)])] s'
      ∧ get_all_lines memC5 = .ok [(10, detokenize_bytes [(88 : Byte)])] memC5) :=
  ⟨by decide, C5_delete_sole_line_quirk memC5 ⟨4096, 10, [(88 : Byte)]⟩ (by decide)
    (by decide) ⟨by decide, by decide, by decide, by decide, by decide, by decide⟩
    (by decide)⟩

/-!  ## C2: replacing the sole program line diverges -/

theorem store_f_zero (n : Nat) (toks : List Byte) :
    store_program_line_f 0 n toks = M.hang := by
  rw [store_program_line_f]

theorem store_f_succ (f n : Nat) (toks : List Byte) :
    store_program_line_f (f + 1) n toks = (do
      let line_size := 4 + toks.length + 1
      let top ← get_top
      if top + line_size > PROGRAM_END then M.pure false
      else do
        let page ← read_int16 HEADER_PAGE
        store_walk f n toks line_size page 0 page) := by
  rw [store_program_line_f]

theorem store_walk_zero (n : Nat) (toks : List Byte)
    (line_size page prev_ptr curr_ptr : Nat) :
    store_walk 0 n toks line_size page prev_ptr curr_ptr = M.hang := by
  rw [store_walk]

theorem store_walk_succ (f n : Nat) (toks : List Byte)
    (line_size page prev_ptr curr_ptr : Nat) :
    store_walk (f + 1) n toks line_size page prev_ptr curr_ptr = (do
      let top ← get_top
      if curr_ptr < top then do
        let curr_line_num ← read_int16 (curr_ptr + 2)
        if curr_line_num = n then do
          let _ ← delete_program_line_f f n
          store_program_line_f f n toks
        else if curr_line_num > n then
          finish_insert n toks line_size page prev_ptr curr_ptr
        else do
          let next_ptr ← read_int16 curr_ptr
          if next_ptr = 0 then
            finish_insert n toks line_size page curr_ptr curr_ptr
          else
            store_walk f n toks line_size page curr_ptr next_ptr
      else finish_insert n toks line_size page prev_ptr curr_ptr) := by
  rw [store_walk]

/-- Rewriting the PAGE field of memC5 with the address it already
holds is the identity. -/
theorem st16_page_memC5 :
    { memC5 with mem := st16 memC5.mem HEADER_PAGE 4096 } = memC5 := by
  have hmem : st16 memC5.mem HEADER_PAGE 4096 = memC5.mem := by
    funext x
    rcases eq_or_ne x 0x206 with rfl | h6
    · decide
    rcases eq_or_ne x 0x207 with rfl | h7
    · decide
    · exact st16_frame _ _ _ _
        ⟨by simp only [HEADER_PAGE]; omega, by simp only [HEADER_PAGE]; omega⟩
  rw [hmem]

/-- Deleting line 10 on memC5 succeeds but, because its node is the
sole reachable one, rewrites PAGE with the very address it already
holds: the state after the call is memC5 itself. -/
theorem delete_memC5_run (f : Nat) :
    delete_program_line_f (f + 1) 10 memC5 = .ok true memC5 := by
  unfold delete_program_line_f
  rw [run_bind_ok _ _ _ _ _ (read_int16_run HEADER_PAGE memC5 (by decide))]
  beta_reduce
  rw [show r16 memC5.mem HEADER_PAGE = 4096 by decide]
  rw [delete_walk_succ]
  rw [run_bind_ok _ _ _ _ _ (run_get_top memC5)]
  beta_reduce
  rw [if_pos (show 4096 < memC5.program_top by decide)]
  rw [run_bind_ok _ _ _ _ _ (read_int16_run (4096 + 2) memC5 (by decide))]
  beta_reduce
  rw [show r16 memC5.mem (4096 + 2) = 10 by decide]
  rw [if_pos rfl]
  rw [run_bind_ok _ _ _ _ _ (read_int16_run 4096 memC5 (by decide))]
  beta_reduce
  rw [show r16 memC5.mem 4096 = 0 by decide]
  rw [if_pos rfl]
  rw [if_neg (by simp)]
  rw [run_bind_ok _ _ _ _ _
    (store_int16_run HEADER_PAGE 4096 memC5 (by decide) (by decide))]
  rw [st16_page_memC5]
  rfl

/-- Re-storing line 10 on memC5 (whose sole node is line 10) never
terminates: the walk finds the matching node, the delete leaves the
state unchanged, and the recursive re-store finds it again, for every
fuel bound. -/
theorem store_memC5_diverges :
    ∀ fuel, store_program_line_f fuel 10 [(88 : Byte)] memC5 = .hang := by
  intro fuel
  induction fuel using Nat.strong_induction_on with
  | _ fuel ih =>
    obtain _ | f := fuel
    · rw [store_f_zero]; rfl
    rw [store_f_succ]
    rw [run_bind_ok _ _ _ _ _ (run_get_top memC5)]
    beta_reduce
    rw [if_neg (show ¬ memC5.program_top + (4 + [(88 : Byte)].length + 1) >
      PROGRAM_END by decide)]
    rw [run_bind_ok _ _ _ _ _ (read_int16_run HEADER_PAGE memC5 (by decide))]
    beta_reduce
    rw [show r16 memC5.mem HEADER_PAGE = 4096 by decide]
    obtain _ | g := f
    · rw [store_walk_zero]; rfl
    rw [store_walk_succ]
    rw [run_bind_ok _ _ _ _ _ (run_get_top memC5)]
    beta_reduce
    rw [if_pos (show 4096 < memC5.program_top by decide)]
    rw [run_bind_ok _ _ _ _ _ (read_int16_run (4096 + 2) memC5 (by decide))]
    beta_reduce
    rw [show r16 memC5.mem (4096 + 2) = 10 by decide]
    rw [if_pos rfl]
    obtain _ | h := g
    · have hd : delete_program_line_f 0 10 memC5 = .hang := by
        unfold delete_program_line_f
        rw [run_bind_ok _ _ _ _ _ (read_int16_run HEADER_PAGE memC5 (by decide))]
        rfl
      rw [run_bind_hang _ _ _ hd]
    · rw [run_bind_ok _ _ _ _ _ (delete_memC5_run h)]
      exact ih (h + 1) (by omega)

/-- C2 counterexample.  memC5 is a program state whose listing is
exactly line 10 with text "X" (the state produced by adding that line
to an empty program).  Re-adding line 10 — the second call of the
claimed add/add sequence — does not terminate: the fuelled store
returns hang for every fuel bound, and in particular add_line hangs.
The walk finds the matching sole node, delete_program_line rewrites
PAGE with the address it already holds, and the recursive re-store
finds the node again, forever. -/
theorem C2_counterexample :
    get_all_lines memC5 = .ok [(10, ['X'])] memC5
    ∧ (∀ fuel, store_program_line_f fuel 10 [(88 : Byte)] memC5 = .hang)
    ∧ add_line 10 ['X'] memC5 = .hang := by
  refine ⟨?_, store_memC5_diverges, ?_⟩
  · have h1 := get_all_lines_single memC5 ⟨4096, 10, [(88 : Byte)]⟩ (by decide)
      (by decide) ⟨by decide, by decide, by decide, by decide, by decide, by decide⟩
      (by decide)
    rw [show detokenize_bytes [(88 : Byte)] = ['X'] from rfl] at h1
    exact h1
  · unfold add_line
    rw [if_pos (show py_strip ['X'] ≠ [] by decide)]
    have hsw : strip_whitespace ['X'] = ['X'] := by decide
    rw [hsw]
    have htok : tokenize_line ['X'] = [88] := by
      rw [tokenize_line, tokenize_aux]
      have hfk : find_kw ['X'] (min 8 ([('X' : Char)].length)) = none := by decide
      simp only [if_neg (show ¬ (false = true) by simp)]
      rw [if_neg (show ¬ ('X' = '"') by decide)]
      split
      · rename_i t len heq
        rw [hfk] at heq
        exact absurd heq (by simp)
      · rw [tokenize_aux]
        rfl
    rw [htok]
    show (store_program_line 10 [(88 : Byte)] >>= fun _ => M.pure ()) memC5 = .hang
    exact run_bind_hang _ _ _ (store_memC5_diverges FUEL)

/-!  ## Program-list machinery: byte-level effects of an insert -/

/-- Start address of a chain segment given its node list and final
continuation. -/
def segStart (l : List PNode) (c : Nat) : Nat :=
  match l with
  | [] => c
  | nd :: _ => nd.addr

/-- The token bytes a stored token list contributes to the listing:
everything before the first 0x0D byte (the reader stops there). -/
def effToks : List Byte → List Byte
  | [] => []
  | b :: rest => if b.val = 13 then [] else b :: effToks rest

theorem effToks_len : ∀ toks : List Byte, (effToks toks).length ≤ toks.length
  | [] => by simp [effToks]
  | b :: rest => by
    by_cases hb : b.val = 13
    · simp [effToks, hb]
    · simp only [effToks, if_neg hb, List.length_cons]
      have := effToks_len rest
      omega

theorem effToks_getD : ∀ (toks : List Byte) (i : Nat),
    i < (effToks toks).length → (effToks toks).getD i 0 = toks.getD i 0
  | [], i, h => by simp [effToks] at h
  | b :: rest, i, h => by
    by_cases hb : b.val = 13
    · simp [effToks, hb] at h
    · simp only [effToks, if_neg hb] at h ⊢
      cases i with
      | zero => rfl
      | succ j =>
        simp only [List.getD_cons_succ]
        exact effToks_getD rest j (by simpa using h)

theorem effToks_stop : ∀ toks : List Byte,
    (effToks toks).length < toks.length →
    (toks.getD (effToks toks).length 0).val = 13
  | [], h => by simp at h
  | b :: rest, h => by
    by_cases hb : b.val = 13
    · simpa [effToks, hb] using hb
    · simp only [effToks, if_neg hb] at h ⊢
      simp only [List.length_cons, List.getD_cons_succ]
      exact effToks_stop rest (by simpa using h)

theorem effToks_ne : ∀ toks : List Byte, ∀ b ∈ effToks toks, b.val ≠ 13
  | [] => by simp [effToks]
  | b :: rest => by
    by_cases hb : b.val = 13
    · simp [effToks, hb]
    · simp only [effToks, if_neg hb]
      intro x hx
      rcases List.mem_cons.mp hx with rfl | hx'
      · exact hb
      · exact effToks_ne rest x hx'

/-- Cumulative arena effect of write_tokens. -/
def tok_fn (m : Nat → Byte) (a : Nat) : List Byte → (Nat → Byte)
  | [] => m
  | b :: rest => tok_fn (upd m a b) (a + 1) rest

theorem write_tokens_run : ∀ (l : List Byte) (a : Nat) (s : Mem),
    a + l.length ≤ 65536 →
    write_tokens l a s = .ok () { s with mem := tok_fn s.mem a l }
  | [], a, s, _ => rfl
  | b :: rest, a, s, hlen => by
    show (set_byte a b.val >>= fun _ => write_tokens rest (a + 1)) s = _
    rw [run_bind_ok _ _ _ _ _
      (set_byte_run a b.val s (by simp at hlen; omega) b.isLt)]
    rw [write_tokens_run rest (a + 1) _ (by simp at hlen; omega)]
    have hb : byteOf b.val = b := Fin.ext (Nat.mod_eq_of_lt b.isLt)
    rw [hb]
    rfl

theorem tok_fn_frame : ∀ (l : List Byte) (a : Nat) (m : Nat → Byte) (x : Nat),
    (x < a ∨ a + l.length ≤ x) → tok_fn m a l x = m x
  | [], _, _, _, _ => rfl
  | b :: rest, a, m, x, hx => by
    show tok_fn (upd m a b) (a + 1) rest x = m x
    rw [tok_fn_frame rest (a + 1) _ x (by simp at hx; omega)]
    exact upd_other m a b x (by simp at hx; omega)

theorem tok_fn_get : ∀ (l : List Byte) (a : Nat) (m : Nat → Byte) (i : Nat),
    i < l.length → tok_fn m a l (a + i) = l.getD i 0
  | [], _, _, i, h => by simp at h
  | b :: rest, a, m, i, h => by
    show tok_fn (upd m a b) (a + 1) rest (a + i) = _
    cases i with
    | zero =>
      rw [tok_fn_frame rest (a + 1) _ (a + 0) (by omega)]
      simpa using upd_same m a b
    | succ j =>
      rw [show a + (j + 1) = (a + 1) + j by omega]
      rw [tok_fn_get rest (a + 1) _ j (by simp at h; omega)]
      rfl

/-- The node bytes written by finish_insert before the link step. -/
def node_fn (m : Nat → Byte) (top n : Nat) (toks : List Byte) : Nat → Byte :=
  upd (tok_fn (st16 (st16 m top 0) (top + 2) n) (top + 4) toks)
    (top + 4 + toks.length) (byteOf 13)

theorem node_fn_frame (m : Nat → Byte) (top n : Nat) (toks : List Byte)
    (x : Nat) (hx : x < top ∨ top + 5 + toks.length ≤ x) :
    node_fn m top n toks x = m x := by
  unfold node_fn
  rw [upd_other _ _ _ _ (by omega)]
  rw [tok_fn_frame toks (top + 4) _ x (by omega)]
  rw [st16_frame _ _ _ _ ⟨by omega, by omega⟩]
  exact st16_frame _ _ _ _ ⟨by omega, by omega⟩

theorem node_fn_line (m : Nat → Byte) (top n : Nat) (toks : List Byte)
    (hn : n < 65536) : r16 (node_fn m top n toks) (top + 2) = n := by
  have h1 : node_fn m top n toks (top + 2) =
      st16 (st16 m top 0) (top + 2) n (top + 2) := by
    unfold node_fn
    rw [upd_other _ _ _ _ (by omega)]
    exact tok_fn_frame toks (top + 4) _ _ (by omega)
  have h2 : node_fn m top n toks (top + 2 + 1) =
      st16 (st16 m top 0) (top + 2) n (top + 2 + 1) := by
    unfold node_fn
    rw [upd_other _ _ _ _ (by omega)]
    exact tok_fn_frame toks (top + 4) _ _ (by omega)
  rw [r16_frame _ _ _ h1 h2]
  exact r16_st16_same _ (top + 2) n hn

theorem node_fn_tok (m : Nat → Byte) (top n : Nat) (toks : List Byte)
    (i : Nat) (hi : i < toks.length) :
    node_fn m top n toks (top + 4 + i) = toks.getD i 0 := by
  unfold node_fn
  rw [upd_other _ _ _ _ (by omega)]
  exact tok_fn_get toks (top + 4) _ i hi

theorem node_fn_term (m : Nat → Byte) (top n : Nat) (toks : List Byte) :
    (node_fn m top n toks (top + 4 + toks.length)).val = 13 := by
  unfold node_fn
  rw [upd_same]
  rfl

/-!  ## Chain segment lemmas and the program-list invariant -/

theorem chainSeg_start {m : Nat → Byte} {top : Nat} {a c : Nat} {l : List PNode}
    (h : ChainSeg m top a c l) : a = segStart l c := by
  cases h with
  | nil => rfl
  | cons nd c rest hnd hrest => rfl

theorem chainSeg_nodes {m : Nat → Byte} {top : Nat} {a c : Nat} {l : List PNode}
    (h : ChainSeg m top a c l) : ∀ nd ∈ l, NodeRep m top nd := by
  induction h with
  | nil => simp
  | cons nd c rest hnd hrest ih =>
    intro x hx
    rcases List.mem_cons.mp hx with rfl | hx'
    · exact hnd
    · exact ih x hx'

theorem chainSeg_append {m : Nat → Byte} {top : Nat} :
    ∀ {l1 : List PNode} {a b : Nat}, ChainSeg m top a b l1 →
    ∀ {l2 : List PNode} {c : Nat}, ChainSeg m top b c l2 →
    ChainSeg m top a c (l1 ++ l2) := by
  intro l1 a b h1
  induction h1 with
  | nil _ => intro l2 c h2; simpa using h2
  | cons nd cc rest hnd hrest ih =>
    intro l2 c h2
    exact ChainSeg.cons nd c (rest ++ l2) hnd (ih h2)

theorem chainSeg_split {m : Nat → Byte} {top : Nat} :
    ∀ (l1 : List PNode) {l2 : List PNode} {a c : Nat},
    ChainSeg m top a c (l1 ++ l2) →
    ChainSeg m top a (segStart l2 c) l1 ∧ ChainSeg m top (segStart l2 c) c l2
  | [], l2, a, c, h => by
    have ha : a = segStart l2 c := by
      cases l2 with
      | nil => cases h; rfl
      | cons x xs => cases h; rfl
    exact ⟨ha ▸ ChainSeg.nil _, by simpa [ha] using h⟩
  | P :: l1', l2, a, c, h => by
    cases h with
    | cons nd cc rest hnd hrest =>
      obtain ⟨h1, h2⟩ := chainSeg_split l1' hrest
      exact ⟨ChainSeg.cons P _ _ hnd h1, h2⟩

theorem chainSeg_congr {m m' : Nat → Byte} {top top' : Nat} :
    ∀ {l : List PNode} {a c : Nat}, ChainSeg m top a c l →
    (∀ nd ∈ l, ∀ x, nd.addr ≤ x → x < nd.addr + 5 + nd.toks.length → m' x = m x) →
    top ≤ top' → ChainSeg m' top' a c l := by
  intro l a c h hagree htop
  induction h with
  | nil _ => exact ChainSeg.nil _
  | cons nd cc rest hnd hrest ih =>
    have hme : r16 m' nd.addr = r16 m nd.addr :=
      r16_frame m m' nd.addr
        (hagree nd (by simp) nd.addr (by omega) (by omega))
        (hagree nd (by simp) (nd.addr + 1) (by omega) (by omega))
    refine ChainSeg.cons nd cc rest
      (hnd.congr (fun x hx1 hx2 => hagree nd (by simp) x (by omega) hx2) htop) ?_
    rw [hme]
    exact ih (fun x hx => hagree x (by simp [hx]))

/-- The program-list invariant: PAGE points at the head node (or at
program_top for an empty program), the reachable nodes form a chain
ending in a 0 next pointer, their line numbers are strictly ascending
16-bit values, their arena regions are pairwise disjoint, and
program_top stays within the program area. -/
structure Inv (s : Mem) (nds : List PNode) : Prop where
  page_empty : nds = [] → r16 s.mem HEADER_PAGE = s.program_top
  chain : nds ≠ [] → ChainSeg s.mem s.program_top (r16 s.mem HEADER_PAGE) 0 nds
  sorted : List.Chain' (fun a b => a.line < b.line) nds
  lines_lt : ∀ nd ∈ nds, nd.line < 65536
  disj : List.Pairwise
    (fun a b => a.addr + 5 + a.toks.length ≤ b.addr ∨
                b.addr + 5 + b.toks.length ≤ a.addr) nds
  top_lo : PROGRAM_START ≤ s.program_top
  top_hi : s.program_top ≤ PROGRAM_END
  count : PROGRAM_START + 5 * nds.length ≤ s.program_top

/-- Sorted insertion of a node by line number (the list shape produced
by a successful store of a line not already present). -/
def insSpec (nd : PNode) : List PNode → List PNode
  | [] => [nd]
  | x :: xs => if nd.line < x.line then nd :: x :: xs else x :: insSpec nd xs

/-- Removal of the first node with the given line number. -/
def rmLine (n : Nat) : List PNode → List PNode
  | [] => []
  | x :: xs => if x.line = n then xs else x :: rmLine n xs

/-!  ## finish_insert: the three link cases -/

/-- finish_insert when the program is empty (prev 0, curr = page =
top): the node is written at top and PAGE is left untouched. -/
theorem finish_insert_first (n : Nat) (toks : List Byte) (ls page : Nat)
    (s : Mem) (htop : s.program_top = page) (hn : n < 65536)
    (hbound : s.program_top + 5 + toks.length ≤ 65536) :
    finish_insert n toks ls page 0 page s =
      .ok true { mem := st16 (node_fn s.mem s.program_top n toks) s.program_top 0,
                 program_top := s.program_top + ls } := by
  unfold finish_insert
  rw [run_bind_ok _ _ _ _ _ (run_get_top s)]
  beta_reduce
  rw [run_bind_ok _ _ _ _ _ (store_int16_run s.program_top 0 s (by omega) (by omega))]
  rw [run_bind_ok _ _ _ _ _ (store_int16_run (s.program_top + 2) n _ (by omega) hn)]
  rw [run_bind_ok _ _ _ _ _ (write_tokens_run toks (s.program_top + 4) _ (by omega))]
  rw [run_bind_ok _ _ _ _ _
    (set_byte_run (s.program_top + 4 + toks.length) 13 _ (by omega) (by omega))]
  rw [if_pos rfl]
  rw [if_pos (show page = page ∧ s.program_top = page from ⟨rfl, htop⟩)]
  rw [run_bind_ok _ _ _ _ _ (store_int16_run s.program_top 0 _ (by omega) (by omega))]
  beta_reduce
  rw [run_bind_ok _ _ _ _ _ (run_set_top _ _)]
  rfl

/-- finish_insert before the current head (prev 0, but not the empty
case): the node is written at top, linked to curr, and PAGE is moved
to it. -/
theorem finish_insert_prepend (n : Nat) (toks : List Byte) (ls page curr : Nat)
    (s : Mem) (hne : ¬ (curr = page ∧ s.program_top = page)) (hn : n < 65536)
    (hcurr : curr < 65536)
    (hbound : s.program_top + 5 + toks.length ≤ 65536) :
    finish_insert n toks ls page 0 curr s =
      .ok true { mem := st16 (st16 (node_fn s.mem s.program_top n toks)
                   s.program_top curr) HEADER_PAGE s.program_top,
                 program_top := s.program_top + ls } := by
  unfold finish_insert
  rw [run_bind_ok _ _ _ _ _ (run_get_top s)]
  beta_reduce
  rw [run_bind_ok _ _ _ _ _ (store_int16_run s.program_top 0 s (by omega) (by omega))]
  rw [run_bind_ok _ _ _ _ _ (store_int16_run (s.program_top + 2) n _ (by omega) hn)]
  rw [run_bind_ok _ _ _ _ _ (write_tokens_run toks (s.program_top + 4) _ (by omega))]
  rw [run_bind_ok _ _ _ _ _
    (set_byte_run (s.program_top + 4 + toks.length) 13 _ (by omega) (by omega))]
  rw [if_pos rfl]
  rw [if_neg hne]
  rw [run_bind_ok _ _ _ _ _ (store_int16_run s.program_top curr _ (by omega) hcurr)]
  rw [run_bind_ok _ _ _ _ _
    (store_int16_run HEADER_PAGE s.program_top _ (by decide) (by omega))]
  beta_reduce
  rw [run_bind_ok _ _ _ _ _ (run_set_top _ _)]
  rfl

/-- finish_insert after the node at prev (prev nonzero; curr is
ignored on this path): the node is written at top, prev is re-linked
to it, and it inherits prev's old next pointer. -/
theorem finish_insert_splice (n : Nat) (toks : List Byte) (ls page prev curr : Nat)
    (s : Mem) (hprev : prev ≠ 0) (hprev_b : prev + 1 < 65536) (hn : n < 65536)
    (hbound : s.program_top + 5 + toks.length ≤ 65536) :
    finish_insert n toks ls page prev curr s =
      .ok true { mem := st16 (st16 (node_fn s.mem s.program_top n toks)
                   prev s.program_top) s.program_top
                   (r16 (node_fn s.mem s.program_top n toks) prev),
                 program_top := s.program_top + ls } := by
  unfold finish_insert
  rw [run_bind_ok _ _ _ _ _ (run_get_top s)]
  beta_reduce
  rw [run_bind_ok _ _ _ _ _ (store_int16_run s.program_top 0 s (by omega) (by omega))]
  rw [run_bind_ok _ _ _ _ _ (store_int16_run (s.program_top + 2) n _ (by omega) hn)]
  rw [run_bind_ok _ _ _ _ _ (write_tokens_run toks (s.program_top + 4) _ (by omega))]
  rw [run_bind_ok _ _ _ _ _
    (set_byte_run (s.program_top + 4 + toks.length) 13 _ (by omega) (by omega))]
  rw [if_neg hprev]
  rw [run_bind_ok _ _ _ _ _ (read_int16_run prev _ hprev_b)]
  beta_reduce
  rw [run_bind_ok _ _ _ _ _ (store_int16_run prev s.program_top _ (by omega) (by omega))]
  rw [run_bind_ok _ _ _ _ _ (store_int16_run s.program_top _ _ (by omega) (r16_lt _ _))]
  beta_reduce
  rw [run_bind_ok _ _ _ _ _ (run_set_top _ _)]
  rfl

/-!  ## Invariant rebuild for the three insert cases -/

/-- The freshly written node at top is represented under any memory
that agrees with node_fn on its interior, with the new program_top. -/
theorem nodeRep_new (m m' : Nat → Byte) (top n : Nat) (toks : List Byte)
    (hagree : ∀ x, top + 2 ≤ x → x < top + 5 + toks.length →
      m' x = node_fn m top n toks x)
    (hn : n < 65536) (hlo : PROGRAM_START ≤ top) :
    NodeRep m' (top + (4 + toks.length + 1)) ⟨top, n, effToks toks⟩ := by
  have helen := effToks_len toks
  refine ⟨?_, ?_, effToks_ne toks, ?_, hlo, by simp; omega⟩
  · show r16 m' (top + 2) = n
    rw [r16_frame _ _ _ (hagree (top + 2) (by omega) (by omega))
      (hagree (top + 2 + 1) (by omega) (by omega))]
    exact node_fn_line m top n toks hn
  · show ∀ i, i < (effToks toks).length → m' (top + 4 + i) = (effToks toks).getD i 0
    intro i hi
    rw [hagree (top + 4 + i) (by omega) (by omega)]
    rw [node_fn_tok m top n toks i (by omega)]
    exact (effToks_getD toks i hi).symm
  · show (m' (top + 4 + (effToks toks).length)).val = 13
    rcases Nat.lt_or_ge (effToks toks).length toks.length with hlt | hge
    · rw [hagree (top + 4 + (effToks toks).length) (by omega) (by omega)]
      rw [node_fn_tok m top n toks _ hlt]
      exact effToks_stop toks hlt
    · have he : (effToks toks).length = toks.length := by omega
      rw [he]
      rw [hagree (top + 4 + toks.length) (by omega) (by omega)]
      exact node_fn_term m top n toks

/-- Inserting the first line into an empty program. -/
theorem insert_first_Inv (s : Mem) (n : Nat) (toks : List Byte)
    (hInv : Inv s []) (hn : n < 65536)
    (hroom : s.program_top + (4 + toks.length + 1) ≤ PROGRAM_END) :
    ∃ s', finish_insert n toks (4 + toks.length + 1) (r16 s.mem HEADER_PAGE) 0
        (r16 s.mem HEADER_PAGE) s = .ok true s'
      ∧ Inv s' [⟨s.program_top, n, effToks toks⟩]
      ∧ s'.program_top = s.program_top + (4 + toks.length + 1) := by
  have htop := hInv.page_empty rfl
  have hlo := hInv.top_lo
  have hhi := hInv.top_hi
  have hlo' : 4096 ≤ s.program_top := by simpa [PROGRAM_START] using hlo
  have hhi' : s.program_top + (4 + toks.length + 1) ≤ 61439 := by
    simpa [PROGRAM_END] using hroom
  refine ⟨_, finish_insert_first n toks (4 + toks.length + 1)
    (r16 s.mem HEADER_PAGE) s htop.symm hn (by omega), ?_, rfl⟩
  have hpage : r16 (st16 (node_fn s.mem s.program_top n toks) s.program_top 0)
      HEADER_PAGE = s.program_top := by
    rw [r16_frame _ _ _
      (st16_frame _ _ _ _ ⟨by simp only [HEADER_PAGE]; omega,
        by simp only [HEADER_PAGE]; omega⟩)
      (st16_frame _ _ _ _ ⟨by simp only [HEADER_PAGE]; omega,
        by simp only [HEADER_PAGE]; omega⟩)]
    rw [r16_frame _ _ _
      (node_fn_frame _ _ _ _ _ (by simp only [HEADER_PAGE]; omega))
      (node_fn_frame _ _ _ _ _ (by simp only [HEADER_PAGE]; omega))]
    exact htop
  refine ⟨by simp, ?_, by simp, ?_, by simp, ?_, ?_, ?_⟩
  · intro _
    show ChainSeg _ _ _ 0 _
    rw [hpage]
    have hnext : r16 (st16 (node_fn s.mem s.program_top n toks) s.program_top 0)
        s.program_top = 0 := r16_st16_same _ _ _ (by omega)
    refine ChainSeg.cons ⟨s.program_top, n, effToks toks⟩ 0 [] ?_ ?_
    · exact nodeRep_new s.mem _ s.program_top n toks
        (fun x hx1 hx2 => st16_frame _ _ _ _ ⟨by omega, by omega⟩) hn hlo
    · show ChainSeg _ _ (r16 (st16 (node_fn s.mem s.program_top n toks)
        s.program_top 0) s.program_top) 0 []
      rw [hnext]
      exact ChainSeg.nil 0
  · intro nd hnd
    simp at hnd
    subst hnd
    exact hn
  · show PROGRAM_START ≤ s.program_top + (4 + toks.length + 1)
    omega
  · show s.program_top + (4 + toks.length + 1) ≤ PROGRAM_END
    exact hroom
  · show PROGRAM_START + 5 * 1 ≤ s.program_top + (4 + toks.length + 1)
    simp only [PROGRAM_START] at hlo ⊢
    omega

/-- Inserting a new first line before the current head. -/
theorem insert_prepend_Inv (s : Mem) (n : Nat) (toks : List Byte)
    (H : PNode) (rest : List PNode)
    (hInv : Inv s (H :: rest)) (hn : n < 65536) (hnH : n < H.line)
    (hroom : s.program_top + (4 + toks.length + 1) ≤ PROGRAM_END) :
    ∃ s', finish_insert n toks (4 + toks.length + 1) (r16 s.mem HEADER_PAGE) 0
        H.addr s = .ok true s'
      ∧ Inv s' (⟨s.program_top, n, effToks toks⟩ :: H :: rest)
      ∧ s'.program_top = s.program_top + (4 + toks.length + 1) := by
  have hch := hInv.chain (by simp)
  have hlo := hInv.top_lo
  have hlo' : 4096 ≤ s.program_top := by simpa [PROGRAM_START] using hlo
  have hhi' : s.program_top + (4 + toks.length + 1) ≤ 61439 := by
    simpa [PROGRAM_END] using hroom
  have hpage : r16 s.mem HEADER_PAGE = H.addr := chainSeg_start hch
  rw [hpage] at hch
  have hnodes := chainSeg_nodes hch
  have hH : NodeRep s.mem s.program_top H := hnodes H (by simp)
  have hHext := hH.ext
  have hHlo : 4096 ≤ H.addr := by
    have := hH.lo
    simpa [PROGRAM_START] using this
  refine ⟨_, finish_insert_prepend n toks (4 + toks.length + 1)
    (r16 s.mem HEADER_PAGE) H.addr s
    (by rw [hpage]; rintro ⟨_, h2⟩; omega) hn (by omega) (by omega), ?_, rfl⟩
  have hpage' : r16 (st16 (st16 (node_fn s.mem s.program_top n toks)
      s.program_top H.addr) HEADER_PAGE s.program_top) HEADER_PAGE =
      s.program_top := r16_st16_same _ _ _ (by omega)
  have hfr : ∀ y, 4096 ≤ y → y < s.program_top →
      st16 (st16 (node_fn s.mem s.program_top n toks) s.program_top H.addr)
        HEADER_PAGE s.program_top y = s.mem y := by
    intro y h1 h2
    rw [st16_frame _ _ _ _ ⟨by simp only [HEADER_PAGE]; omega,
      by simp only [HEADER_PAGE]; omega⟩]
    rw [st16_frame _ _ _ _ ⟨by omega, by omega⟩]
    exact node_fn_frame _ _ _ _ _ (by omega)
  have hnext : r16 (st16 (st16 (node_fn s.mem s.program_top n toks)
      s.program_top H.addr) HEADER_PAGE s.program_top) s.program_top = H.addr := by
    rw [r16_frame _ _ _
      (st16_frame _ _ _ _ ⟨by simp only [HEADER_PAGE]; omega,
        by simp only [HEADER_PAGE]; omega⟩)
      (st16_frame _ _ _ _ ⟨by simp only [HEADER_PAGE]; omega,
        by simp only [HEADER_PAGE]; omega⟩)]
    exact r16_st16_same _ _ _ (by omega)
  refine ⟨by simp, ?_, ?_, ?_, ?_, ?_, ?_, ?_⟩
  · intro _
    show ChainSeg _ _ _ 0 _
    rw [hpage']
    refine ChainSeg.cons ⟨s.program_top, n, effToks toks⟩ 0 (H :: rest) ?_ ?_
    · refine nodeRep_new s.mem _ s.program_top n toks ?_ hn hlo
      intro x hx1 hx2
      show st16 (st16 (node_fn s.mem s.program_top n toks) s.program_top H.addr)
        HEADER_PAGE s.program_top x = node_fn s.mem s.program_top n toks x
      rw [st16_frame _ _ _ _ ⟨by simp only [HEADER_PAGE]; omega,
        by simp only [HEADER_PAGE]; omega⟩]
      exact st16_frame _ _ _ _ ⟨by omega, by omega⟩
    · show ChainSeg _ _ (r16 (st16 (st16 (node_fn s.mem s.program_top n toks)
        s.program_top H.addr) HEADER_PAGE s.program_top) s.program_top) 0 (H :: rest)
      rw [hnext]
      refine chainSeg_congr hch ?_ (Nat.le_add_right _ _)
      intro nd hnd x hx1 hx2
      have hn' := hnodes nd hnd
      refine hfr x ?_ ?_
      · have := hn'.lo
        simp only [PROGRAM_START] at this
        omega
      · have := hn'.ext
        omega
  · rw [List.chain'_cons]
    exact ⟨hnH, hInv.sorted⟩
  · intro nd hnd
    rcases List.mem_cons.mp hnd with rfl | hnd'
    · exact hn
    · exact hInv.lines_lt nd hnd'
  · rw [List.pairwise_cons]
    refine ⟨?_, hInv.disj⟩
    intro x hx
    right
    have := (hnodes x hx).ext
    simpa using this
  · show PROGRAM_START ≤ s.program_top + (4 + toks.length + 1)
    simp only [PROGRAM_START] at hlo ⊢
    omega
  · exact hroom
  · show PROGRAM_START + 5 * (H :: rest).length.succ ≤
      s.program_top + (4 + toks.length + 1)
    have := hInv.count
    simp only [PROGRAM_START, List.length_cons] at this ⊢
    omega

/-- Inversion for a chain segment starting at a cons cell. -/
theorem chainSeg_cons_inv {m : Nat → Byte} {top a c : Nat} {nd : PNode}
    {rest : List PNode} (h : ChainSeg m top a c (nd :: rest)) :
    a = nd.addr ∧ NodeRep m top nd ∧ ChainSeg m top (r16 m nd.addr) c rest := by
  cases h with
  | cons nd c rest hnd hrest => exact ⟨rfl, hnd, hrest⟩

/-- Inserting a line directly after the node P (middle or end of the
chain). -/
theorem insert_splice_Inv (s : Mem) (n : Nat) (toks : List Byte)
    (pre : List PNode) (P : PNode) (hi : List PNode) (curr : Nat)
    (hInv : Inv s (pre ++ P :: hi)) (hn : n < 65536)
    (hPn : P.line < n) (hgt : ∀ x ∈ hi, n < x.line)
    (hroom : s.program_top + (4 + toks.length + 1) ≤ PROGRAM_END) :
    ∃ s', finish_insert n toks (4 + toks.length + 1) (r16 s.mem HEADER_PAGE)
        P.addr curr s = .ok true s'
      ∧ Inv s' (pre ++ P :: ⟨s.program_top, n, effToks toks⟩ :: hi)
      ∧ s'.program_top = s.program_top + (4 + toks.length + 1) := by
  have hlo := hInv.top_lo
  have hlo' : 4096 ≤ s.program_top := by simpa [PROGRAM_START] using hlo
  have hhi' : s.program_top + (4 + toks.length + 1) ≤ 61439 := by
    simpa [PROGRAM_END] using hroom
  have hch := hInv.chain (by simp)
  have hnodes := chainSeg_nodes hch
  have hP : NodeRep s.mem s.program_top P := hnodes P (by simp)
  have hPext := hP.ext
  have hPlo : 4096 ≤ P.addr := by
    have := hP.lo
    simpa [PROGRAM_START] using this
  obtain ⟨hpre, hPchain⟩ := chainSeg_split pre hch
  have hhi_chain : ChainSeg s.mem s.program_top (r16 s.mem P.addr) 0 hi :=
    (chainSeg_cons_inv hPchain).2.2
  have hnop_eq : r16 s.mem P.addr = segStart hi 0 := chainSeg_start hhi_chain
  have hnop : r16 (node_fn s.mem s.program_top n toks) P.addr =
      r16 s.mem P.addr :=
    r16_frame _ _ _ (node_fn_frame _ _ _ _ _ (by omega))
      (node_fn_frame _ _ _ _ _ (by omega))
  -- disjointness bookkeeping
  have hdisj := hInv.disj
  rw [List.pairwise_append] at hdisj
  obtain ⟨hd_pre, hd_cons, hd_cross⟩ := hdisj
  rw [List.pairwise_cons] at hd_cons
  obtain ⟨hd_P_hi, hd_hi⟩ := hd_cons
  refine ⟨_, finish_insert_splice n toks (4 + toks.length + 1)
    (r16 s.mem HEADER_PAGE) P.addr curr s (by omega) (by omega) hn (by omega),
    ?_, rfl⟩
  have hfr : ∀ y, y < s.program_top → y ≠ P.addr → y ≠ P.addr + 1 →
      st16 (st16 (node_fn s.mem s.program_top n toks) P.addr s.program_top)
        s.program_top (r16 (node_fn s.mem s.program_top n toks) P.addr) y =
      s.mem y := by
    intro y h1 h2 h3
    rw [st16_frame _ _ _ _ ⟨by omega, by omega⟩]
    rw [st16_frame _ _ _ _ ⟨h2, by omega⟩]
    exact node_fn_frame _ _ _ _ _ (by omega)
  have hpageM : r16 (st16 (st16 (node_fn s.mem s.program_top n toks)
      P.addr s.program_top) s.program_top
      (r16 (node_fn s.mem s.program_top n toks) P.addr)) HEADER_PAGE =
      r16 s.mem HEADER_PAGE :=
    r16_frame _ _ _
      (hfr _ (by simp only [HEADER_PAGE]; omega)
        (by simp only [HEADER_PAGE]; omega) (by simp only [HEADER_PAGE]; omega))
      (hfr _ (by simp only [HEADER_PAGE]; omega)
        (by simp only [HEADER_PAGE]; omega) (by simp only [HEADER_PAGE]; omega))
  have hnextP : r16 (st16 (st16 (node_fn s.mem s.program_top n toks)
      P.addr s.program_top) s.program_top
      (r16 (node_fn s.mem s.program_top n toks) P.addr)) P.addr =
      s.program_top := by
    rw [r16_frame _ _ _ (st16_frame _ _ _ _ ⟨by omega, by omega⟩)
      (st16_frame _ _ _ _ ⟨by omega, by omega⟩)]
    exact r16_st16_same _ _ _ (by omega)
  have hnextNew : r16 (st16 (st16 (node_fn s.mem s.program_top n toks)
      P.addr s.program_top) s.program_top
      (r16 (node_fn s.mem s.program_top n toks) P.addr)) s.program_top =
      segStart hi 0 := by
    rw [r16_st16_same _ _ _ (r16_lt _ _)]
    rw [hnop, hnop_eq]
  refine ⟨by simp, ?_, ?_, ?_, ?_, ?_, ?_, ?_⟩
  · intro _
    show ChainSeg _ _ (r16 (st16 (st16 (node_fn s.mem s.program_top n toks)
      P.addr s.program_top) s.program_top
      (r16 (node_fn s.mem s.program_top n toks) P.addr)) HEADER_PAGE) 0 _
    rw [hpageM]
    refine @chainSeg_append _ _ pre _ (segStart (P :: hi) 0) ?_
      (P :: ⟨s.program_top, n, effToks toks⟩ :: hi) 0 ?_
    · refine chainSeg_congr hpre ?_ (Nat.le_add_right _ _)
      intro nd hnd x hx1 hx2
      have hn' := hnodes nd (by simp [hnd])
      have hrel := hd_cross nd hnd P (by simp)
      refine hfr x (by have := hn'.ext; omega) ?_ ?_
      · rcases hrel with h | h <;> omega
      · rcases hrel with h | h <;> omega
    · show ChainSeg _ _ P.addr 0 _
      refine ChainSeg.cons P 0 _ ?_ ?_
      · refine hP.congr ?_ (Nat.le_add_right _ _)
        intro x hx1 hx2
        refine hfr x (by omega) (by omega) (by omega)
      · show ChainSeg _ _ (r16 (st16 (st16 (node_fn s.mem s.program_top n toks)
          P.addr s.program_top) s.program_top
          (r16 (node_fn s.mem s.program_top n toks) P.addr)) P.addr) 0 _
        rw [hnextP]
        refine ChainSeg.cons ⟨s.program_top, n, effToks toks⟩ 0 hi ?_ ?_
        · refine nodeRep_new s.mem _ s.program_top n toks ?_ hn hlo
          intro x hx1 hx2
          show st16 (st16 (node_fn s.mem s.program_top n toks) P.addr
            s.program_top) s.program_top
            (r16 (node_fn s.mem s.program_top n toks) P.addr) x =
            node_fn s.mem s.program_top n toks x
          rw [st16_frame _ _ _ _ ⟨by omega, by omega⟩]
          exact st16_frame _ _ _ _ ⟨by omega, by omega⟩
        · show ChainSeg _ _ (r16 (st16 (st16 (node_fn s.mem s.program_top n
            toks) P.addr s.program_top) s.program_top
            (r16 (node_fn s.mem s.program_top n toks) P.addr))
            s.program_top) 0 hi
          rw [hnextNew]
          rw [hnop_eq] at hhi_chain
          refine chainSeg_congr hhi_chain ?_ (Nat.le_add_right _ _)
          intro nd hnd x hx1 hx2
          have hn' := hnodes nd (by simp [hnd])
          have hrel := hd_P_hi nd hnd
          refine hfr x (by have := hn'.ext; omega) ?_ ?_
          · rcases hrel with h | h <;> omega
          · rcases hrel with h | h <;> omega
  · have hs := hInv.sorted
    rw [List.chain'_append] at hs ⊢
    obtain ⟨h1, h2, h3⟩ := hs
    refine ⟨h1, ?_, ?_⟩
    · rw [List.chain'_cons]
      refine ⟨hPn, ?_⟩
      rw [List.chain'_cons']
      exact ⟨fun y hy => hgt y (List.mem_of_mem_head? hy),
        (List.chain'_cons'.mp h2).2⟩
    · intro x hx
      have := h3 x hx
      simpa using this
  · intro nd hnd
    simp only [List.mem_append, List.mem_cons] at hnd
    rcases hnd with h | h | h | h
    · exact hInv.lines_lt nd (by simp [h])
    · exact hInv.lines_lt nd (by simp [h])
    · subst h; exact hn
    · exact hInv.lines_lt nd (by simp [h])
  · rw [List.pairwise_append]
    refine ⟨hd_pre, ?_, ?_⟩
    · rw [List.pairwise_cons]
      refine ⟨?_, ?_⟩
      · intro b hb
        rcases List.mem_cons.mp hb with rfl | hb'
        · left; simpa using hPext
        · exact hd_P_hi b hb'
      · rw [List.pairwise_cons]
        refine ⟨?_, hd_hi⟩
        intro b hb
        right
        have := (hnodes b (by simp [hb])).ext
        simpa using this
    · intro a ha b hb
      rcases List.mem_cons.mp hb with rfl | hb'
      · exact hd_cross a ha b (by simp)
      rcases List.mem_cons.mp hb' with rfl | hb''
      · left
        have := (hnodes a (by simp [ha])).ext
        simpa using this
      · exact hd_cross a ha b (by simp [hb''])
  · show PROGRAM_START ≤ s.program_top + (4 + toks.length + 1)
    simp only [PROGRAM_START] at hlo ⊢
    omega
  · exact hroom
  · have := hInv.count
    simp only [PROGRAM_START, List.length_append, List.length_cons] at this ⊢
    omega

/-!  ## The delete walk -/

theorem chainSeg_nil_inv {m : Nat → Byte} {top a c : Nat}
    (h : ChainSeg m top a c []) : a = c := by
  cases h
  rfl

/-- The delete walk over a chain with no matching line returns false
without touching the state. -/
theorem delete_walk_notfound : ∀ (suffix : List PNode) (f : Nat) (s : Mem)
    (n page prev : Nat), suffix ≠ [] →
    ChainSeg s.mem s.program_top (segStart suffix 0) 0 suffix →
    (∀ x ∈ suffix, x.line ≠ n) →
    s.program_top ≤ PROGRAM_END →
    suffix.length + 1 ≤ f →
    delete_walk f n page prev (segStart suffix 0) s = .ok false s
  | [], _, _, _, _, _, hne, _, _, _, _ => absurd rfl hne
  | nd :: rest, f, s, n, page, prev, _, hch, hlines, htop, hf => by
    obtain ⟨hstart, hnd, hrest⟩ := chainSeg_cons_inv hch
    have hext := hnd.ext
    have hlo : 4096 ≤ nd.addr := by
      have := hnd.lo
      simpa [PROGRAM_START] using this
    have htop' : s.program_top ≤ 61439 := by simpa [PROGRAM_END] using htop
    obtain _ | f' := f
    · simp at hf
    show delete_walk (f' + 1) n page prev nd.addr s = .ok false s
    rw [delete_walk_succ]
    rw [run_bind_ok _ _ _ _ _ (run_get_top s)]
    beta_reduce
    rw [if_pos (show nd.addr < s.program_top by omega)]
    rw [run_bind_ok _ _ _ _ _ (read_int16_run (nd.addr + 2) s (by omega))]
    beta_reduce
    rw [hnd.line_eq]
    rw [if_neg (hlines nd (by simp))]
    rw [run_bind_ok _ _ _ _ _ (read_int16_run nd.addr s (by omega))]
    beta_reduce
    cases rest with
    | nil =>
      have h0 : r16 s.mem nd.addr = 0 := chainSeg_nil_inv hrest
      rw [h0]
      rw [if_pos rfl]
      rfl
    | cons R rest' =>
      obtain ⟨hstR, hR, _⟩ := chainSeg_cons_inv hrest
      have hRlo : 4096 ≤ R.addr := by
        have := hR.lo
        simpa [PROGRAM_START] using this
      rw [hstR]
      rw [if_neg (by omega)]
      have := delete_walk_notfound (R :: rest') f' s n page nd.addr (by simp)
        (by rw [show segStart (R :: rest') 0 = R.addr from rfl]; rw [← hstR]; exact hrest)
        (fun x hx => hlines x (by simp [hx])) htop (by simp at hf ⊢; omega)
      rw [show segStart (R :: rest') 0 = R.addr from rfl] at this
      exact this

/-- Address of the pointer the delete walk rewrites: the last
passed node's next pointer, or the incoming prev argument. -/
def lastLink (pre : List PNode) (prev : Nat) : Nat :=
  match pre.getLast? with
  | some P => P.addr
  | none => prev

theorem lastLink_nil (prev : Nat) : lastLink [] prev = prev := rfl

theorem lastLink_cons (P : PNode) (pre' : List PNode) (prev : Nat) :
    lastLink (P :: pre') prev = lastLink pre' P.addr := by
  cases pre' with
  | nil => rfl
  | cons R r' =>
    simp only [lastLink, List.getLast?_cons_cons]
    cases h : (R :: r').getLast? with
    | some L => rfl
    | none => simp at h

/-- The single link write performed by a successful delete: PAGE when
the matched node is the head, the predecessor's next pointer
otherwise. -/
def delWrite (m : Nat → Byte) (link page : Nat) (Q : PNode) : Nat → Byte :=
  if link = 0 then
    st16 m HEADER_PAGE (if r16 m Q.addr ≠ 0 then r16 m Q.addr else page)
  else
    st16 m link (r16 m Q.addr)

/-- The delete walk over a chain whose first matching line is Q,
after the non-matching prefix pre: it returns true having performed
exactly one link write. -/
theorem delete_walk_found : ∀ (pre : List PNode) (Q : PNode) (post : List PNode)
    (f : Nat) (s : Mem) (n page prev : Nat),
    ChainSeg s.mem s.program_top (segStart (pre ++ Q :: post) 0) 0
      (pre ++ Q :: post) →
    (∀ x ∈ pre, x.line ≠ n) → Q.line = n →
    s.program_top ≤ PROGRAM_END →
    pre.length + 1 ≤ f →
    (prev = 0 ∨ (prev ≠ 0 ∧ prev + 1 < 65536)) →
    page < 65536 →
    delete_walk f n page prev (segStart (pre ++ Q :: post) 0) s =
      .ok true { s with mem := delWrite s.mem (lastLink pre prev) page Q }
  | [], Q, post, f, s, n, page, prev, hch, _, hQ, htop, hf, hprev, hpage => by
    obtain ⟨hstart, hnd, hrest⟩ := chainSeg_cons_inv (by simpa using hch)
    have hext := hnd.ext
    have htop' : s.program_top ≤ 61439 := by simpa [PROGRAM_END] using htop
    obtain _ | f' := f
    · simp at hf
    show delete_walk (f' + 1) n page prev Q.addr s = _
    rw [delete_walk_succ]
    rw [run_bind_ok _ _ _ _ _ (run_get_top s)]
    beta_reduce
    rw [if_pos (show Q.addr < s.program_top by omega)]
    rw [run_bind_ok _ _ _ _ _ (read_int16_run (Q.addr + 2) s (by omega))]
    beta_reduce
    rw [hnd.line_eq]
    rw [if_pos hQ]
    rw [run_bind_ok _ _ _ _ _ (read_int16_run Q.addr s (by omega))]
    beta_reduce
    rcases hprev with rfl | ⟨hne, hb⟩
    · rw [if_pos rfl]
      rw [run_bind_ok _ _ _ _ _ (store_int16_run HEADER_PAGE _ s (by decide)
        (by by_cases hc : r16 s.mem Q.addr ≠ 0
            · rw [if_pos hc]; exact r16_lt _ _
            · rw [if_neg hc]; exact hpage))]
      rfl
    · rw [if_neg hne]
      rw [run_bind_ok _ _ _ _ _
        (store_int16_run prev _ s (by omega) (r16_lt _ _))]
      have hdw : delWrite s.mem (lastLink [] prev) page Q =
          st16 s.mem prev (r16 s.mem Q.addr) := by
        rw [lastLink_nil]
        unfold delWrite
        rw [if_neg hne]
      rw [hdw]
      rfl
  | P :: pre', Q, post, f, s, n, page, prev, hch, hlines, hQ, htop, hf, hprev, hpage => by
    obtain ⟨hstart, hnd, hrest⟩ := chainSeg_cons_inv (by simpa using hch)
    have hext := hnd.ext
    have hlo : 4096 ≤ P.addr := by
      have := hnd.lo
      simpa [PROGRAM_START] using this
    have htop' : s.program_top ≤ 61439 := by simpa [PROGRAM_END] using htop
    obtain _ | f' := f
    · simp at hf
    show delete_walk (f' + 1) n page prev P.addr s = _
    rw [delete_walk_succ]
    rw [run_bind_ok _ _ _ _ _ (run_get_top s)]
    beta_reduce
    rw [if_pos (show P.addr < s.program_top by omega)]
    rw [run_bind_ok _ _ _ _ _ (read_int16_run (P.addr + 2) s (by omega))]
    beta_reduce
    rw [hnd.line_eq]
    rw [if_neg (hlines P (by simp))]
    rw [run_bind_ok _ _ _ _ _ (read_int16_run P.addr s (by omega))]
    beta_reduce
    have hstR : r16 s.mem P.addr = segStart (pre' ++ Q :: post) 0 :=
      chainSeg_start hrest
    have hRlo : 4096 ≤ segStart (pre' ++ Q :: post) 0 := by
      cases pre' with
      | nil =>
        have h1 := chainSeg_nodes hrest Q (by simp)
        have := h1.lo
        simpa [segStart, PROGRAM_START] using this
      | cons R r' =>
        have h1 := chainSeg_nodes hrest R (by simp)
        have := h1.lo
        simpa [segStart, PROGRAM_START] using this
    rw [hstR]
    rw [if_neg (by omega)]
    have hrec := delete_walk_found pre' Q post f' s n page P.addr
      (by rw [← hstR]; exact hrest)
      (fun x hx => hlines x (by simp [hx])) hQ htop
      (by simp at hf ⊢; omega) (Or.inr ⟨by omega, by omega⟩) hpage
    rw [hrec]
    rw [lastLink_cons]

theorem segStart_append (l1 l2 : List PNode) (c : Nat) :
    segStart (l1 ++ l2) c = segStart l1 (segStart l2 c) := by
  cases l1 <;> rfl

/-- Strict line-sortedness survives dropping a middle node. -/
theorem chain'_drop_mid (l1 l2 : List PNode) (Q : PNode)
    (h : List.Chain' (fun a b => a.line < b.line) (l1 ++ Q :: l2)) :
    List.Chain' (fun a b => a.line < b.line) (l1 ++ l2) := by
  rw [List.chain'_append] at h ⊢
  obtain ⟨h1, h2, h3⟩ := h
  refine ⟨h1, (List.chain'_cons'.mp h2).2, ?_⟩
  intro x hx y hy
  have hxQ : x.line < Q.line := by
    have := h3 x hx Q (by simp)
    exact this
  have hQy : Q.line < y.line := (List.chain'_cons'.mp h2).1 y hy
  omega

/-- delete_program_line over a represented program with no matching
line: returns false and leaves the state untouched. -/
theorem delete_run_notfound (f n : Nat) (s : Mem) (nds : List PNode)
    (hInv : Inv s nds) (hnone : ∀ x ∈ nds, x.line ≠ n)
    (hf : nds.length + 2 ≤ f) :
    delete_program_line_f f n s = .ok false s := by
  unfold delete_program_line_f
  rw [run_bind_ok _ _ _ _ _ (read_int16_run HEADER_PAGE s (by decide))]
  beta_reduce
  cases nds with
  | nil =>
    rw [hInv.page_empty rfl]
    obtain _ | f' := f
    · simp at hf
    rw [delete_walk_succ]
    rw [run_bind_ok _ _ _ _ _ (run_get_top s)]
    beta_reduce
    rw [if_neg (by omega)]
    rfl
  | cons nd rest =>
    have hch := hInv.chain (by simp)
    have hpage : r16 s.mem HEADER_PAGE = segStart (nd :: rest) 0 :=
      chainSeg_start hch
    rw [hpage] at hch ⊢
    exact delete_walk_notfound (nd :: rest) f s n _ 0 (by simp) hch hnone
      hInv.top_hi (by simp at hf ⊢; omega)

/-- delete_program_line when a matching non-sole node exists: returns
true, performs the single unlink write, and preserves the invariant
for the remaining nodes. -/
theorem delete_run_found (f n : Nat) (s : Mem) (pre post : List PNode)
    (Q : PNode) (hInv : Inv s (pre ++ Q :: post))
    (hlines : ∀ x ∈ pre, x.line ≠ n) (hQ : Q.line = n)
    (hq : ¬ (pre = [] ∧ post = []))
    (hf : pre.length + 1 ≤ f) :
    ∃ s', delete_program_line_f f n s = .ok true s'
      ∧ Inv s' (pre ++ post)
      ∧ s'.program_top = s.program_top := by
  have hch := hInv.chain (by simp)
  have hpage : r16 s.mem HEADER_PAGE = segStart (pre ++ Q :: post) 0 :=
    chainSeg_start hch
  have htop := hInv.top_hi
  have htop' : s.program_top ≤ 61439 := by simpa [PROGRAM_END] using htop
  have hlo := hInv.top_lo
  have hnodes := chainSeg_nodes hch
  have hsorted' := chain'_drop_mid pre post Q hInv.sorted
  have hsub : (pre ++ post).Sublist (pre ++ Q :: post) :=
    List.Sublist.append_left (List.sublist_cons_self Q post) pre
  have hdisj' := hInv.disj.sublist hsub
  have hlines' : ∀ nd ∈ pre ++ post, nd.line < 65536 :=
    fun nd hnd => hInv.lines_lt nd (hsub.mem hnd)
  have hcount := hInv.count
  have hwalk := delete_walk_found pre Q post f s n
    (segStart (pre ++ Q :: post) 0) 0
    (by rw [hpage] at hch; exact hch) hlines hQ htop hf (Or.inl rfl)
    (by rw [← hpage]; exact r16_lt _ _)
  refine ⟨{ s with mem := delWrite s.mem (lastLink pre 0) (segStart (pre ++ Q :: post) 0) Q }, ?_, ?_, rfl⟩
  · unfold delete_program_line_f
    rw [run_bind_ok _ _ _ _ _ (read_int16_run HEADER_PAGE s (by decide))]
    beta_reduce
    rw [hpage]
    exact hwalk
  rcases List.eq_nil_or_concat pre with rfl | ⟨pre'', P, rfl⟩
  · -- head removal: post nonempty
    cases post with
    | nil => exact absurd ⟨rfl, rfl⟩ hq
    | cons R post' =>
      obtain ⟨_, hQrep, hrest⟩ := chainSeg_cons_inv (by simpa using hch)
      obtain ⟨hstR, hRrep, _⟩ := chainSeg_cons_inv hrest
      have hRlo : 4096 ≤ R.addr := by
        have := hRrep.lo
        simpa [PROGRAM_START] using this
      have hRlt : R.addr < 65536 := by
        have := hRrep.ext
        omega
      have hdw : delWrite s.mem (lastLink [] 0)
          (segStart ([] ++ Q :: R :: post') 0) Q =
          st16 s.mem HEADER_PAGE R.addr := by
        unfold delWrite
        rw [lastLink_nil]
        rw [if_pos rfl]
        rw [hstR]
        rw [if_pos (by omega)]
      rw [hdw]
      refine ⟨by simp, ?_, by simpa using hsorted', by simpa using hlines',
        by simpa using hdisj', hlo, htop, ?_⟩
      · intro _
        show ChainSeg _ _ (r16 (st16 s.mem HEADER_PAGE R.addr) HEADER_PAGE) 0 _
        rw [r16_st16_same _ _ _ hRlt]
        rw [hstR] at hrest
        show ChainSeg _ _ R.addr 0 ([] ++ R :: post')
        refine chainSeg_congr hrest ?_ le_rfl
        intro nd hnd x hx1 hx2
        have hn' := hnodes nd (by simp at hnd ⊢; tauto)
        refine st16_frame _ _ _ _ ⟨?_, ?_⟩
        · have := hn'.lo
          simp only [HEADER_PAGE, PROGRAM_START] at this ⊢
          omega
        · have := hn'.lo
          simp only [HEADER_PAGE, PROGRAM_START] at this ⊢
          omega
      · show PROGRAM_START + 5 * ([] ++ R :: post').length ≤ s.program_top
        simp only [List.nil_append, List.length_cons] at hcount ⊢
        simp only [PROGRAM_START] at hcount ⊢
        omega
  · -- removal after the prefix ending in P
    simp only [List.concat_eq_append] at *
    have hassoc : pre'' ++ [P] ++ Q :: post = pre'' ++ P :: Q :: post := by simp
    rw [hassoc] at hch
    obtain ⟨hpre'', hPQ⟩ := chainSeg_split pre'' hch
    obtain ⟨hstP, hPrep, hQchain⟩ := chainSeg_cons_inv hPQ
    obtain ⟨hstQ, hQrep, hpost⟩ := chainSeg_cons_inv hQchain
    have hpostStart : r16 s.mem Q.addr = segStart post 0 := chainSeg_start hpost
    have hPlo : 4096 ≤ P.addr := by
      have := hPrep.lo
      simpa [PROGRAM_START] using this
    have hPext := hPrep.ext
    have hdw : delWrite s.mem (lastLink (pre'' ++ [P]) 0)
        (segStart (pre'' ++ [P] ++ Q :: post) 0) Q =
        st16 s.mem P.addr (r16 s.mem Q.addr) := by
      unfold delWrite
      rw [show lastLink (pre'' ++ [P]) 0 = P.addr by
        unfold lastLink
        rw [List.getLast?_concat]]
      rw [if_neg (by omega)]
    rw [hdw]
    -- disjointness bookkeeping
    have hd := hInv.disj
    simp only [List.concat_eq_append] at hd
    rw [hassoc, List.pairwise_append] at hd
    obtain ⟨hd1, hd2, hdc⟩ := hd
    rw [List.pairwise_cons] at hd2
    obtain ⟨hdP, hd3⟩ := hd2
    have hfr : ∀ nd, nd ∈ pre'' ∨ nd ∈ post → ∀ x, nd.addr ≤ x →
        x < nd.addr + 5 + nd.toks.length →
        st16 s.mem P.addr (r16 s.mem Q.addr) x = s.mem x := by
      intro nd hnd x hx1 hx2
      have hrel : nd.addr + 5 + nd.toks.length ≤ P.addr ∨
          P.addr + 5 + P.toks.length ≤ nd.addr := by
        rcases hnd with h | h
        · exact hdc nd h P (by simp)
        · rcases hdP nd (by simp [h]) with hh | hh
          · exact Or.inr hh
          · exact Or.inl hh
      refine st16_frame _ _ _ _ ⟨?_, ?_⟩
      · rcases hrel with h | h <;> omega
      · rcases hrel with h | h <;> omega
    refine ⟨by simp, ?_, by simpa using hsorted', by simpa using hlines',
      by simpa using hdisj', hlo, htop, ?_⟩
    · intro _
      show ChainSeg _ _ (r16 (st16 s.mem P.addr (r16 s.mem Q.addr)) HEADER_PAGE) 0
        (pre'' ++ [P] ++ post)
      have hpg : r16 (st16 s.mem P.addr (r16 s.mem Q.addr)) HEADER_PAGE =
          r16 s.mem HEADER_PAGE :=
        r16_frame _ _ _
          (st16_frame _ _ _ _ ⟨by simp only [HEADER_PAGE]; omega,
            by simp only [HEADER_PAGE]; omega⟩)
          (st16_frame _ _ _ _ ⟨by simp only [HEADER_PAGE]; omega,
            by simp only [HEADER_PAGE]; omega⟩)
      rw [hpg]
      rw [show pre'' ++ [P] ++ post = pre'' ++ P :: post by simp]
      have hpgstart : r16 s.mem HEADER_PAGE = segStart (pre'' ++ P :: post) 0 := by
        rw [hpage]
        cases pre'' <;> rfl
      rw [hpgstart]
      rw [show segStart (pre'' ++ P :: post) 0 =
        segStart (pre'' ++ P :: Q :: post) 0 by cases pre'' <;> rfl]
      refine @chainSeg_append _ _ pre'' _ (segStart (P :: Q :: post) 0) ?_
        (P :: post) 0 ?_
      · rw [segStart_append, ← chainSeg_start hpre'']
        refine chainSeg_congr hpre'' ?_ le_rfl
        intro nd hnd x hx1 hx2
        exact hfr nd (Or.inl hnd) x hx1 hx2
      · show ChainSeg _ _ P.addr 0 _
        refine ChainSeg.cons P 0 post ?_ ?_
        · refine hPrep.congr ?_ le_rfl
          intro x hx1 hx2
          exact st16_frame _ _ _ _ ⟨by omega, by omega⟩
        · show ChainSeg _ _ (r16 (st16 s.mem P.addr (r16 s.mem Q.addr)) P.addr)
            0 post
          rw [r16_st16_same _ _ _ (r16_lt _ _)]
          refine chainSeg_congr hpost ?_ le_rfl
          intro nd hnd x hx1 hx2
          exact hfr nd (Or.inr hnd) x hx1 hx2
    · show PROGRAM_START + 5 * (pre'' ++ [P] ++ post).length ≤ s.program_top
      have hlen1 : (pre'' ++ [P] ++ Q :: post).length =
          (pre'' ++ [P] ++ post).length + 1 := by simp; omega
      rw [hlen1] at hcount
      simp only [PROGRAM_START] at hcount ⊢
      omega

/-!  ## Sorted-list bookkeeping for the store walk -/

theorem sorted_pairwise : ∀ (l : List PNode),
    List.Chain' (fun a b => a.line < b.line) l →
    List.Pairwise (fun a b => a.line < b.line) l
  | [], _ => List.Pairwise.nil
  | x :: rest, h => by
    obtain ⟨h1, h2⟩ := List.chain'_cons'.mp h
    have ihp := sorted_pairwise rest h2
    rw [List.pairwise_cons]
    refine ⟨?_, ihp⟩
    intro y hy
    cases rest with
    | nil => simp at hy
    | cons z rest' =>
      have hxz : x.line < z.line := h1 z rfl
      rcases List.mem_cons.mp hy with rfl | hy'
      · exact hxz
      · have := (List.pairwise_cons.mp ihp).1 y hy'
        omega

/-- A sorted list with no line equal to n splits into the part below n
and the part above n. -/
theorem sorted_split_not_mem : ∀ (l : List PNode) (n : Nat),
    List.Chain' (fun a b => a.line < b.line) l →
    (∀ x ∈ l, x.line ≠ n) →
    ∃ lo hi, l = lo ++ hi ∧ (∀ x ∈ lo, x.line < n) ∧ (∀ x ∈ hi, n < x.line)
  | [], n, _, _ => ⟨[], [], rfl, by simp, by simp⟩
  | x :: rest, n, hs, hne => by
    rcases Nat.lt_or_ge x.line n with hlt | hge
    · obtain ⟨lo, hi, heq, hlo, hhi⟩ := sorted_split_not_mem rest n
        ((List.chain'_cons'.mp hs).2) (fun y hy => hne y (by simp [hy]))
      refine ⟨x :: lo, hi, by simp [heq], ?_, hhi⟩
      intro y hy
      rcases List.mem_cons.mp hy with rfl | hy'
      · exact hlt
      · exact hlo y hy'
    · have hgt : n < x.line := by
        have := hne x (by simp)
        omega
      refine ⟨[], x :: rest, rfl, by simp, ?_⟩
      intro y hy
      rcases List.mem_cons.mp hy with rfl | hy'
      · exact hgt
      · have hpw := sorted_pairwise (x :: rest) hs
        have := (List.pairwise_cons.mp hpw).1 y hy'
        omega

/-- A sorted list containing line n splits around its unique node with
line n. -/
theorem sorted_split_mem : ∀ (l : List PNode) (n : Nat),
    List.Chain' (fun a b => a.line < b.line) l →
    (∃ x ∈ l, x.line = n) →
    ∃ pre Q post, l = pre ++ Q :: post ∧ Q.line = n ∧
      (∀ x ∈ pre, x.line < n) ∧ (∀ x ∈ post, n < x.line)
  | [], n, _, hmem => by simp at hmem
  | x :: rest, n, hs, hmem => by
    have hpw := sorted_pairwise (x :: rest) hs
    rcases Nat.lt_trichotomy x.line n with hlt | heq | hgt
    · have hmem' : ∃ y ∈ rest, y.line = n := by
        obtain ⟨y, hy, hyn⟩ := hmem
        rcases List.mem_cons.mp hy with rfl | hy'
        · omega
        · exact ⟨y, hy', hyn⟩
      obtain ⟨pre, Q, post, heq', hQ, hpre, hpost⟩ := sorted_split_mem rest n
        ((List.chain'_cons'.mp hs).2) hmem'
      refine ⟨x :: pre, Q, post, by simp [heq'], hQ, ?_, hpost⟩
      intro y hy
      rcases List.mem_cons.mp hy with rfl | hy'
      · exact hlt
      · exact hpre y hy'
    · refine ⟨[], x, rest, rfl, heq, by simp, ?_⟩
      intro y hy
      have := (List.pairwise_cons.mp hpw).1 y hy
      omega
    · exfalso
      obtain ⟨y, hy, hyn⟩ := hmem
      rcases List.mem_cons.mp hy with rfl | hy'
      · omega
      · have := (List.pairwise_cons.mp hpw).1 y hy'
        omega

theorem rmLine_not_mem : ∀ (l : List PNode) (n : Nat),
    (∀ x ∈ l, x.line ≠ n) → rmLine n l = l
  | [], _, _ => rfl
  | x :: rest, n, h => by
    unfold rmLine
    rw [if_neg (h x (by simp))]
    rw [rmLine_not_mem rest n (fun y hy => h y (by simp [hy]))]

theorem rmLine_split : ∀ (pre : List PNode) (Q : PNode) (post : List PNode)
    (n : Nat), (∀ x ∈ pre, x.line ≠ n) → Q.line = n →
    rmLine n (pre ++ Q :: post) = pre ++ post
  | [], Q, post, n, _, hQ => by
    unfold rmLine
    simp only [List.nil_append]
    rw [if_pos hQ]
  | x :: pre', Q, post, n, h, hQ => by
    show rmLine n (x :: (pre' ++ Q :: post)) = _
    unfold rmLine
    rw [if_neg (h x (by simp))]
    rw [rmLine_split pre' Q post n (fun y hy => h y (by simp [hy])) hQ]
    rfl

theorem insSpec_split : ∀ (lo hi : List PNode) (nd : PNode),
    (∀ x ∈ lo, x.line < nd.line) → (∀ x ∈ hi, nd.line < x.line) →
    insSpec nd (lo ++ hi) = lo ++ nd :: hi
  | [], hi, nd, _, hhi => by
    cases hi with
    | nil => rfl
    | cons H hi' =>
      show insSpec nd (H :: hi') = nd :: H :: hi'
      unfold insSpec
      rw [if_pos (hhi H (by simp))]
  | x :: lo', hi, nd, hlo, hhi => by
    show insSpec nd (x :: (lo' ++ hi)) = _
    unfold insSpec
    rw [if_neg (by have := hlo x (by simp); omega)]
    rw [insSpec_split lo' hi nd (fun y hy => hlo y (by simp [hy])) hhi]
    rfl

/-- The store walk on a program with no matching line: it passes the
nodes with lines below n and inserts the new node at the proper place,
preserving the invariant. -/
theorem store_walk_ins : ∀ (lo : List PNode) (f : Nat) (s : Mem)
    (pre hi : List PNode) (n : Nat) (toks : List Byte) (prev curr : Nat),
    Inv s (pre ++ lo ++ hi) →
    (∀ x ∈ pre ++ lo, x.line < n) → (∀ x ∈ hi, n < x.line) →
    n < 65536 →
    s.program_top + (4 + toks.length + 1) ≤ PROGRAM_END →
    (lo ++ hi ≠ [] → ChainSeg s.mem s.program_top curr 0 (lo ++ hi)) →
    ((pre = [] ∧ prev = 0) ∨
      (∃ P pre', pre = pre' ++ [P] ∧ prev = P.addr ∧ r16 s.mem P.addr = curr)) →
    (lo ++ hi = [] → pre = [] ∧ curr = s.program_top) →
    lo.length + 1 ≤ f →
    ∃ s', store_walk f n toks (4 + toks.length + 1) (r16 s.mem HEADER_PAGE)
        prev curr s = .ok true s'
      ∧ Inv s' ((pre ++ lo) ++ ⟨s.program_top, n, effToks toks⟩ :: hi)
      ∧ s'.program_top = s.program_top + (4 + toks.length + 1)
  | [], f, s, pre, hi, n, toks, prev, curr, hInv, hlt, hgt, hn, hroom, hchain,
      hlink, hempty, hf => by
    obtain _ | f' := f
    · simp at hf
    rw [store_walk_succ]
    rw [run_bind_ok _ _ _ _ _ (run_get_top s)]
    beta_reduce
    cases hi with
    | nil =>
      obtain ⟨hpre0, hcurr⟩ := hempty rfl
      subst hpre0
      have hprev0 : prev = 0 := by
        rcases hlink with ⟨_, h⟩ | ⟨P, pre', habs, _, _⟩
        · exact h
        · simp at habs
      subst hprev0
      rw [hcurr]
      rw [if_neg (by omega)]
      have hInv0 : Inv s [] := by simpa using hInv
      obtain ⟨s', hrun, hinv', htop'⟩ := insert_first_Inv s n toks hInv0 hn hroom
      refine ⟨s', ?_, by simpa using hinv', htop'⟩
      rw [← hInv0.page_empty rfl]
      exact hrun
    | cons H hi' =>
      have hch := hchain (by simp)
      obtain ⟨hstart, hH, hrest⟩ := chainSeg_cons_inv (by simpa using hch)
      have hHext := hH.ext
      have htop' : s.program_top ≤ 61439 := by
        have := hInv.top_hi
        simpa [PROGRAM_END] using this
      subst hstart
      rw [if_pos (show H.addr < s.program_top by omega)]
      rw [run_bind_ok _ _ _ _ _ (read_int16_run (H.addr + 2) s (by omega))]
      beta_reduce
      rw [hH.line_eq]
      have hHgt : n < H.line := hgt H (by simp)
      rw [if_neg (by omega)]
      rw [if_pos hHgt]
      rcases hlink with ⟨hpre0, hprev0⟩ | ⟨P, pre', hpre, hprev, hcurr⟩
      · subst hpre0
        subst hprev0
        have hInv' : Inv s (H :: hi') := by simpa using hInv
        obtain ⟨s', hrun, hinv', htop2⟩ :=
          insert_prepend_Inv s n toks H hi' hInv' hn hHgt hroom
        exact ⟨s', hrun, by simpa using hinv', htop2⟩
      · subst hpre
        subst hprev
        have hInv' : Inv s (pre' ++ P :: H :: hi') := by
          have := hInv
          simpa [List.append_assoc] using this
        obtain ⟨s', hrun, hinv', htop2⟩ := insert_splice_Inv s n toks pre' P
          (H :: hi') H.addr hInv' hn (hlt P (by simp)) (by simpa using hgt)
          hroom
        refine ⟨s', hrun, ?_, htop2⟩
        have heq : pre' ++ P :: (⟨s.program_top, n, effToks toks⟩ : PNode) ::
            H :: hi' = ((pre' ++ [P]) ++ []) ++
            (⟨s.program_top, n, effToks toks⟩ : PNode) :: H :: hi' := by simp
        rw [heq] at hinv'
        exact hinv'
  | L :: lo', f, s, pre, hi, n, toks, prev, curr, hInv, hlt, hgt, hn, hroom,
      hchain, hlink, hempty, hf => by
    obtain _ | f' := f
    · simp at hf
    rw [store_walk_succ]
    rw [run_bind_ok _ _ _ _ _ (run_get_top s)]
    beta_reduce
    have hch := hchain (by simp)
    obtain ⟨hstart, hL, hrest⟩ := chainSeg_cons_inv (by simpa using hch)
    have hLext := hL.ext
    have hLlo : 4096 ≤ L.addr := by
      have := hL.lo
      simpa [PROGRAM_START] using this
    have htop' : s.program_top ≤ 61439 := by
      have := hInv.top_hi
      simpa [PROGRAM_END] using this
    subst hstart
    rw [if_pos (show L.addr < s.program_top by omega)]
    rw [run_bind_ok _ _ _ _ _ (read_int16_run (L.addr + 2) s (by omega))]
    beta_reduce
    rw [hL.line_eq]
    have hLlt : L.line < n := hlt L (by simp)
    rw [if_neg (by omega)]
    rw [if_neg (by omega)]
    rw [run_bind_ok _ _ _ _ _ (read_int16_run L.addr s (by omega))]
    beta_reduce
    cases hlohi : lo' ++ hi with
    | nil =>
      obtain ⟨hlo0, hhi0⟩ := List.append_eq_nil.mp hlohi
      subst hlo0
      subst hhi0
      have h0 : r16 s.mem L.addr = 0 := chainSeg_nil_inv (by simpa using hrest)
      rw [h0]
      rw [if_pos rfl]
      have hInv' : Inv s (pre ++ L :: ([] : List PNode)) := by
        simpa using hInv
      obtain ⟨s', hrun, hinv', htop2⟩ := insert_splice_Inv s n toks pre L []
        L.addr hInv' hn hLlt (by simp) hroom
      refine ⟨s', hrun, ?_, htop2⟩
      have heq : pre ++ L :: (⟨s.program_top, n, effToks toks⟩ : PNode) ::
          ([] : List PNode) = (pre ++ [L]) ++
          (⟨s.program_top, n, effToks toks⟩ : PNode) :: [] := by simp
      rw [heq] at hinv'
      exact hinv'
    | cons X rest' =>
      have hrest' : ChainSeg s.mem s.program_top (r16 s.mem L.addr) 0
          (lo' ++ hi) := by simpa using hrest
      have hstX : r16 s.mem L.addr = segStart (lo' ++ hi) 0 :=
        chainSeg_start hrest'
      have hXlo : 4096 ≤ segStart (lo' ++ hi) 0 := by
        rw [hlohi]
        have := (chainSeg_nodes hrest' X (by rw [hlohi]; simp)).lo
        simpa [segStart, PROGRAM_START] using this
      rw [if_neg (by omega)]
      have hih := store_walk_ins lo' f' s (pre ++ [L]) hi n toks L.addr
        (r16 s.mem L.addr)
        (by have := hInv; simpa [List.append_assoc] using this)
        (by intro x hx
            simp only [List.mem_append, List.mem_cons] at hx
            rcases hx with (h | h) | h
            · exact hlt x (by simp [h])
            · rcases h with rfl | hcontra
              · exact hLlt
              · simp at hcontra
            · exact hlt x (by simp [h]))
        hgt hn hroom
        (fun _ => hrest')
        (Or.inr ⟨L, pre, rfl, rfl, rfl⟩)
        (by intro h; rw [h] at hlohi; simp at hlohi)
        (by simp at hf ⊢; omega)
      obtain ⟨s', hrun, hinv', htop2⟩ := hih
      refine ⟨s', hrun, ?_, htop2⟩
      have heq : ((pre ++ [L]) ++ lo') ++
          (⟨s.program_top, n, effToks toks⟩ : PNode) :: hi =
          (pre ++ L :: lo') ++
          (⟨s.program_top, n, effToks toks⟩ : PNode) :: hi := by simp
      rw [heq] at hinv'
      exact hinv'

/-- store_program_line when no line n is present: false without state
change when the program area is full, otherwise a sorted insert. -/
theorem store_run_insert (f : Nat) (s : Mem) (nds : List PNode) (n : Nat)
    (toks : List Byte) (hInv : Inv s nds) (hn : n < 65536)
    (hnone : ∀ x ∈ nds, x.line ≠ n) (hf : nds.length + 2 ≤ f) :
    (PROGRAM_END < s.program_top + (4 + toks.length + 1) →
      store_program_line_f f n toks s = .ok false s)
    ∧ (s.program_top + (4 + toks.length + 1) ≤ PROGRAM_END →
      ∃ s', store_program_line_f f n toks s = .ok true s'
        ∧ Inv s' (insSpec ⟨s.program_top, n, effToks toks⟩ nds)
        ∧ s'.program_top = s.program_top + (4 + toks.length + 1)) := by
  obtain _ | f' := f
  · simp at hf
  constructor
  · intro hfull
    rw [store_f_succ]
    rw [run_bind_ok _ _ _ _ _ (run_get_top s)]
    beta_reduce
    rw [if_pos hfull]
    rfl
  · intro hroom
    rw [store_f_succ]
    rw [run_bind_ok _ _ _ _ _ (run_get_top s)]
    beta_reduce
    rw [if_neg (by omega)]
    rw [run_bind_ok _ _ _ _ _ (read_int16_run HEADER_PAGE s (by decide))]
    beta_reduce
    obtain ⟨lo, hi, heq, hlo, hhi⟩ :=
      sorted_split_not_mem nds n hInv.sorted hnone
    subst heq
    have hih := store_walk_ins lo f' s [] hi n toks 0 (r16 s.mem HEADER_PAGE)
      (by simpa using hInv) (by simpa using hlo) hhi hn hroom
      (fun hne => hInv.chain hne)
      (Or.inl ⟨rfl, rfl⟩)
      (fun h => ⟨rfl, hInv.page_empty h⟩)
      (by simp at hf ⊢; omega)
    obtain ⟨s', hrun, hinv', htop2⟩ := hih
    refine ⟨s', hrun, ?_, htop2⟩
    rw [insSpec_split lo hi _ hlo hhi]
    simpa using hinv'

/-- The store walk reaching a matching line after the prefix pre:
it delegates to delete-then-restore with the remaining fuel. -/
theorem store_walk_match : ∀ (pre : List PNode) (Q : PNode) (post : List PNode)
    (g : Nat) (s : Mem) (n : Nat) (toks : List Byte) (ls page prev : Nat),
    ChainSeg s.mem s.program_top (segStart (pre ++ Q :: post) 0) 0
      (pre ++ Q :: post) →
    (∀ x ∈ pre, x.line < n) → Q.line = n →
    s.program_top ≤ PROGRAM_END →
    store_walk (pre.length + 1 + g) n toks ls page prev
      (segStart (pre ++ Q :: post) 0) s =
      (delete_program_line_f g n >>= fun _ => store_program_line_f g n toks) s
  | [], Q, post, g, s, n, toks, ls, page, prev, hch, _, hQ, htop => by
    obtain ⟨hstart, hQrep, _⟩ := chainSeg_cons_inv (by simpa using hch)
    have hext := hQrep.ext
    have htop' : s.program_top ≤ 61439 := by simpa [PROGRAM_END] using htop
    rw [show segStart ([] ++ Q :: post) 0 = Q.addr from rfl]
    rw [show (([] : List PNode).length + 1 + g) = g + 1 by simp; omega]
    rw [store_walk_succ]
    rw [run_bind_ok _ _ _ _ _ (run_get_top s)]
    beta_reduce
    rw [if_pos (show Q.addr < s.program_top by omega)]
    rw [run_bind_ok _ _ _ _ _ (read_int16_run (Q.addr + 2) s (by omega))]
    beta_reduce
    rw [hQrep.line_eq]
    rw [if_pos hQ]
  | P :: pre', Q, post, g, s, n, toks, ls, page, prev, hch, hlt, hQ, htop => by
    obtain ⟨hstart, hPrep, hrest⟩ := chainSeg_cons_inv (by simpa using hch)
    have hext := hPrep.ext
    have htop' : s.program_top ≤ 61439 := by simpa [PROGRAM_END] using htop
    rw [show segStart (P :: pre' ++ Q :: post) 0 = P.addr from rfl]
    rw [show ((P :: pre').length + 1 + g) = pre'.length + 1 + g + 1 by
      simp; omega]
    rw [store_walk_succ]
    rw [run_bind_ok _ _ _ _ _ (run_get_top s)]
    beta_reduce
    rw [if_pos (show P.addr < s.program_top by omega)]
    rw [run_bind_ok _ _ _ _ _ (read_int16_run (P.addr + 2) s (by omega))]
    beta_reduce
    rw [hPrep.line_eq]
    have hPlt : P.line < n := hlt P (by simp)
    rw [if_neg (by omega)]
    rw [if_neg (by omega)]
    rw [run_bind_ok _ _ _ _ _ (read_int16_run P.addr s (by omega))]
    beta_reduce
    have hrest' : ChainSeg s.mem s.program_top (r16 s.mem P.addr) 0
        (pre' ++ Q :: post) := hrest
    have hstX : r16 s.mem P.addr = segStart (pre' ++ Q :: post) 0 :=
      chainSeg_start hrest'
    have hXlo : 4096 ≤ segStart (pre' ++ Q :: post) 0 := by
      cases pre' with
      | nil =>
        have := (chainSeg_nodes hrest' Q (by simp)).lo
        simpa [segStart, PROGRAM_START] using this
      | cons R r' =>
        have := (chainSeg_nodes hrest' R (by simp)).lo
        simpa [segStart, PROGRAM_START] using this
    rw [hstX]
    rw [if_neg (by omega)]
    exact store_walk_match pre' Q post g s n toks ls page P.addr
      (by rw [← hstX]; exact hrest')
      (fun x hx => hlt x (by simp [hx])) hQ htop

/-- store_program_line over any represented program whose listing is
not exactly the single line n (the divergent quirk case): false with
no state change when the area is full, otherwise delete-if-present
followed by a sorted insert of the new line at the old program_top. -/
theorem store_run (f : Nat) (s : Mem) (nds : List PNode) (n : Nat)
    (toks : List Byte) (hInv : Inv s nds) (hn : n < 65536)
    (hq : nds.map PNode.line ≠ [n])
    (hf : 2 * nds.length + 6 ≤ f) :
    (PROGRAM_END < s.program_top + (4 + toks.length + 1) →
      store_program_line_f f n toks s = .ok false s)
    ∧ (s.program_top + (4 + toks.length + 1) ≤ PROGRAM_END →
      ∃ s', store_program_line_f f n toks s = .ok true s'
        ∧ Inv s' (insSpec ⟨s.program_top, n, effToks toks⟩ (rmLine n nds))
        ∧ s'.program_top = s.program_top + (4 + toks.length + 1)) := by
  by_cases hmem : ∃ x ∈ nds, x.line = n
  · obtain ⟨pre, Q, post, heq, hQ, hpre, hpost⟩ :=
      sorted_split_mem nds n hInv.sorted hmem
    subst heq
    have hrm : rmLine n (pre ++ Q :: post) = pre ++ post :=
      rmLine_split pre Q post n (fun x hx => by have := hpre x hx; omega) hQ
    rw [hrm]
    have hqq : ¬ (pre = [] ∧ post = []) := by
      rintro ⟨rfl, rfl⟩
      simp only [List.nil_append, List.map_cons, List.map_nil] at hq
      exact hq (by rw [hQ])
    simp only [List.length_append, List.length_cons] at hf
    obtain _ | f' := f
    · omega
    constructor
    · intro hfull
      rw [store_f_succ]
      rw [run_bind_ok _ _ _ _ _ (run_get_top s)]
      beta_reduce
      rw [if_pos hfull]
      rfl
    · intro hroom
      rw [store_f_succ]
      rw [run_bind_ok _ _ _ _ _ (run_get_top s)]
      beta_reduce
      rw [if_neg (by omega)]
      rw [run_bind_ok _ _ _ _ _ (read_int16_run HEADER_PAGE s (by decide))]
      beta_reduce
      have hch := hInv.chain (by simp)
      have hpage : r16 s.mem HEADER_PAGE = segStart (pre ++ Q :: post) 0 :=
        chainSeg_start hch
      obtain ⟨g, hgf, hgb1, hgb2⟩ : ∃ g, f' = pre.length + 1 + g ∧
          (pre ++ post).length + 2 ≤ g ∧ pre.length + 1 ≤ g := by
        refine ⟨f' - pre.length - 1, by omega, by simp; omega, by omega⟩
      rw [hpage, hgf]
      rw [store_walk_match pre Q post g s n toks (4 + toks.length + 1) _ 0
        (by rw [← hpage]; exact hch)
        hpre hQ hInv.top_hi]
      obtain ⟨s₁, hdel, hinv₁, htop₁⟩ := delete_run_found g n s pre post Q hInv
        (fun x hx => by have := hpre x hx; omega) hQ hqq hgb2
      rw [run_bind_ok _ _ _ _ _ hdel]
      have hsri := store_run_insert g s₁ (pre ++ post) n toks hinv₁ hn
        (by intro x hx
            simp only [List.mem_append] at hx
            rcases hx with h | h
            · have := hpre x h; omega
            · have := hpost x h; omega)
        hgb1
      obtain ⟨s₂, hrun₂, hinv₂, htop₂⟩ := hsri.2 (by rw [htop₁]; exact hroom)
      rw [htop₁] at hinv₂ htop₂
      exact ⟨s₂, hrun₂, hinv₂, htop₂⟩
  · push_neg at hmem
    rw [rmLine_not_mem nds n hmem]
    exact store_run_insert f s nds n toks hInv hn hmem (by omega)

/-!  ## Listing a represented program -/

/-- The lines walk over a chain yields exactly the represented lines. -/
theorem lines_walk_chain : ∀ (suffix : List PNode) (f : Nat) (s : Mem)
    (curr : Nat), suffix ≠ [] →
    ChainSeg s.mem s.program_top curr 0 suffix →
    s.program_top ≤ PROGRAM_END →
    suffix.length + 1 ≤ f →
    lines_walk f curr s = .ok (suffix.map (fun nd => (nd.line, nd.toks))) s
  | [], _, _, _, hne, _, _, _ => absurd rfl hne
  | nd :: rest, f, s, curr, _, hch, htop, hf => by
    obtain ⟨hstart, hnd, hrest⟩ := chainSeg_cons_inv hch
    have hext := hnd.ext
    have htop' : s.program_top ≤ 61439 := by simpa [PROGRAM_END] using htop
    obtain _ | f' := f
    · simp at hf
    subst hstart
    rw [lines_walk_succ]
    rw [run_bind_ok _ _ _ _ _ (run_get_top s)]
    beta_reduce
    rw [if_pos (show nd.addr < s.program_top by omega)]
    rw [run_bind_ok _ _ _ _ _ (read_int16_run (nd.addr + 2) s (by omega))]
    beta_reduce
    rw [hnd.line_eq]
    rw [run_bind_ok _ _ _ _ _ (run_get s)]
    beta_reduce
    rw [tokens_from_spec nd.toks s.mem s.program_top (nd.addr + 4)
      hnd.toks_eq hnd.toks_ne hnd.term_eq (by omega)]
    rw [run_bind_ok _ _ _ _ _ (read_int16_run nd.addr s (by omega))]
    beta_reduce
    cases rest with
    | nil =>
      have h0 : r16 s.mem nd.addr = 0 := chainSeg_nil_inv hrest
      rw [h0]
      rw [if_pos rfl]
      rfl
    | cons R rest' =>
      have hstR : r16 s.mem nd.addr = segStart (R :: rest') 0 :=
        chainSeg_start hrest
      have hRlo : 4096 ≤ R.addr := by
        have := (chainSeg_nodes hrest R (by simp)).lo
        simpa [PROGRAM_START] using this
      rw [hstR]
      rw [if_neg (by simp only [segStart]; omega)]
      rw [run_bind_ok _ _ _ _ _ (lines_walk_chain (R :: rest') f' s _ (by simp)
        (by rw [← hstR]; exact hrest) htop (by simp at hf ⊢; omega))]
      rfl

/-- get_program_lines over a represented program returns exactly the
represented lines, in chain order. -/
theorem get_program_lines_run (s : Mem) (nds : List PNode)
    (hInv : Inv s nds) (hf : nds.length + 3 ≤ FUEL) :
    get_program_lines s = .ok (nds.map (fun nd => (nd.line, nd.toks))) s := by
  unfold get_program_lines get_program_lines_f
  rw [run_bind_ok _ _ _ _ _ (read_int16_run HEADER_PAGE s (by decide))]
  beta_reduce
  cases nds with
  | nil =>
    rw [hInv.page_empty rfl]
    rw [show (FUEL : Nat) = 65535 + 1 from rfl]
    rw [lines_walk_succ]
    rw [run_bind_ok _ _ _ _ _ (run_get_top s)]
    beta_reduce
    rw [if_neg (by omega)]
    rfl
  | cons nd rest =>
    have hch := hInv.chain (by simp)
    exact lines_walk_chain (nd :: rest) FUEL s _ (by simp) hch hInv.top_hi
      (by simp at hf ⊢; omega)

/-- get_all_lines over a represented program: the represented lines,
detokenized. -/
theorem get_all_lines_run (s : Mem) (nds : List PNode)
    (hInv : Inv s nds) (hf : nds.length + 3 ≤ FUEL) :
    get_all_lines s =
      .ok (nds.map (fun nd => (nd.line, detokenize_bytes nd.toks))) s := by
  unfold get_all_lines
  rw [run_bind_ok _ _ _ _ _ (get_program_lines_run s nds hInv hf)]
  show Out.ok _ s = _
  rw [List.map_map]
  rfl

/-!  ## The sole-line quirk and divergence, over any represented state -/

/-- Writing back the 16-bit value just read is the identity. -/
theorem st16_r16_self (m : Nat → Byte) (a : Nat) : st16 m a (r16 m a) = m := by
  funext x
  rcases eq_or_ne x a with rfl | hxa
  · show st16 m x (r16 m x) x = m x
    unfold st16
    rw [upd_other _ _ _ _ (by omega)]
    rw [upd_same]
    refine Fin.ext ?_
    simp only [byteOf_val, r16]
    have := (m x).isLt
    omega
  rcases eq_or_ne x (a + 1) with rfl | hxa1
  · show st16 m a (r16 m a) (a + 1) = m (a + 1)
    unfold st16
    rw [upd_same]
    refine Fin.ext ?_
    simp only [byteOf_val, r16]
    have h1 := (m a).isLt
    have h2 := (m (a + 1)).isLt
    rw [Nat.add_mul_div_left _ _ (by norm_num : (0 : Nat) < 256)]
    rw [Nat.div_eq_of_lt h1]
    omega
  · exact st16_frame m a _ x ⟨hxa, hxa1⟩

/-- Deleting the sole program line: returns true but leaves the state
bit-for-bit unchanged (PAGE is rewritten with its own value). -/
theorem delete_sole_run (f : Nat) (s : Mem) (Q : PNode)
    (hInv : Inv s [Q]) (hf : 1 ≤ f) :
    delete_program_line_f f Q.line s = .ok true s := by
  have hch := hInv.chain (by simp)
  have hpage : r16 s.mem HEADER_PAGE = Q.addr := chainSeg_start hch
  obtain ⟨_, hQrep, hrest⟩ := chainSeg_cons_inv hch
  have h0 : r16 s.mem Q.addr = 0 := chainSeg_nil_inv hrest
  unfold delete_program_line_f
  rw [run_bind_ok _ _ _ _ _ (read_int16_run HEADER_PAGE s (by decide))]
  beta_reduce
  have hwalk := delete_walk_found [] Q [] f s Q.line (r16 s.mem HEADER_PAGE) 0
    (by rw [hpage] at hch; simpa using hch)
    (by simp) rfl hInv.top_hi (by simpa using hf) (Or.inl rfl) (r16_lt _ _)
  rw [show segStart (([] : List PNode) ++ Q :: []) 0 = Q.addr from rfl] at hwalk
  rw [← hpage] at hwalk
  rw [hwalk]
  have hdw : delWrite s.mem (lastLink [] 0) (r16 s.mem HEADER_PAGE) Q =
      s.mem := by
    unfold delWrite
    rw [lastLink_nil]
    rw [if_pos rfl]
    rw [hpage, h0]
    rw [if_neg (by simp)]
    rw [← hpage]
    exact st16_r16_self s.mem HEADER_PAGE
  rw [hdw]

/-- The full-area early return of store_program_line (no walk, no
state change, for any program). -/
theorem store_full (f : Nat) (n : Nat) (toks : List Byte) (s : Mem)
    (hfull : PROGRAM_END < s.program_top + (4 + toks.length + 1))
    (hf : 1 ≤ f) :
    store_program_line_f f n toks s = .ok false s := by
  obtain _ | f' := f
  · simp at hf
  rw [store_f_succ]
  rw [run_bind_ok _ _ _ _ _ (run_get_top s)]
  beta_reduce
  rw [if_pos hfull]
  rfl

/-- Re-storing the line of a sole program node diverges for every fuel
bound, provided the program area is not full (the full check returns
first otherwise). -/
theorem store_sole_diverges (s : Mem) (Q : PNode) (toks : List Byte)
    (hInv : Inv s [Q])
    (hroom : s.program_top + (4 + toks.length + 1) ≤ PROGRAM_END) :
    ∀ f, store_program_line_f f Q.line toks s = .hang := by
  intro f
  induction f using Nat.strong_induction_on with
  | _ f ih =>
    have hch := hInv.chain (by simp)
    have hpage : r16 s.mem HEADER_PAGE = Q.addr := chainSeg_start hch
    obtain ⟨_, hQrep, hrest⟩ := chainSeg_cons_inv hch
    have hext := hQrep.ext
    have htop' : s.program_top ≤ 61439 := by
      have := hInv.top_hi
      simpa [PROGRAM_END] using this
    obtain _ | f' := f
    · rw [store_f_zero]; rfl
    rw [store_f_succ]
    rw [run_bind_ok _ _ _ _ _ (run_get_top s)]
    beta_reduce
    rw [if_neg (by omega)]
    rw [run_bind_ok _ _ _ _ _ (read_int16_run HEADER_PAGE s (by decide))]
    beta_reduce
    obtain _ | g := f'
    · rw [store_walk_zero]; rfl
    rw [hpage]
    rw [store_walk_succ]
    rw [run_bind_ok _ _ _ _ _ (run_get_top s)]
    beta_reduce
    rw [if_pos (show Q.addr < s.program_top by omega)]
    rw [run_bind_ok _ _ _ _ _ (read_int16_run (Q.addr + 2) s (by omega))]
    beta_reduce
    rw [hQrep.line_eq]
    rw [if_pos rfl]
    obtain _ | h := g
    · have hd : delete_program_line_f 0 Q.line s = .hang := by
        unfold delete_program_line_f
        rw [run_bind_ok _ _ _ _ _ (read_int16_run HEADER_PAGE s (by decide))]
        rfl
      rw [run_bind_hang _ _ _ hd]
    · rw [run_bind_ok _ _ _ _ _ (delete_sole_run (h + 1) s Q hInv (by omega))]
      exact ih (h + 1) (by omega)

/-!  ## Sequences of add_line / delete_line operations -/

/-- One user-level program-store operation. -/
inductive POp where
  | add (n : Nat) (code : List Char)
  | del (n : Nat)

def POp.lineNo : POp → Nat
  | .add n _ => n
  | .del n => n

def runOp : POp → M Mem Unit
  | .add n code => add_line n code
  | .del n => do
    let _ ← delete_line n
    M.pure ()

def runOps : List POp → M Mem Unit
  | [] => M.pure ()
  | op :: rest => do
    runOp op
    runOps rest

/-- A represented program is small: at most 11468 lines fit. -/
theorem inv_len_le (s : Mem) (nds : List PNode) (hInv : Inv s nds) :
    nds.length ≤ 11469 := by
  have h1 := hInv.count
  have h2 := hInv.top_hi
  simp only [PROGRAM_START, PROGRAM_END] at h1 h2
  omega

/-- delete_program_line always terminates on a represented program,
with the invariant preserved (the sole-line quirk keeps its node). -/
theorem delete_any_ok (f n : Nat) (s : Mem) (nds : List PNode)
    (hInv : Inv s nds) (hf : nds.length + 2 ≤ f) :
    ∃ b s' nds', delete_program_line_f f n s = .ok b s' ∧ Inv s' nds'
      ∧ s'.program_top = s.program_top := by
  by_cases hmem : ∃ x ∈ nds, x.line = n
  · obtain ⟨pre, Q, post, heq, hQ, hpre, hpost⟩ :=
      sorted_split_mem nds n hInv.sorted hmem
    subst heq
    by_cases hsole : pre = [] ∧ post = []
    · obtain ⟨rfl, rfl⟩ := hsole
      refine ⟨true, s, [Q], ?_, by simpa using hInv, rfl⟩
      rw [← hQ]
      exact delete_sole_run f s Q (by simpa using hInv) (by omega)
    · obtain ⟨s', hd, hinv', htop'⟩ := delete_run_found f n s pre post Q hInv
        (fun x hx => by have := hpre x hx; omega) hQ hsole
        (by simp at hf ⊢; omega)
      exact ⟨true, s', pre ++ post, hd, hinv', htop'⟩
  · push_neg at hmem
    exact ⟨false, s, nds, delete_run_notfound f n s nds hInv hmem hf, hInv, rfl⟩

/-- store_program_line on a represented program either hangs (only in
the sole-matching-line case with room available) or terminates with
the invariant preserved. -/
theorem store_any (f n : Nat) (toks : List Byte) (s : Mem) (nds : List PNode)
    (hInv : Inv s nds) (hn : n < 65536) (hf : 2 * nds.length + 6 ≤ f) :
    store_program_line_f f n toks s = .hang ∨
    ∃ b s' nds', store_program_line_f f n toks s = .ok b s' ∧ Inv s' nds' := by
  by_cases hsole : nds.map PNode.line = [n]
  · have hshape : ∃ Q : PNode, nds = [Q] ∧ Q.line = n := by
      cases nds with
      | nil => simp at hsole
      | cons Q rest =>
        cases rest with
        | nil => exact ⟨Q, rfl, by simpa using hsole⟩
        | cons y ys => simp at hsole
    obtain ⟨Q, rfl, hQline⟩ := hshape
    by_cases hfull : PROGRAM_END < s.program_top + (4 + toks.length + 1)
    · exact Or.inr ⟨false, s, [Q], store_full f n toks s hfull (by omega), hInv⟩
    · push_neg at hfull
      left
      rw [← hQline]
      exact store_sole_diverges s Q toks hInv hfull f
  · right
    have hsr := store_run f s nds n toks hInv hn hsole hf
    by_cases hfull : PROGRAM_END < s.program_top + (4 + toks.length + 1)
    · exact ⟨false, s, nds, hsr.1 hfull, hInv⟩
    · push_neg at hfull
      obtain ⟨s', hok, hinv', _⟩ := hsr.2 hfull
      exact ⟨true, s', _, hok, hinv'⟩

/-- add_line, when it returns, preserves the invariant. -/
theorem add_line_ok (n : Nat) (code : List Char) (s s' : Mem)
    (nds : List PNode) (hInv : Inv s nds) (hn : n < 65536)
    (hrun : add_line n code s = .ok () s') : ∃ nds', Inv s' nds' := by
  have hlen := inv_len_le s nds hInv
  unfold add_line at hrun
  by_cases hb : py_strip code ≠ []
  · rw [if_pos hb] at hrun
    cases htb : to_bytes (tokenize_line (strip_whitespace code)) with
    | none =>
      rw [htb] at hrun
      cases hrun
    | some tb =>
      rw [htb] at hrun
      replace hrun : (store_program_line n tb >>= fun _ => M.pure ()) s =
        Out.ok () s' := hrun
      rcases store_any FUEL n tb s nds hInv hn (by simp only [FUEL]; omega)
        with hhang | ⟨b, s₁, nds', hok, hinv'⟩
      · have hhang' : store_program_line n tb s = .hang := hhang
        rw [run_bind_hang _ _ _ hhang'] at hrun
        cases hrun
      · have hok' : store_program_line n tb s = .ok b s₁ := hok
        rw [run_bind_ok _ _ _ _ _ hok'] at hrun
        have heq : s₁ = s' := by
          have h2 : Out.ok () s₁ = Out.ok () s' := hrun
          cases h2
          rfl
        subst heq
        exact ⟨nds', hinv'⟩
  · rw [if_neg hb] at hrun
    obtain ⟨b, s₁, nds', hd, hinv', _⟩ := delete_any_ok FUEL n s nds hInv
      (by simp only [FUEL]; omega)
    have hd' : delete_program_line n s = .ok b s₁ := hd
    rw [run_bind_ok _ _ _ _ _ hd'] at hrun
    have heq : s₁ = s' := by
      have h2 : Out.ok () s₁ = Out.ok () s' := hrun
      cases h2
      rfl
    subst heq
    exact ⟨nds', hinv'⟩

/-- Any single operation, when it returns, preserves the invariant. -/
theorem runOp_ok (op : POp) (s s' : Mem) (nds : List PNode)
    (hInv : Inv s nds) (hn : op.lineNo < 65536)
    (hrun : runOp op s = .ok () s') : ∃ nds', Inv s' nds' := by
  cases op with
  | add n code => exact add_line_ok n code s s' nds hInv hn hrun
  | del n =>
    have hlen := inv_len_le s nds hInv
    obtain ⟨b, s₁, nds', hd, hinv', _⟩ := delete_any_ok FUEL n s nds hInv
      (by simp only [FUEL]; omega)
    replace hrun : (delete_line n >>= fun _ => M.pure ()) s = Out.ok () s' :=
      hrun
    have hd' : delete_line n s = .ok b s₁ := hd
    rw [run_bind_ok _ _ _ _ _ hd'] at hrun
    have heq : s₁ = s' := by
      have h2 : Out.ok () s₁ = Out.ok () s' := hrun
      cases h2
      rfl
    subst heq
    exact ⟨nds', hinv'⟩

/-- Any terminating operation sequence preserves the invariant. -/
theorem runOps_ok : ∀ (ops : List POp) (s s' : Mem) (nds : List PNode),
    Inv s nds → (∀ op ∈ ops, POp.lineNo op < 65536) →
    runOps ops s = .ok () s' → ∃ nds', Inv s' nds'
  | [], s, s', nds, hInv, _, hrun => by
    have h2 : Out.ok () s = Out.ok () s' := hrun
    cases h2
    exact ⟨nds, hInv⟩
  | op :: rest, s, s', nds, hInv, hwf, hrun => by
    replace hrun : (runOp op >>= fun _ => runOps rest) s = Out.ok () s' := hrun
    cases hstep : runOp op s with
    | ok v s₁ =>
      rw [run_bind_ok _ _ _ _ _ hstep] at hrun
      obtain ⟨nds₁, hinv₁⟩ := runOp_ok op s s₁ nds hInv (hwf op (by simp)) hstep
      exact runOps_ok rest s₁ s' nds₁ hinv₁ (fun o ho => hwf o (by simp [ho])) hrun
    | err e s₁ =>
      rw [run_bind_err _ _ _ _ _ hstep] at hrun
      cases hrun
    | hang =>
      rw [run_bind_hang _ _ _ hstep] at hrun
      cases hrun

/-- The fresh arena represents the empty program. -/
theorem inv_fresh : Inv freshMem [] :=
  ⟨fun _ => by decide, fun h => absurd rfl h, by simp, by simp, by simp,
    by decide, by decide, by decide⟩

/-- C7.  After every terminating sequence of add_line / delete_line
operations (16-bit line numbers) starting from a fresh arena, the
nodes reachable from PAGE via next pointers are strictly ascending by
line number: the listing walk, which follows next pointers and stops
at the first zero one, returns the lines in strictly increasing
order. -/
theorem C7_lines_ascending (ops : List POp) (s' : Mem)
    (hwf : ∀ op ∈ ops, POp.lineNo op < 65536)
    (hrun : runOps ops freshMem = .ok () s') :
    ∃ lines, get_all_lines s' = .ok lines s'
      ∧ List.Chain' (fun a b => a < b) (lines.map Prod.fst) := by
  obtain ⟨nds, hinv⟩ := runOps_ok ops freshMem s' [] inv_fresh hwf hrun
  have hlen := inv_len_le s' nds hinv
  refine ⟨nds.map (fun nd => (nd.line, detokenize_bytes nd.toks)), ?_, ?_⟩
  · exact get_all_lines_run s' nds hinv (by simp only [FUEL]; omega)
  · rw [List.map_map]
    rw [show (Prod.fst ∘ fun nd : PNode => (nd.line, detokenize_bytes nd.toks))
      = PNode.line from rfl]
    rw [List.chain'_map]
    exact hinv.sorted

/-- Tokenizing the one-character text "X" yields the single byte 0x58. -/
theorem tokX : to_bytes (tokenize_line (strip_whitespace ['X'])) =
    some [(88 : Byte)] := by
  have hsw : strip_whitespace ['X'] = ['X'] := by decide
  rw [hsw]
  have htok : tokenize_line ['X'] = [88] := by
    rw [tokenize_line, tokenize_aux]
    have hfk : find_kw ['X'] (min 8 ([('X' : Char)].length)) = none := by decide
    simp only [if_neg (show ¬ (false = true) by simp)]
    rw [if_neg (show ¬ ('X' = '"') by decide)]
    split
    · rename_i t len heq
      rw [hfk] at heq
      exact absurd heq (by simp)
    · rw [tokenize_aux]
      rfl
  rw [htok]
  decide

/-- add_line of the text "X" reduces to the store of token byte 0x58. -/
theorem add_lineX_run (n : Nat) (s s₁ : Mem)
    (hst : store_program_line n [(88 : Byte)] s = .ok true s₁) :
    add_line n ['X'] s = .ok () s₁ := by
  unfold add_line
  rw [if_pos (show py_strip ['X'] ≠ [] by decide)]
  rw [tokX]
  show (store_program_line n [(88 : Byte)] >>= fun _ => M.pure ()) s = _
  rw [run_bind_ok _ _ _ _ _ hst]
  rfl

/-- Adding lines 30, 10, 20 (text "X") to a fresh arena terminates and
lists them as 10, 20, 30. -/
theorem runC7 : ∃ s₃,
    runOps [POp.add 30 ['X'], POp.add 10 ['X'], POp.add 20 ['X']] freshMem =
      .ok () s₃
    ∧ get_all_lines s₃ = .ok [(10, ['X']), (20, ['X']), (30, ['X'])] s₃ := by
  obtain ⟨s₁, hok₁, hinv₁, htop₁⟩ := (store_run FUEL freshMem [] 30
    [(88 : Byte)] inv_fresh (by omega) (by simp) (by decide)).2
    (by decide)
  have e1 : insSpec (⟨freshMem.program_top, 30, effToks [(88 : Byte)]⟩ : PNode)
      (rmLine 30 []) = [⟨4096, 30, [(88 : Byte)]⟩] := by rfl
  rw [e1] at hinv₁
  have htop₁' : s₁.program_top = 4102 := by rw [htop₁]; rfl
  obtain ⟨s₂, hok₂, hinv₂, htop₂⟩ := (store_run FUEL s₁
    [⟨4096, 30, [(88 : Byte)]⟩] 10 [(88 : Byte)] hinv₁ (by omega) (by decide)
    (by decide)).2 (by rw [htop₁']; decide)
  have e2 : insSpec (⟨s₁.program_top, 10, effToks [(88 : Byte)]⟩ : PNode)
      (rmLine 10 [⟨4096, 30, [(88 : Byte)]⟩]) =
      [⟨s₁.program_top, 10, [(88 : Byte)]⟩, ⟨4096, 30, [(88 : Byte)]⟩] := by rfl
  rw [e2, htop₁'] at hinv₂
  have htop₂' : s₂.program_top = 4108 := by rw [htop₂, htop₁']; rfl
  obtain ⟨s₃, hok₃, hinv₃, htop₃⟩ := (store_run FUEL s₂
    [⟨4102, 10, [(88 : Byte)]⟩, ⟨4096, 30, [(88 : Byte)]⟩] 20 [(88 : Byte)]
    hinv₂ (by omega) (by decide) (by decide)).2
    (by rw [htop₂']; decide)
  have e3 : insSpec (⟨s₂.program_top, 20, effToks [(88 : Byte)]⟩ : PNode)
      (rmLine 20 [⟨4102, 10, [(88 : Byte)]⟩, ⟨4096, 30, [(88 : Byte)]⟩]) =
      [⟨4102, 10, [(88 : Byte)]⟩, ⟨s₂.program_top, 20, [(88 : Byte)]⟩,
        ⟨4096, 30, [(88 : Byte)]⟩] := by rfl
  rw [e3, htop₂'] at hinv₃
  refine ⟨s₃, ?_, ?_⟩
  · have hstep1 : runOp (POp.add 30 ['X']) freshMem = .ok () s₁ :=
      add_lineX_run 30 freshMem s₁ hok₁
    have hstep2 : runOp (POp.add 10 ['X']) s₁ = .ok () s₂ :=
      add_lineX_run 10 s₁ s₂ hok₂
    have hstep3 : runOp (POp.add 20 ['X']) s₂ = .ok () s₃ :=
      add_lineX_run 20 s₂ s₃ hok₃
    show (runOp (POp.add 30 ['X']) >>= fun _ =>
      runOps [POp.add 10 ['X'], POp.add 20 ['X']]) freshMem = _
    rw [run_bind_ok _ _ _ _ _ hstep1]
    show (runOp (POp.add 10 ['X']) >>= fun _ =>
      runOps [POp.add 20 ['X']]) s₁ = _
    rw [run_bind_ok _ _ _ _ _ hstep2]
    show (runOp (POp.add 20 ['X']) >>= fun _ => runOps []) s₂ = _
    rw [run_bind_ok _ _ _ _ _ hstep3]
    rfl
  · have hl := get_all_lines_run s₃
      [⟨4102, 10, [(88 : Byte)]⟩, ⟨4108, 20, [(88 : Byte)]⟩,
        ⟨4096, 30, [(88 : Byte)]⟩] hinv₃ (by decide)
    rw [hl]
    rfl

theorem C7_lines_ascending_witness :
    (∀ op ∈ ([POp.add 30 ['X'], POp.add 10 ['X'], POp.add 20 ['X']] :
      List POp), POp.lineNo op < 65536) ∧
    ∃ s₃, runOps [POp.add 30 ['X'], POp.add 10 ['X'], POp.add 20 ['X']]
        freshMem = .ok () s₃
      ∧ (∃ lines, get_all_lines s₃ = .ok lines s₃
          ∧ List.Chain' (fun a b => a < b) (lines.map Prod.fst))
      ∧ get_all_lines s₃ = .ok [(10, ['X']), (20, ['X']), (30, ['X'])] s₃ := by
  obtain ⟨s₃, hrun, hlist⟩ := runC7
  exact ⟨by decide, s₃, hrun,
    C7_lines_ascending [POp.add 30 ['X'], POp.add 10 ['X'], POp.add 20 ['X']]
      s₃ (by decide) hrun, hlist⟩

/-!  ## C2 amended: replacement terminates when the line is not sole -/

theorem rmLine_mem : ∀ (l : List PNode) (n : Nat) (x : PNode),
    x ∈ rmLine n l → x ∈ l
  | [], _, _, h => by simp [rmLine] at h
  | y :: rest, n, x, h => by
    unfold rmLine at h
    by_cases hy : y.line = n
    · rw [if_pos hy] at h
      exact List.mem_cons.mpr (Or.inr h)
    · rw [if_neg hy] at h
      rcases List.mem_cons.mp h with rfl | h'
      · simp
      · exact List.mem_cons.mpr (Or.inr (rmLine_mem rest n x h'))

/-- After removing the (unique, by sortedness) node with line n, no
node with line n remains. -/
theorem rmLine_no_n : ∀ (l : List PNode) (n : Nat),
    List.Chain' (fun a b => a.line < b.line) l →
    ∀ x ∈ rmLine n l, x.line ≠ n
  | [], _, _, x, hx => by simp [rmLine] at hx
  | y :: rest, n, hs, x, hx => by
    have hpw := sorted_pairwise (y :: rest) hs
    unfold rmLine at hx
    by_cases hy : y.line = n
    · rw [if_pos hy] at hx
      have := (List.pairwise_cons.mp hpw).1 x hx
      omega
    · rw [if_neg hy] at hx
      rcases List.mem_cons.mp hx with rfl | hx'
      · exact hy
      · exact rmLine_no_n rest n ((List.chain'_cons'.mp hs).2) x hx'

theorem insSpec_length : ∀ (l : List PNode) (nd : PNode),
    (insSpec nd l).length = l.length + 1
  | [], _ => rfl
  | x :: rest, nd => by
    unfold insSpec
    by_cases h : nd.line < x.line
    · rw [if_pos h]
      rfl
    · rw [if_neg h]
      simp [insSpec_length rest nd]

theorem rmLine_insSpec : ∀ (l : List PNode) (nd : PNode),
    (∀ x ∈ l, x.line ≠ nd.line) → rmLine nd.line (insSpec nd l) = l
  | [], nd, _ => by
    show rmLine nd.line [nd] = []
    unfold rmLine
    rw [if_pos rfl]
  | x :: rest, nd, h => by
    unfold insSpec
    by_cases hlt : nd.line < x.line
    · rw [if_pos hlt]
      show rmLine nd.line (nd :: x :: rest) = _
      unfold rmLine
      rw [if_pos rfl]
    · rw [if_neg hlt]
      show rmLine nd.line (x :: insSpec nd rest) = _
      unfold rmLine
      rw [if_neg (h x (by simp))]
      rw [rmLine_insSpec rest nd (fun y hy => h y (by simp [hy]))]

theorem filter_no_n : ∀ (l : List PNode) (n : Nat),
    (∀ x ∈ l, x.line ≠ n) → l.filter (fun x => x.line == n) = []
  | [], _, _ => rfl
  | y :: rest, n, h => by
    rw [List.filter_cons]
    rw [if_neg (by simpa using h y (by simp))]
    exact filter_no_n rest n (fun x hx => h x (by simp [hx]))

/-- The inserted node is the unique node with its line number in the
result of the insert. -/
theorem filter_insSpec : ∀ (l : List PNode) (nd : PNode) (n : Nat),
    (∀ x ∈ l, x.line ≠ n) → nd.line = n →
    (insSpec nd l).filter (fun x => x.line == n) = [nd]
  | [], nd, n, _, hnd => by
    show List.filter _ [nd] = _
    rw [List.filter_cons]
    rw [if_pos (by simpa using hnd)]
    rfl
  | x :: rest, nd, n, h, hnd => by
    unfold insSpec
    by_cases hlt : nd.line < x.line
    · rw [if_pos hlt]
      rw [List.filter_cons]
      rw [if_pos (by simpa using hnd)]
      rw [List.filter_cons]
      rw [if_neg (by simpa using h x (by simp))]
      rw [filter_no_n rest n (fun y hy => h y (by simp [hy]))]
    · rw [if_neg hlt]
      rw [List.filter_cons]
      rw [if_neg (by simpa using h x (by simp))]
      exact filter_insSpec rest nd n (fun y hy => h y (by simp [hy])) hnd

/-- Amended C2.  On a represented program that contains at least one
line other than n (so the n-node is never the sole reachable node),
storing line n twice terminates: both stores return true, and the
final program has exactly one node with line n, holding the second
token list.  (When n is the only line present, the second store
instead diverges: see the divergence analysis of the sole-line case.) -/
theorem C2_replace_terminates (s : Mem) (nds : List PNode) (n : Nat)
    (toks1 toks2 : List Byte) (hInv : Inv s nds) (hn : n < 65536)
    (hq : nds.map PNode.line ≠ [n]) (hother : rmLine n nds ≠ [])
    (hroom2 : s.program_top + (4 + toks1.length + 1) +
      (4 + toks2.length + 1) ≤ PROGRAM_END) :
    ∃ s₁ s₂, store_program_line n toks1 s = .ok true s₁
      ∧ store_program_line n toks2 s₁ = .ok true s₂
      ∧ Inv s₂ (insSpec ⟨s₁.program_top, n, effToks toks2⟩ (rmLine n nds))
      ∧ (insSpec ⟨s₁.program_top, n, effToks toks2⟩ (rmLine n nds)).filter
          (fun x => x.line == n) = [⟨s₁.program_top, n, effToks toks2⟩] := by
  have hlen := inv_len_le s nds hInv
  have hno_n : ∀ x ∈ rmLine n nds, x.line ≠ n := rmLine_no_n nds n hInv.sorted
  obtain ⟨s₁, hok₁, hinv₁, htop₁⟩ := (store_run FUEL s nds n toks1 hInv hn hq
    (by simp only [FUEL]; omega)).2 (by omega)
  have hlen₁ := inv_len_le s₁ _ hinv₁
  have hq₂ : (insSpec ⟨s.program_top, n, effToks toks1⟩
      (rmLine n nds)).map PNode.line ≠ [n] := by
    intro hcontra
    have hl := congrArg List.length hcontra
    rw [List.length_map, insSpec_length] at hl
    simp only [List.length_cons, List.length_nil] at hl
    have hpos := List.length_pos.mpr hother
    omega
  obtain ⟨s₂, hok₂, hinv₂, htop₂⟩ := (store_run FUEL s₁ _ n toks2 hinv₁ hn hq₂
    (by simp only [FUEL]; omega)).2 (by rw [htop₁]; omega)
  have hrm : rmLine n (insSpec ⟨s.program_top, n, effToks toks1⟩
      (rmLine n nds)) = rmLine n nds :=
    rmLine_insSpec (rmLine n nds) ⟨s.program_top, n, effToks toks1⟩ hno_n
  rw [hrm] at hinv₂
  exact ⟨s₁, s₂, hok₁, hok₂, hinv₂,
    filter_insSpec (rmLine n nds) _ n hno_n rfl⟩

/-- A fresh arena holding the single line 5 (token 0x58) as its sole
node. -/
def memC2 : Mem :=
  { mem := upd (upd (st16 freshMem.mem 4098 5) 4100 ⟨88, by decide⟩)
             4101 ⟨13, by decide⟩,
    program_top := 4102 }

/-- memC2 represents the one-line program [line 5]. -/
theorem invC2 : Inv memC2 [⟨4096, 5, [(88 : Byte)]⟩] := by
  refine ⟨by simp, ?_, by simp, by decide, by simp, by decide, by decide,
    by decide⟩
  intro _
  rw [show r16 memC2.mem HEADER_PAGE = 4096 by decide]
  refine ChainSeg.cons ⟨4096, 5, [(88 : Byte)]⟩ 0 [] ?_ ?_
  · exact ⟨by decide, by decide, by decide, by decide, by decide, by decide⟩
  · show ChainSeg _ _ (r16 memC2.mem 4096) 0 []
    rw [show r16 memC2.mem 4096 = 0 by decide]
    exact ChainSeg.nil 0

theorem C2_replace_terminates_witness :
    (List.map PNode.line [⟨4096, 5, [(88 : Byte)]⟩] ≠ [10]
      ∧ rmLine 10 [⟨4096, 5, [(88 : Byte)]⟩] ≠ []) ∧
    ∃ s₁ s₂, store_program_line 10 [(88 : Byte)] memC2 = .ok true s₁
      ∧ store_program_line 10 [(89 : Byte)] s₁ = .ok true s₂
      ∧ Inv s₂ (insSpec ⟨s₁.program_top, 10, effToks [(89 : Byte)]⟩
          (rmLine 10 [⟨4096, 5, [(88 : Byte)]⟩]))
      ∧ (insSpec ⟨s₁.program_top, 10, effToks [(89 : Byte)]⟩
          (rmLine 10 [⟨4096, 5, [(88 : Byte)]⟩])).filter
          (fun x => x.line == 10) =
          [⟨s₁.program_top, 10, effToks [(89 : Byte)]⟩] :=
  ⟨⟨by decide, by rw [show rmLine 10 [⟨4096, 5, [(88 : Byte)]⟩] =
      [⟨4096, 5, [(88 : Byte)]⟩] from rfl]; simp⟩,
    C2_replace_terminates memC2 [⟨4096, 5, [(88 : Byte)]⟩] 10
      [(88 : Byte)] [(89 : Byte)] invC2 (by decide) (by decide)
      (by rw [show rmLine 10 [⟨4096, 5, [(88 : Byte)]⟩] =
          [⟨4096, 5, [(88 : Byte)]⟩] from rfl]; simp)
      (by decide)⟩

/-!  ## C3: undocumented crash of allocate_variable for one-byte overflows -/

theorem set_byte_err (a v : Nat) (s : Mem) (ha : a < 65536) (hv : 256 ≤ v) :
    set_byte a v s = .err .byteRange s := by
  simp only [set_byte, MEM_SIZE]
  rw [if_pos ha, dif_neg (by omega)]

/-- The arena at the moment write_symbol_entry crashes on an oversized
size byte: the length byte, name bytes and both address bytes are
already written. -/
def wse_err_fn (m : Nat → Byte) (nb : List Nat) (nsa address : Nat) :
    Nat → Byte :=
  let m1 := upd m nsa (byteOf nb.length)
  let m2 := store_fn m1 (nsa + 1) nb
  let m3 := upd m2 (nsa + 1 + nb.length) (byteOf (address % 256))
  upd m3 (nsa + 1 + nb.length + 1) (byteOf (address / 256 % 256))

theorem write_symbol_entry_err (name : List Char) (address size : Nat)
    (nsa : Nat) (t : Mem)
    (hname : name.all (fun c => c.toNat < 128) = true)
    (hlen : name.length ≤ 255)
    (hsize : 256 ≤ size)
    (hnsa : r16 t.mem HEADER_NEXT_SYMBOL = nsa)
    (hroom : nsa + (4 + name.length) ≤ SYMBOL_TABLE_END) :
    write_symbol_entry name address size t =
      .err .byteRange
        { t with mem := wse_err_fn t.mem (name.map Char.toNat) nsa address } := by
  have hb : nsa + 4 + name.length ≤ 1023 := by
    simp [SYMBOL_TABLE_END] at hroom; omega
  unfold write_symbol_entry
  rw [run_bind_ok _ _ _ _ _ (encode_ascii_run _ _ hname)]
  beta_reduce
  simp only [List.length_map]
  rw [run_bind_ok _ _ _ _ _ (read_int16_run HEADER_NEXT_SYMBOL t (by decide))]
  beta_reduce
  simp only [hnsa]
  rw [if_neg (by simp [SYMBOL_TABLE_END]; omega)]
  rw [run_bind_ok _ _ _ _ _ (set_byte_run nsa name.length _
    (by omega) (by omega))]
  beta_reduce
  rw [run_bind_ok _ _ _ _ _ (write_bytes_run (name.map Char.toNat) (nsa + 1) _
    (name_bytes_lt name hname) (by simp only [List.length_map]; omega))]
  beta_reduce
  rw [run_bind_ok _ _ _ _ _ (set_byte_run (nsa + 1 + name.length)
    (address % 256) _ (by omega) (by omega))]
  beta_reduce
  rw [run_bind_ok _ _ _ _ _ (set_byte_run (nsa + 1 + name.length + 1)
    (address / 256 % 256) _ (by omega) (by omega))]
  beta_reduce
  rw [run_bind_err _ _ _ _ _ (set_byte_err (nsa + 1 + name.length + 2)
    size _ (by omega) hsize)]
  simp only [wse_err_fn, List.length_map]

/-- Amended C3 (allocate_variable part).  With the name fresh and both
the variable area and the symbol table having room, allocate_variable
with a size of 256 or more does not report a documented error: it
crashes with the undocumented bytearray range failure raised while
writing the one-byte size field of the symbol entry (after the
next-variable cursor has already been advanced); with a size below
256 it returns the documented address. -/
theorem C3_allocate_crash_boundary (s : Mem) (name : List Char) (size : Nat)
    (hname : name.all (fun c => c.toNat < 128) = true)
    (hlen : name.length ≤ 255)
    (hfind : find_symbol name s = .ok none s)
    (hroom : r16 s.mem HEADER_NEXT_SYMBOL + (4 + name.length) ≤ SYMBOL_TABLE_END)
    (hfit : r16 s.mem HEADER_NEXT_VAR + size ≤ VARS_END) :
    (256 ≤ size → ∃ s', allocate_variable name size s = .err .byteRange s')
    ∧ (size < 256 →
      ∃ s', allocate_variable name size s = .ok (r16 s.mem HEADER_NEXT_VAR) s') := by
  have hfit' : r16 s.mem HEADER_NEXT_VAR + size ≤ 4095 := by
    simpa [VARS_END] using hfit
  constructor
  · intro hsize
    refine ⟨{ s with mem := wse_err_fn (st16 s.mem HEADER_NEXT_VAR (r16 s.mem HEADER_NEXT_VAR + size)) (name.map Char.toNat) (r16 s.mem HEADER_NEXT_SYMBOL) (r16 s.mem HEADER_NEXT_VAR) }, ?_⟩
    rw [allocate_variable_miss name size s hfind]
    unfold allocate_variable_fresh
    rw [run_bind_ok _ _ _ _ _ (read_int16_run HEADER_NEXT_VAR s (by decide))]
    beta_reduce
    rw [if_neg (by simp only [VARS_END]; omega)]
    rw [run_bind_ok _ _ _ _ _ (store_int16_run HEADER_NEXT_VAR
      (r16 s.mem HEADER_NEXT_VAR + size) s (by decide) (by omega))]
    rw [run_bind_err _ _ _ _ _ (write_symbol_entry_err name
      (r16 s.mem HEADER_NEXT_VAR) size (r16 s.mem HEADER_NEXT_SYMBOL) _
      hname hlen hsize ?hn hroom)]
    case hn =>
      exact r16_frame s.mem
        (st16 s.mem HEADER_NEXT_VAR (r16 s.mem HEADER_NEXT_VAR + size))
        HEADER_NEXT_SYMBOL
        (st16_frame s.mem HEADER_NEXT_VAR _ HEADER_NEXT_SYMBOL (by decide))
        (st16_frame s.mem HEADER_NEXT_VAR _ (HEADER_NEXT_SYMBOL + 1) (by decide))
  · intro hsize
    exact ⟨_, by
      rw [allocate_variable_miss name size s hfind]
      exact allocate_variable_fresh_run name size s hname hlen hsize hroom hfit⟩

/-- The arena state at the moment allocate_variable ['A'] 256 crashes
on a fresh arena. -/
def memErrC3 : Mem :=
  match allocate_variable ['A'] 256 freshMem with
  | .ok _ s => s
  | .err _ s => s
  | .hang => freshMem

/-- C3 counterexample.  On a fresh arena, allocating variable "A" with
size 256 — which fits the variable area, whose cursor is at 0x0800 —
does not return a value and does not report one of the documented
MemoryError kinds: it crashes with the undocumented bytearray range
failure (Python ValueError) raised when the one-byte size field of the
symbol entry is assigned 256. -/
theorem C3_counterexample :
    allocate_variable ['A'] 256 freshMem = .err .byteRange memErrC3
    ∧ r16 freshMem.mem HEADER_NEXT_VAR + 256 ≤ VARS_END :=
  ⟨rfl, by decide⟩

theorem C3_allocate_crash_boundary_witness :
    (find_symbol ['A'] freshMem = .ok none freshMem
      ∧ r16 freshMem.mem HEADER_NEXT_VAR + 256 ≤ VARS_END) ∧
    ((256 ≤ 256 → ∃ s', allocate_variable ['A'] 256 freshMem =
        .err .byteRange s')
      ∧ (256 < 256 → ∃ s', allocate_variable ['A'] 256 freshMem =
        .ok (r16 freshMem.mem HEADER_NEXT_VAR) s')) :=
  ⟨⟨rfl, by decide⟩, C3_allocate_crash_boundary freshMem ['A'] 256 (by decide)
    (by decide) rfl (by decide) (by decide)⟩

/-!  ## Disk machinery: symbolic evaluation of sectors and the FAT -/

theorem byteOf_eq_of_lt (b : Nat) (hb : b < 256) : (⟨b, hb⟩ : Byte) = byteOf b := by
  apply Fin.ext
  simp [byteOf, Nat.mod_eq_of_lt hb]

theorem to_bytes_some : ∀ (l : List Nat), (∀ x ∈ l, x < 256) →
    to_bytes l = some (l.map byteOf)
  | [], _ => rfl
  | b :: rest, h => by
    have hb : b < 256 := h b (by simp)
    simp only [to_bytes, dif_pos hb,
      to_bytes_some rest (fun x hx => h x (by simp [hx])), Option.map_some',
      List.map_cons, byteOf_eq_of_lt b hb]

theorem map_val_map_byteOf (l : List Nat) (h : ∀ x ∈ l, x < 256) :
    (l.map byteOf).map Fin.val = l := by
  induction l with
  | nil => rfl
  | cons b rest ih =>
    simp only [List.map_cons, byteOf_val, List.cons.injEq]
    exact ⟨Nat.mod_eq_of_lt (h b (by simp)), ih (fun x hx => h x (by simp [hx]))⟩

theorem bytes_of_run (l : List Nat) (s : σ) (h : ∀ x ∈ l, x < 256) :
    bytes_of l s = .ok (l.map byteOf) s := by
  simp only [bytes_of, to_bytes_some l h]

/-- One sector write as a pure disk update. -/
def dupd (d : Disk) (n : Nat) (l : List Byte) : Disk :=
  ⟨fun i => if i = n then l.take 256 else d.sec i⟩

theorem write_sector_run (t s : Nat) (data : List Byte) (d : Disk) :
    write_sector t s data d = .ok () (dupd d (t * SECTORS_PER_TRACK + s) data) := rfl

theorem read_sector_run (t s : Nat) (d : Disk) :
    read_sector t s d = .ok (d.sec (t * SECTORS_PER_TRACK + s)) d := rfl

theorem dupd_sec_same (d : Disk) (n : Nat) (l : List Byte) :
    (dupd d n l).sec n = l.take 256 := by simp [dupd]

theorem dupd_sec_other (d : Disk) (n : Nat) (l : List Byte) (i : Nat) (h : i ≠ n) :
    (dupd d n l).sec i = d.sec i := by simp [dupd, h]

/-- The byte image of the j-th FAT sector. -/
def fatImage (fat : List Nat) (j : Nat) : List Byte :=
  ((fat.drop (j * 256)).take 256).map byteOf

theorem fatImage_take (fat : List Nat) (j : Nat) :
    (fatImage fat j).take 256 = fatImage fat j :=
  List.take_all_of_le (by simp [fatImage])

/-- The eight FAT sector writes of _write_fat as one disk update. -/
def dupdFat (d : Disk) (fat : List Nat) : Disk :=
  dupd (dupd (dupd (dupd (dupd (dupd (dupd (dupd d
    8 (fatImage fat 0)) 9 (fatImage fat 1)) 10 (fatImage fat 2))
    11 (fatImage fat 3)) 12 (fatImage fat 4)) 13 (fatImage fat 5))
    14 (fatImage fat 6)) 15 (fatImage fat 7)

theorem write_fat_loop_run (fat : List Nat) (h : ∀ x ∈ fat, x < 256) :
    ∀ (idxs : List Nat) (d : Disk),
    write_fat_loop fat idxs d =
      .ok () (idxs.foldl (fun d' i => dupd d' (FAT_SECTOR + i) (fatImage fat i)) d)
  | [], d => rfl
  | i :: rest, d => by
    show (do
      let chunk ← bytes_of ((fat.drop (i * 256)).take 256)
      write_sector 0 (FAT_SECTOR + i) chunk
      write_fat_loop fat rest) d = _
    rw [run_bind_ok _ _ _ _ _ (bytes_of_run _ _
      (fun x hx => h x (List.mem_of_mem_drop (List.mem_of_mem_take hx))))]
    beta_reduce
    rw [run_bind_ok _ _ _ _ _ (write_sector_run 0 (FAT_SECTOR + i) _ d)]
    rw [write_fat_loop_run fat h rest _,
      List.foldl_cons,
      show 0 * SECTORS_PER_TRACK + (FAT_SECTOR + i) = FAT_SECTOR + i by simp]
    rfl

theorem write_fat_run (fat : List Nat) (d : Disk) (h : ∀ x ∈ fat, x < 256) :
    write_fat fat d = .ok () (dupdFat d fat) := by
  show write_fat_loop fat (List.range 8) d = _
  rw [write_fat_loop_run fat h (List.range 8) d]
  rfl

theorem drop_assemble (l : List α) (k k' : Nat) (h : k' = k + 256) :
    (l.drop k).take 256 ++ l.drop k' = l.drop k := by
  have h2 : l.drop k' = (l.drop k).drop 256 := by
    subst h
    simp [List.drop_drop, Nat.add_comm]
  rw [h2]
  exact List.take_append_drop 256 (l.drop k)

theorem chunks_assemble (fat : List Nat) (hlen : fat.length = 2048) :
    fat.take 256 ++ ((fat.drop 256).take 256 ++ ((fat.drop 512).take 256 ++
    ((fat.drop 768).take 256 ++ ((fat.drop 1024).take 256 ++ ((fat.drop 1280).take 256 ++
    ((fat.drop 1536).take 256 ++ ((fat.drop 1792).take 256 ++ []))))))) = fat := by
  rw [show ([] : List Nat) = fat.drop 2048 from
    (List.drop_eq_nil_of_le (by omega)).symm]
  rw [drop_assemble fat 1792 2048 rfl, drop_assemble fat 1536 1792 rfl,
    drop_assemble fat 1280 1536 rfl, drop_assemble fat 1024 1280 rfl,
    drop_assemble fat 768 1024 rfl, drop_assemble fat 512 768 rfl,
    drop_assemble fat 256 512 rfl]
  exact List.take_append_drop 256 fat

theorem read_fat_run (d : Disk) (fat : List Nat)
    (hlen : fat.length = 2048) (hlt : ∀ x ∈ fat, x < 256)
    (hsec : ∀ j, j < 8 → d.sec (8 + j) = fatImage fat j) :
    read_fat d = .ok fat d := by
  have e : read_fat d = .ok ((d.sec 8).map Fin.val ++ ((d.sec 9).map Fin.val ++
    ((d.sec 10).map Fin.val ++ ((d.sec 11).map Fin.val ++ ((d.sec 12).map Fin.val ++
    ((d.sec 13).map Fin.val ++ ((d.sec 14).map Fin.val ++
    ((d.sec 15).map Fin.val ++ [])))))))) d := rfl
  rw [e,
    show d.sec 8 = fatImage fat 0 from hsec 0 (by omega),
    show d.sec 9 = fatImage fat 1 from hsec 1 (by omega),
    show d.sec 10 = fatImage fat 2 from hsec 2 (by omega),
    show d.sec 11 = fatImage fat 3 from hsec 3 (by omega),
    show d.sec 12 = fatImage fat 4 from hsec 4 (by omega),
    show d.sec 13 = fatImage fat 5 from hsec 5 (by omega),
    show d.sec 14 = fatImage fat 6 from hsec 6 (by omega),
    show d.sec 15 = fatImage fat 7 from hsec 7 (by omega)]
  simp only [fatImage]
  have hc : ∀ (k : Nat), ∀ x ∈ (fat.drop k).take 256, x < 256 :=
    fun k x hx => hlt x (List.mem_of_mem_drop (List.mem_of_mem_take hx))
  rw [map_val_map_byteOf _ (hc (0 * 256)), map_val_map_byteOf _ (hc (1 * 256)),
    map_val_map_byteOf _ (hc (2 * 256)), map_val_map_byteOf _ (hc (3 * 256)),
    map_val_map_byteOf _ (hc (4 * 256)), map_val_map_byteOf _ (hc (5 * 256)),
    map_val_map_byteOf _ (hc (6 * 256)), map_val_map_byteOf _ (hc (7 * 256))]
  rw [show (0 : Nat) * 256 = 0 from rfl, show (1 : Nat) * 256 = 256 from rfl,
    show (2 : Nat) * 256 = 512 from rfl, show (3 : Nat) * 256 = 768 from rfl,
    show (4 : Nat) * 256 = 1024 from rfl, show (5 : Nat) * 256 = 1280 from rfl,
    show (6 : Nat) * 256 = 1536 from rfl, show (7 : Nat) * 256 = 1792 from rfl,
    List.drop_zero]
  rw [chunks_assemble fat hlen]

theorem fat_get_run (fat : List Nat) (i : Nat) (s : σ) (h : i < fat.length) :
    fat_get fat i s = .ok (fat.getD i 0) s := by
  simp only [fat_get, dif_pos h]
  rw [List.getD_eq_getElem fat 0 h]
  rfl

theorem fat_set_run (fat : List Nat) (i v : Nat) (s : σ)
    (hi : i < fat.length) (hv : v < 256) :
    fat_set fat i v s = .ok (fat.set i v) s := by
  simp [fat_set, hi, hv]

theorem fat_init_eq : fat_init =
    ((((((((((((((((List.replicate 2048 255).set 0 0).set 1 0).set 2 0).set 3 0).set 4 0).set 5 0).set 6 0).set 7 0).set 8 0).set 9 0).set 10 0).set 11 0).set 12 0).set 13 0).set 14 0).set 15 0 := rfl

theorem fat_init_length : fat_init.length = 2048 := by
  rw [fat_init_eq]; simp

theorem fat_init_getD (i : Nat) :
    fat_init.getD i 0 = if i < 16 then 0 else if i < 2048 then 255 else 0 := by
  rw [fat_init_eq]
  rcases Nat.lt_or_ge i 2048 with h | h
  · rw [List.getD_eq_getElem _ 0 (by simp; omega)]
    simp only [List.getElem_set, List.getElem_replicate]
    by_cases h16 : i < 16
    · interval_cases i <;> simp
    · rw [if_neg (by omega : ¬(15 = i)), if_neg (by omega : ¬(14 = i)),
        if_neg (by omega : ¬(13 = i)), if_neg (by omega : ¬(12 = i)),
        if_neg (by omega : ¬(11 = i)), if_neg (by omega : ¬(10 = i)),
        if_neg (by omega : ¬(9 = i)), if_neg (by omega : ¬(8 = i)),
        if_neg (by omega : ¬(7 = i)), if_neg (by omega : ¬(6 = i)),
        if_neg (by omega : ¬(5 = i)), if_neg (by omega : ¬(4 = i)),
        if_neg (by omega : ¬(3 = i)), if_neg (by omega : ¬(2 = i)),
        if_neg (by omega : ¬(1 = i)), if_neg (by omega : ¬(0 = i)),
        if_neg h16, if_pos h]
  · rw [List.getD_eq_default _ _ (by simp; omega)]
    rw [if_neg (by omega), if_neg (by omega)]

theorem fat_init_lt : ∀ x ∈ fat_init, x < 256 := by
  intro x hx
  obtain ⟨i, hi, hig⟩ := List.mem_iff_getElem.mp hx
  have h := fat_init_getD i
  rw [List.getD_eq_getElem fat_init 0 hi, hig] at h
  rw [← hig, hig, h]
  split_ifs <;> omega

/-!  ## FAT chain mutation, allocation scan, directory scans -/

/-- The FAT image after _update_fat_chain's mutation loop. -/
def chainWrite : List (Nat × Nat) → List Nat → List Nat
  | [], fat => fat
  | [(t, u)], fat => fat.set (t * SECTORS_PER_TRACK + u) 254
  | (t, u) :: (nt, nu) :: rest, fat =>
    chainWrite ((nt, nu) :: rest)
      (fat.set (t * SECTORS_PER_TRACK + u) (nt * SECTORS_PER_TRACK + nu))

theorem update_chain_loop_run : ∀ (ps : List (Nat × Nat)) (fat : List Nat) (s : Disk),
    (∀ p ∈ ps, p.1 * SECTORS_PER_TRACK + p.2 < fat.length) →
    (∀ p ∈ ps, p.1 * SECTORS_PER_TRACK + p.2 < 256) →
    update_chain_loop ps fat s = .ok (chainWrite ps fat) s
  | [], fat, s, _, _ => rfl
  | [(t, u)], fat, s, hidx, _ => by
    show fat_set fat (t * SECTORS_PER_TRACK + u) 254 s = _
    rw [fat_set_run _ _ _ _ (hidx (t, u) (by simp)) (by omega)]
    rfl
  | (t, u) :: (nt, nu) :: rest, fat, s, hidx, hlt => by
    show (do
      let fat' ← fat_set fat (t * SECTORS_PER_TRACK + u)
        (nt * SECTORS_PER_TRACK + nu)
      update_chain_loop ((nt, nu) :: rest) fat') s = _
    rw [run_bind_ok _ _ _ _ _ (fat_set_run _ _ _ _ (hidx (t, u) (by simp))
      (hlt (nt, nu) (by simp)))]
    beta_reduce
    rw [update_chain_loop_run ((nt, nu) :: rest) _ s
      (fun p hp => by rw [List.length_set]; exact hidx p (List.mem_cons_of_mem _ hp))
      (fun p hp => hlt p (List.mem_cons_of_mem _ hp))]
    rfl

theorem chainWrite_length : ∀ (ps : List (Nat × Nat)) (fat : List Nat),
    (chainWrite ps fat).length = fat.length
  | [], fat => rfl
  | [(t, u)], fat => by
    show (fat.set (t * SECTORS_PER_TRACK + u) 254).length = _
    rw [List.length_set]
  | (t, u) :: (nt, nu) :: rest, fat => by
    show (chainWrite ((nt, nu) :: rest) _).length = _
    rw [chainWrite_length ((nt, nu) :: rest) _, List.length_set]

theorem chainWrite_lt : ∀ (ps : List (Nat × Nat)) (fat : List Nat),
    (∀ x ∈ fat, x < 256) →
    (∀ p ∈ ps, p.1 * SECTORS_PER_TRACK + p.2 < 256) →
    ∀ x ∈ chainWrite ps fat, x < 256
  | [], fat, hf, _ => hf
  | [(t, u)], fat, hf, _ => by
    show ∀ x ∈ fat.set (t * SECTORS_PER_TRACK + u) 254, x < 256
    intro x hx
    rcases List.mem_or_eq_of_mem_set hx with h | h
    · exact hf x h
    · omega
  | (t, u) :: (nt, nu) :: rest, fat, hf, hlt => by
    show ∀ x ∈ chainWrite ((nt, nu) :: rest) _, x < 256
    refine chainWrite_lt ((nt, nu) :: rest) _ ?_
      (fun p hp => hlt p (List.mem_cons_of_mem _ hp))
    intro x hx
    rcases List.mem_or_eq_of_mem_set hx with h | h
    · exact hf x h
    · rw [h]; exact hlt (nt, nu) (by simp)

theorem update_fat_chain_run (ps : List (Nat × Nat)) (d : Disk) (fat : List Nat)
    (hlen : fat.length = 2048) (hlt : ∀ x ∈ fat, x < 256)
    (hsec : ∀ j, j < 8 → d.sec (8 + j) = fatImage fat j)
    (hidx : ∀ p ∈ ps, p.1 * SECTORS_PER_TRACK + p.2 < 2048)
    (hplt : ∀ p ∈ ps, p.1 * SECTORS_PER_TRACK + p.2 < 256) :
    update_fat_chain ps d = .ok () (dupdFat d (chainWrite ps fat)) := by
  unfold update_fat_chain
  rw [run_bind_ok _ _ _ _ _ (read_fat_run d fat hlen hlt hsec)]
  beta_reduce
  rw [run_bind_ok _ _ _ _ _ (update_chain_loop_run ps fat d
    (fun p hp => by rw [hlen]; exact hidx p hp) hplt)]
  beta_reduce
  exact write_fat_run _ d (chainWrite_lt ps fat hlt hplt)

/-- One step of _free_fat_chain hitting an end-of-file entry. -/
theorem free_chain_eof (f t u : Nat) (fat : List Nat) (s : Disk)
    (hne : t ≠ 0 ∨ u ≠ 0) (hidx : t * SECTORS_PER_TRACK + u < fat.length)
    (hval : fat.getD (t * SECTORS_PER_TRACK + u) 0 = 254) :
    free_chain_loop (f + 1) t u fat s =
      .ok (fat.set (t * SECTORS_PER_TRACK + u) 255) s := by
  show (if t ≠ 0 ∨ u ≠ 0 then (do
    let next_val ← fat_get fat (t * SECTORS_PER_TRACK + u)
    let fat' ← fat_set fat (t * SECTORS_PER_TRACK + u) 255
    if next_val = 254 then M.pure fat'
    else if next_val = 255 then M.pure fat'
    else free_chain_loop f (next_val / SECTORS_PER_TRACK) (next_val % SECTORS_PER_TRACK) fat') else M.pure fat) s = _
  rw [if_pos hne]
  rw [run_bind_ok _ _ _ _ _ (fat_get_run fat _ s hidx)]
  beta_reduce
  rw [run_bind_ok _ _ _ _ _ (fat_set_run fat _ 255 s hidx (by omega))]
  beta_reduce
  rw [hval]
  simp

theorem free_fat_chain_run (t u : Nat) (d : Disk) (fat : List Nat)
    (hlen : fat.length = 2048) (hlt : ∀ x ∈ fat, x < 256)
    (hsec : ∀ j, j < 8 → d.sec (8 + j) = fatImage fat j)
    (hne : t ≠ 0 ∨ u ≠ 0) (hidx : t * SECTORS_PER_TRACK + u < 2048)
    (hval : fat.getD (t * SECTORS_PER_TRACK + u) 0 = 254) :
    free_fat_chain t u d =
      .ok () (dupdFat d (fat.set (t * SECTORS_PER_TRACK + u) 255)) := by
  unfold free_fat_chain
  rw [run_bind_ok _ _ _ _ _ (read_fat_run d fat hlen hlt hsec)]
  beta_reduce
  show (do
    let fat' ← free_chain_loop FUEL t u fat
    write_fat fat') d = _
  rw [show (FUEL : Nat) = 65535 + 1 from rfl]
  rw [run_bind_ok _ _ _ _ _ (free_chain_eof 65535 t u fat d hne
    (by rw [hlen]; exact hidx) hval)]
  beta_reduce
  refine write_fat_run _ d ?_
  intro x hx
  rcases List.mem_or_eq_of_mem_set hx with h | h
  · exact hlt x h
  · omega

theorem get_fat_entry_run (d : Disk) (fat : List Nat) (t u : Nat)
    (hlen : fat.length = 2048) (hlt : ∀ x ∈ fat, x < 256)
    (hsec : ∀ j, j < 8 → d.sec (8 + j) = fatImage fat j)
    (hidx : t * SECTORS_PER_TRACK + u < 2048) :
    get_fat_entry t u d = .ok (fat.getD (t * SECTORS_PER_TRACK + u) 0) d := by
  unfold get_fat_entry
  rw [run_bind_ok _ _ _ _ _ (read_fat_run d fat hlen hlt hsec)]
  beta_reduce
  exact fat_get_run fat _ d (by rw [hlen]; exact hidx)

theorem allocate_scan_insufficient (count : Nat) (fat : List Nat) (s : Disk) :
    ∀ (ps acc : List (Nat × Nat)),
    (∀ p ∈ ps, p.1 * SECTORS_PER_TRACK + p.2 < fat.length) →
    acc.length + ps.length < count →
    allocate_scan count fat acc ps s = .ok [] s
  | [], acc, _, _ => rfl
  | (t, u) :: rest, acc, hidx, hcnt => by
    simp only [allocate_scan]
    rw [run_bind_ok _ _ _ _ _ (fat_get_run fat _ s (hidx (t, u) (by simp)))]
    beta_reduce
    by_cases hv : fat.getD (t * SECTORS_PER_TRACK + u) 0 = 255
    · rw [if_pos hv]
      rw [if_neg (by
        simp only [List.length_append, List.length_cons, List.length_nil,
          List.length_cons] at hcnt ⊢
        omega)]
      exact allocate_scan_insufficient count fat s rest (acc ++ [(t, u)])
        (fun p hp => hidx p (List.mem_cons_of_mem _ hp))
        (by simp only [List.length_append, List.length_cons,
              List.length_nil] at hcnt ⊢; omega)
    · rw [if_neg hv]
      exact allocate_scan_insufficient count fat s rest acc
        (fun p hp => hidx p (List.mem_cons_of_mem _ hp))
        (by simp only [List.length_cons] at hcnt; omega)

theorem allocate_scan_takes (count : Nat) (fat : List Nat) (s : Disk) :
    ∀ (ps acc : List (Nat × Nat)),
    acc.length < count →
    (∀ p ∈ ps.take (count - acc.length), p.1 * SECTORS_PER_TRACK + p.2 < fat.length ∧
      fat.getD (p.1 * SECTORS_PER_TRACK + p.2) 0 = 255) →
    count - acc.length ≤ ps.length →
    allocate_scan count fat acc ps s = .ok (acc ++ ps.take (count - acc.length)) s
  | [], acc, hlt, _, hle => by
    exfalso
    simp only [List.length_nil] at hle
    omega
  | (t, u) :: rest, acc, hlt, hfree, hle => by
    obtain ⟨k, hk⟩ : ∃ k, count - acc.length = k + 1 :=
      ⟨count - acc.length - 1, by omega⟩
    rw [hk] at hfree hle ⊢
    rw [List.take_succ_cons] at hfree ⊢
    simp only [allocate_scan]
    rw [run_bind_ok _ _ _ _ _ (fat_get_run fat _ s
      (hfree (t, u) (by simp)).1)]
    beta_reduce
    rw [if_pos (hfree (t, u) (by simp)).2]
    by_cases hfull : (acc ++ [(t, u)]).length ≥ count
    · rw [if_pos hfull]
      have : k = 0 := by
        simp only [List.length_append, List.length_cons, List.length_nil] at hfull
        omega
      rw [this, List.take_zero]
      rfl
    · rw [if_neg hfull]
      rw [allocate_scan_takes count fat s rest (acc ++ [(t, u)])
        (by simp only [List.length_append, List.length_cons, List.length_nil] at hfull ⊢; omega)
        (by
          intro p hp
          refine hfree p ?_
          have hk2 : count - (acc ++ [(t, u)]).length = k := by
            simp only [List.length_append, List.length_cons, List.length_nil]
            omega
          rw [hk2] at hp
          exact List.mem_cons_of_mem _ hp)
        (by
          have hk2 : count - (acc ++ [(t, u)]).length = k := by
            simp only [List.length_append, List.length_cons, List.length_nil]
            omega
          rw [hk2]
          simp only [List.length_cons] at hle
          omega)]
      have hk2 : count - (acc ++ [(t, u)]).length = k := by
        simp only [List.length_append, List.length_cons, List.length_nil]
        omega
      rw [hk2, List.append_assoc]
      rfl

theorem allocate_scan_zero (fat : List Nat) (s : Disk) (t u : Nat)
    (rest : List (Nat × Nat))
    (hidx : t * SECTORS_PER_TRACK + u < fat.length)
    (hfree : fat.getD (t * SECTORS_PER_TRACK + u) 0 = 255) :
    allocate_scan 0 fat [] ((t, u) :: rest) s = .ok [(t, u)] s := by
  simp only [allocate_scan]
  rw [run_bind_ok _ _ _ _ _ (fat_get_run fat _ s hidx)]
  beta_reduce
  rw [if_pos hfree, if_pos (by simp)]
  rfl

theorem allocate_sectors_run (d : Disk) (fat : List Nat) (count : Nat)
    (res : List (Nat × Nat))
    (hlen : fat.length = 2048) (hlt : ∀ x ∈ fat, x < 256)
    (hsec : ∀ j, j < 8 → d.sec (8 + j) = fatImage fat j)
    (h : allocate_scan count fat [] track_sector_pairs d = .ok res d) :
    allocate_sectors count d = .ok res d := by
  unfold allocate_sectors
  rw [run_bind_ok _ _ _ _ _ (read_fat_run d fat hlen hlt hsec)]
  beta_reduce
  exact h

/-!  ## Directory entry reads and the three scans -/

def entryBytes (d : Disk) (i : Nat) : List Byte :=
  ((d.sec (1 + (i * 32) / 256)).drop ((i * 32) % 256)).take 32

theorem read_dir_entry_run (i : Nat) (d : Disk) :
    read_dir_entry i d = .ok (entryBytes d i) d := by
  unfold read_dir_entry
  rw [run_bind_ok _ _ _ _ _ (read_sector_run 0 (1 + (i * 32) / 256) d)]
  beta_reduce
  rw [show (0 * SECTORS_PER_TRACK + (1 + (i * 32) / 256)) = 1 + (i * 32) / 256 by simp]
  rfl

theorem decode_ascii_ok (l : List Byte) (s : σ)
    (h : l.all (fun b => b.val < 128) = true) :
    decode_ascii l s = .ok (l.map (fun b => Char.ofNat b.val)) s := by
  simp [decode_ascii, h]

/-- An entry that keeps the free-slot scan going. -/
def FreeUsed (e : List Byte) : Prop :=
  bget e 0 ≠ 255 ∧ bget e 0 ≠ 0 ∧ bget e 11 < 128

theorem find_free_dir_scan_cons_used (d : Disk) (i : Nat) (rest : List Nat)
    (h : FreeUsed (entryBytes d i)) :
    find_free_dir_scan (i :: rest) d = find_free_dir_scan rest d := by
  simp only [find_free_dir_scan]
  rw [run_bind_ok _ _ _ _ _ (read_dir_entry_run i d)]
  beta_reduce
  rw [if_neg (by push_neg; exact ⟨h.1, h.2.1, h.2.2⟩)]

theorem find_free_dir_scan_cons_free (d : Disk) (i : Nat) (rest : List Nat)
    (h : bget (entryBytes d i) 0 = 255 ∨ bget (entryBytes d i) 0 = 0 ∨
         bget (entryBytes d i) 11 ≥ 128) :
    find_free_dir_scan (i :: rest) d =
      .ok (some (0, 1 + (i * 32) / 256, (i * 32) % 256)) d := by
  simp only [find_free_dir_scan]
  rw [run_bind_ok _ _ _ _ _ (read_dir_entry_run i d)]
  beta_reduce
  rw [if_pos h]
  rfl

/-- An entry that is passed over by the filename scan. -/
def FSkip (e : List Byte) (name ext : List Char) : Prop :=
  (bget e 0 = 255 ∨ bget e 0 = 0) ∨
  ((e.take 8).all (fun b => b.val < 128) = true ∧
   ((e.drop 8).take 3).all (fun b => b.val < 128) = true ∧
   (¬(py_strip ((e.take 8).map (fun b => Char.ofNat b.val)) = name ∧
      py_strip (((e.drop 8).take 3).map (fun b => Char.ofNat b.val)) = ext) ∨
    128 ≤ bget e 11))

theorem find_file_scan_cons_skip (d : Disk) (name ext : List Char) (i : Nat)
    (rest : List Nat) (h : FSkip (entryBytes d i) name ext) :
    find_file_scan name ext (i :: rest) d = find_file_scan name ext rest d := by
  simp only [find_file_scan]
  rw [run_bind_ok _ _ _ _ _ (read_dir_entry_run i d)]
  beta_reduce
  rcases h with h0 | ⟨hn, he, hrest⟩
  · rw [if_neg (by tauto)]
  · by_cases hcase : bget (entryBytes d i) 0 ≠ 255 ∧ bget (entryBytes d i) 0 ≠ 0
    · rw [if_pos hcase]
      rw [run_bind_ok _ _ _ _ _ (decode_ascii_ok _ _ hn)]
      beta_reduce
      rw [run_bind_ok _ _ _ _ _ (decode_ascii_ok _ _ he)]
      beta_reduce
      rcases hrest with hmis | hattr
      · rw [if_neg hmis]
      · by_cases hm : py_strip (((entryBytes d i).take 8).map
            (fun b => Char.ofNat b.val)) = name ∧
            py_strip ((((entryBytes d i).drop 8).take 3).map
              (fun b => Char.ofNat b.val)) = ext
        · rw [if_pos hm, if_neg (by omega)]
        · rw [if_neg hm]
    · rw [if_neg hcase]

theorem find_file_scan_skip (d : Disk) (name ext : List Char) :
    ∀ (idxs : List Nat), (∀ i ∈ idxs, FSkip (entryBytes d i) name ext) →
    find_file_scan name ext idxs d = .ok none d
  | [], _ => rfl
  | i :: rest, h => by
    rw [find_file_scan_cons_skip d name ext i rest (h i (by simp))]
    exact find_file_scan_skip d name ext rest
      (fun j hj => h j (List.mem_cons_of_mem _ hj))

theorem find_file_scan_prefix (d : Disk) (name ext : List Char) :
    ∀ (pre idxs : List Nat), (∀ i ∈ pre, FSkip (entryBytes d i) name ext) →
    find_file_scan name ext (pre ++ idxs) d = find_file_scan name ext idxs d
  | [], idxs, _ => rfl
  | i :: rest, idxs, h => by
    rw [List.cons_append]
    rw [find_file_scan_cons_skip d name ext i _ (h i (by simp))]
    exact find_file_scan_prefix d name ext rest idxs
      (fun j hj => h j (List.mem_cons_of_mem _ hj))

theorem find_file_scan_hit (d : Disk) (name ext : List Char) (i : Nat)
    (rest : List Nat)
    (hne : bget (entryBytes d i) 0 ≠ 255 ∧ bget (entryBytes d i) 0 ≠ 0)
    (hn : ((entryBytes d i).take 8).all (fun b => b.val < 128) = true)
    (he : (((entryBytes d i).drop 8).take 3).all (fun b => b.val < 128) = true)
    (hm : py_strip (((entryBytes d i).take 8).map (fun b => Char.ofNat b.val)) = name ∧
          py_strip ((((entryBytes d i).drop 8).take 3).map
            (fun b => Char.ofNat b.val)) = ext)
    (hattr : bget (entryBytes d i) 11 < 128) :
    find_file_scan name ext (i :: rest) d = .ok (some i) d := by
  simp only [find_file_scan]
  rw [run_bind_ok _ _ _ _ _ (read_dir_entry_run i d)]
  beta_reduce
  rw [if_pos hne]
  rw [run_bind_ok _ _ _ _ _ (decode_ascii_ok _ _ hn)]
  beta_reduce
  rw [run_bind_ok _ _ _ _ _ (decode_ascii_ok _ _ he)]
  beta_reduce
  rw [if_pos hm, if_pos hattr]
  rfl

/-!  ## Data sector writes and the load chain -/

/-- The disk after save_file's data-writing loop. -/
def wdisk (data : List Byte) : Nat → List (Nat × Nat) → Disk → Disk
  | _, [], d => d
  | i, (t, u) :: rest, d =>
    wdisk data (i + 1) rest
      (dupd d (t * SECTORS_PER_TRACK + u)
        ((data.drop (i * 256)).take 256 ++
         List.replicate (256 - ((data.drop (i * 256)).take 256).length) (0 : Byte)))

theorem write_data_loop_run (data : List Byte) :
    ∀ (i : Nat) (ps : List (Nat × Nat)) (d : Disk),
    write_data_loop data i ps d = .ok () (wdisk data i ps d)
  | _, [], _ => rfl
  | i, (t, u) :: rest, d => by
    show (do
      write_sector t u ((data.drop (i * 256)).take 256 ++
        List.replicate (256 - ((data.drop (i * 256)).take 256).length) (0 : Byte))
      write_data_loop data (i + 1) rest) d = _
    rw [run_bind_ok _ _ _ _ _ (write_sector_run t u _ d)]
    rw [write_data_loop_run data (i + 1) rest _]
    rfl

theorem wdisk_cons (data : List Byte) (i t u : Nat) (rest : List (Nat × Nat))
    (d : Disk) :
    wdisk data i ((t, u) :: rest) d =
      wdisk data (i + 1) rest
        (dupd d (t * SECTORS_PER_TRACK + u)
          ((data.drop (i * 256)).take 256 ++
           List.replicate (256 - ((data.drop (i * 256)).take 256).length) (0 : Byte))) := rfl

theorem wdisk_sec_other (data : List Byte) :
    ∀ (i : Nat) (ps : List (Nat × Nat)) (d : Disk) (n : Nat),
    (∀ p ∈ ps, p.1 * SECTORS_PER_TRACK + p.2 ≠ n) →
    (wdisk data i ps d).sec n = d.sec n
  | _, [], _, _, _ => rfl
  | i, (t, u) :: rest, d, n, h => by
    rw [wdisk_cons]
    rw [wdisk_sec_other data (i + 1) rest _ n
      (fun p hp => h p (List.mem_cons_of_mem _ hp))]
    exact dupd_sec_other _ _ _ _ (Ne.symm (h (t, u) (by simp)))

/-- Concatenated contents of the chain's sectors. -/
def secCat (d : Disk) : List (Nat × Nat) → List Byte
  | [] => []
  | p :: rest => d.sec (p.1 * SECTORS_PER_TRACK + p.2) ++ secCat d rest

/-- A well-formed FAT chain: consecutive entries point at each other,
the last is end-of-file. -/
def FatChain (fat : List Nat) : List (Nat × Nat) → Prop
  | [] => True
  | [(t, u)] => (t ≠ 0 ∨ u ≠ 0) ∧ t * SECTORS_PER_TRACK + u < 2048 ∧
    fat.getD (t * SECTORS_PER_TRACK + u) 0 = 254
  | (t, u) :: (nt, nu) :: rest =>
    (t ≠ 0 ∨ u ≠ 0) ∧ t * SECTORS_PER_TRACK + u < 2048 ∧
    fat.getD (t * SECTORS_PER_TRACK + u) 0 = nt * SECTORS_PER_TRACK + nu ∧
    nu < SECTORS_PER_TRACK ∧ nt * SECTORS_PER_TRACK + nu < 254 ∧
    FatChain fat ((nt, nu) :: rest)

theorem load_chain_run (d : Disk) (fat : List Nat)
    (hlen : fat.length = 2048) (hlt : ∀ x ∈ fat, x < 256)
    (hsec : ∀ j, j < 8 → d.sec (8 + j) = fatImage fat j) :
    ∀ (ps : List (Nat × Nat)) (t u : Nat) (data : List Byte) (size f : Nat),
    FatChain fat ((t, u) :: ps) → ps.length < f →
    load_chain f t u data size d =
      .ok (some ((data ++ secCat d ((t, u) :: ps)).take size)) d
  | [], t, u, data, size, f, hch, hf => by
    obtain ⟨g, rfl⟩ : ∃ g, f = g + 1 := ⟨f - 1, by omega⟩
    obtain ⟨hne, hidx, hval⟩ := hch
    show (if t ≠ 0 ∨ u ≠ 0 then (do
      let sector_data ← read_sector t u
      let fat_entry ← get_fat_entry t u
      if fat_entry = 254 then M.pure (some ((data ++ sector_data).take size))
      else if fat_entry = 255 then M.pure none
      else load_chain g (fat_entry / SECTORS_PER_TRACK) (fat_entry % SECTORS_PER_TRACK) (data ++ sector_data) size)
      else M.pure (some (data.take size))) d = _
    rw [if_pos hne]
    rw [run_bind_ok _ _ _ _ _ (read_sector_run t u d)]
    beta_reduce
    rw [run_bind_ok _ _ _ _ _ (get_fat_entry_run d fat t u hlen hlt hsec hidx)]
    beta_reduce
    rw [hval]
    show Out.ok (some ((data ++ d.sec (t * SECTORS_PER_TRACK + u)).take size)) d = _
    rw [show secCat d [(t, u)] = d.sec (t * SECTORS_PER_TRACK + u) ++ [] from rfl,
      List.append_nil]
  | (nt, nu) :: rest, t, u, data, size, f, hch, hf => by
    obtain ⟨g, rfl⟩ : ∃ g, f = g + 1 := ⟨f - 1, by omega⟩
    obtain ⟨hne, hidx, hval, hnu, hlt254, hch'⟩ := hch
    show (if t ≠ 0 ∨ u ≠ 0 then (do
      let sector_data ← read_sector t u
      let fat_entry ← get_fat_entry t u
      if fat_entry = 254 then M.pure (some ((data ++ sector_data).take size))
      else if fat_entry = 255 then M.pure none
      else load_chain g (fat_entry / SECTORS_PER_TRACK) (fat_entry % SECTORS_PER_TRACK) (data ++ sector_data) size)
      else M.pure (some (data.take size))) d = _
    rw [if_pos hne]
    rw [run_bind_ok _ _ _ _ _ (read_sector_run t u d)]
    beta_reduce
    rw [run_bind_ok _ _ _ _ _ (get_fat_entry_run d fat t u hlen hlt hsec hidx)]
    beta_reduce
    rw [hval]
    rw [if_neg (by omega), if_neg (by omega)]
    rw [show (nt * SECTORS_PER_TRACK + nu) / SECTORS_PER_TRACK = nt by
      simp only [SECTORS_PER_TRACK] at hnu ⊢
      omega]
    rw [show (nt * SECTORS_PER_TRACK + nu) % SECTORS_PER_TRACK = nu by
      simp only [SECTORS_PER_TRACK] at hnu ⊢
      omega]
    rw [load_chain_run d fat hlen hlt hsec rest nt nu _ size g hch'
      (by simp only [List.length_cons] at hf; omega)]
    rw [show secCat d ((t, u) :: (nt, nu) :: rest) =
      d.sec (t * SECTORS_PER_TRACK + u) ++ secCat d ((nt, nu) :: rest) from rfl]
    rw [List.append_assoc]

/-- Stitching sector-sized chunks back together. -/
def chunksFrom (l : List Byte) : Nat → Nat → List Byte
  | _, 0 => []
  | i, k + 1 => (l.drop (i * 256)).take 256 ++ chunksFrom l (i + 1) k

theorem chunksFrom_eq (l : List Byte) :
    ∀ (k i : Nat), chunksFrom l i k = (l.drop (i * 256)).take (k * 256)
  | 0, i => by simp [chunksFrom]
  | k + 1, i => by
    show (l.drop (i * 256)).take 256 ++ chunksFrom l (i + 1) k = _
    rw [chunksFrom_eq l k (i + 1)]
    rw [show ((i + 1) * 256 : Nat) = i * 256 + 256 by ring]
    rw [show l.drop (i * 256 + 256) = (l.drop (i * 256)).drop 256 by
      simp [List.drop_drop, Nat.add_comm]]
    rw [show ((k + 1) * 256 : Nat) = 256 + k * 256 by ring]
    rw [List.take_add]


/-!  ## The freshly formatted disk, explicitly -/

/-- The 32-byte volume-label directory entry written by format_disk. -/
def labelEntry : List Byte :=
  [78, 67, 68, 79, 83, 32, 32, 32, 86, 79, 76, 8, 0, 0, 0, 0] ++
  List.replicate 16 (0 : Byte)

theorem create_label_run (s : Disk) :
    create_dir_entry (['N', 'C', 'D', 'O', 'S'].take 8) ['V', 'O', 'L'] 0 0 8 0 s =
      .ok labelEntry s := rfl

/-- The freshly formatted disk as explicit sector updates. -/
def freshD : Disk :=
  dupd (dupdFat (dupd blankDisk 0 BOOT_SIG) fat_init) 1
    (labelEntry ++ List.replicate 224 (255 : Byte))

theorem format_run : format_disk ['N', 'C', 'D', 'O', 'S'] blankDisk = .ok () freshD := by
  unfold format_disk
  rw [run_bind_ok _ _ _ _ _ (run_set blankDisk blankDisk)]
  rw [run_bind_ok _ _ _ _ _ (write_sector_run 0 0 BOOT_SIG blankDisk)]
  rw [run_bind_ok _ _ _ _ _ (write_fat_run fat_init _ fat_init_lt)]
  rw [run_bind_ok _ _ _ _ _ (create_label_run _)]
  beta_reduce
  rw [run_bind_ok _ _ _ _ _ (write_sector_run 0 1 _ _)]
  rfl

theorem freshDisk_eq : freshDisk = freshD := by
  unfold freshDisk
  rw [format_run]

theorem freshD_secFat : ∀ j, j < 8 → freshD.sec (8 + j) = fatImage fat_init j := by
  intro j hj
  interval_cases j <;>
    simp [freshD, dupdFat, dupd, fatImage_take]

theorem range64_eq : List.range DIR_ENTRIES = [0, 1, 2, 3, 4, 5, 6, 7, 8, 9, 10, 11, 12, 13, 14, 15, 16, 17, 18, 19, 20, 21, 22, 23, 24, 25, 26, 27, 28, 29, 30, 31, 32, 33, 34, 35, 36, 37, 38, 39, 40, 41, 42, 43, 44, 45, 46, 47, 48, 49, 50, 51, 52, 53, 54, 55, 56, 57, 58, 59, 60, 61, 62, 63] := rfl

instance (e : List Byte) (name ext : List Char) : Decidable (FSkip e name ext) := by
  unfold FSkip
  infer_instance

instance (e : List Byte) : Decidable (FreeUsed e) := by
  unfold FreeUsed
  infer_instance

theorem freshD_FSkip_all : ∀ i ∈ List.range DIR_ENTRIES,
    FSkip (entryBytes freshD i) ['A'] ['T', 'X', 'T'] := by
  intro i hi
  rw [range64_eq] at hi
  fin_cases hi <;> decide

theorem find_file_entry_fresh :
    find_file_entry ['A', '.', 'T', 'X', 'T'] freshD = .ok none freshD := by
  unfold find_file_entry
  rw [show (parse_83 ['A', '.', 'T', 'X', 'T']).1 = ['A'] from rfl,
      show (parse_83 ['A', '.', 'T', 'X', 'T']).2 = ['T', 'X', 'T'] from rfl]
  rw [run_bind_ok _ _ _ _ _ (find_file_scan_skip freshD ['A'] ['T', 'X', 'T']
    (List.range DIR_ENTRIES) freshD_FSkip_all)]
  rfl

theorem delete_file_fresh :
    delete_file ['A', '.', 'T', 'X', 'T'] freshD = .ok false freshD := by
  unfold delete_file
  rw [run_bind_ok _ _ _ _ _ find_file_entry_fresh]
  rfl

theorem find_free_fresh : find_free_dir_entry freshD = .ok (some (0, 1, 32)) freshD := by
  unfold find_free_dir_entry
  rw [range64_eq]
  rw [find_free_dir_scan_cons_used freshD 0 _ (by decide)]
  rw [find_free_dir_scan_cons_free freshD 1 _ (by decide)]

theorem tsp_take10 : track_sector_pairs.take 10 =
    [(1, 0), (1, 1), (1, 2), (1, 3), (1, 4), (1, 5), (1, 6), (1, 7), (1, 8), (1, 9)] := rfl

/-!  ## save_file on the fresh disk -/

theorem dupdFat_sec_fat (d : Disk) (fat : List Nat) : ∀ j, j < 8 →
    (dupdFat d fat).sec (8 + j) = fatImage fat j := by
  intro j hj
  interval_cases j <;> simp [dupdFat, dupd, fatImage_take]

theorem dupdFat_sec_other (d : Disk) (fat : List Nat) (n : Nat)
    (h : n < 8 ∨ 16 ≤ n) : (dupdFat d fat).sec n = d.sec n := by
  simp only [dupdFat]
  rw [dupd_sec_other _ _ _ _ (by omega), dupd_sec_other _ _ _ _ (by omega),
    dupd_sec_other _ _ _ _ (by omega), dupd_sec_other _ _ _ _ (by omega),
    dupd_sec_other _ _ _ _ (by omega), dupd_sec_other _ _ _ _ (by omega),
    dupd_sec_other _ _ _ _ (by omega), dupd_sec_other _ _ _ _ (by omega)]

theorem save_fresh_run (data : List Byte) (k ft fs : Nat) (chrest : List (Nat × Nat))
    (E : List Byte)
    (hk : (data.length + BYTES_PER_SECTOR - 1) / BYTES_PER_SECTOR = k)
    (halloc : allocate_sectors k freshD = .ok ((ft, fs) :: chrest) freshD)
    (hE : ∀ s : Disk, create_dir_entry ['A'] ['T', 'X', 'T'] ft fs 0 data.length s =
      .ok E s)
    (hch : ∀ p ∈ (ft, fs) :: chrest, 16 ≤ p.1 * SECTORS_PER_TRACK + p.2 ∧
      p.1 * SECTORS_PER_TRACK + p.2 < 256) :
    save_file ['A', '.', 'T', 'X', 'T'] data freshD =
      .ok true (dupdFat (dupd (wdisk data 0 ((ft, fs) :: chrest) freshD) 1
        ((freshD.sec 1).take 32 ++ E ++ (freshD.sec 1).drop 64))
        (chainWrite ((ft, fs) :: chrest) fat_init)) := by
  show (do
    let _ ← delete_file ['A', '.', 'T', 'X', 'T']
    let dir_entry_addr ← find_free_dir_entry
    match dir_entry_addr with
    | none => M.pure false
    | some (dt, ds, off) => do
      let sectors_needed := (data.length + BYTES_PER_SECTOR - 1) / BYTES_PER_SECTOR
      let allocated ← allocate_sectors sectors_needed
      match allocated with
      | [] => M.pure false
      | (first_track, first_sector) :: _ => do
        write_data_loop data 0 allocated
        let dir_entry ← create_dir_entry ['A'] ['T', 'X', 'T'] first_track first_sector 0 data.length
        let sector_data ← read_sector dt ds
        write_sector dt ds ((sector_data.take off) ++ dir_entry ++ (sector_data.drop (off + 32)))
        update_fat_chain allocated
        save_disk
        M.pure true) freshD = _
  rw [run_bind_ok _ _ _ _ _ delete_file_fresh]
  beta_reduce
  rw [run_bind_ok _ _ _ _ _ find_free_fresh]
  beta_reduce
  show (do
    let allocated ← allocate_sectors ((data.length + BYTES_PER_SECTOR - 1) / BYTES_PER_SECTOR)
    match allocated with
    | [] => M.pure false
    | (first_track, first_sector) :: _ => do
      write_data_loop data 0 allocated
      let dir_entry ← create_dir_entry ['A'] ['T', 'X', 'T'] first_track first_sector 0 data.length
      let sector_data ← read_sector 0 1
      write_sector 0 1 ((sector_data.take 32) ++ dir_entry ++ (sector_data.drop (32 + 32)))
      update_fat_chain allocated
      save_disk
      M.pure true) freshD = _
  rw [hk]
  rw [run_bind_ok _ _ _ _ _ halloc]
  beta_reduce
  show (do
    write_data_loop data 0 ((ft, fs) :: chrest)
    let dir_entry ← create_dir_entry ['A'] ['T', 'X', 'T'] ft fs 0 data.length
    let sector_data ← read_sector 0 1
    write_sector 0 1 ((sector_data.take 32) ++ dir_entry ++ (sector_data.drop (32 + 32)))
    update_fat_chain ((ft, fs) :: chrest)
    save_disk
    M.pure true) freshD = _
  rw [run_bind_ok _ _ _ _ _ (write_data_loop_run data 0 ((ft, fs) :: chrest) freshD)]
  rw [run_bind_ok _ _ _ _ _ (hE _)]
  beta_reduce
  rw [run_bind_ok _ _ _ _ _ (read_sector_run 0 1 _)]
  beta_reduce
  rw [show (0 * SECTORS_PER_TRACK + 1 : Nat) = 1 by simp]
  have hw1 : (wdisk data 0 ((ft, fs) :: chrest) freshD).sec 1 = freshD.sec 1 :=
    wdisk_sec_other data 0 _ freshD 1
      (fun p hp => by have := (hch p hp).1; omega)
  rw [hw1]
  rw [run_bind_ok _ _ _ _ _ (write_sector_run 0 1 _ _)]
  rw [show (0 * SECTORS_PER_TRACK + 1 : Nat) = 1 by simp]
  have hsec2 : ∀ j, j < 8 →
      (dupd (wdisk data 0 ((ft, fs) :: chrest) freshD) 1
        ((freshD.sec 1).take 32 ++ E ++ (freshD.sec 1).drop 64)).sec (8 + j) =
      fatImage fat_init j := by
    intro j hj
    rw [dupd_sec_other _ _ _ _ (by omega)]
    rw [wdisk_sec_other data 0 _ freshD _
      (fun p hp => by have := (hch p hp).1; have := (hch p hp).2; omega)]
    exact freshD_secFat j hj
  rw [run_bind_ok _ _ _ _ _ (update_fat_chain_run ((ft, fs) :: chrest) _ fat_init
    fat_init_length fat_init_lt hsec2
    (fun p hp => by have := (hch p hp).2; omega)
    (fun p hp => (hch p hp).2))]
  rfl

/-!  ## The saved disk and its sectors -/

theorem pad_take_collapse (l : List Byte) :
    ((l.take 256) ++ List.replicate (256 - (l.take 256).length) (0 : Byte)).take 256 =
    (l.take 256) ++ List.replicate (256 - (l.take 256).length) 0 :=
  List.take_all_of_le (by simp)

theorem drop_shift (l : List Byte) (i : Nat) :
    l.drop ((i + 1) * 256) = (l.drop (i * 256)).drop 256 := by
  rw [List.drop_drop]
  congr 1
  ring

/-- Concatenation of the zero-padded sector chunks of data. -/
def padCat (data : List Byte) : Nat → Nat → List Byte
  | _, 0 => []
  | i, k + 1 =>
    ((data.drop (i * 256)).take 256 ++
     List.replicate (256 - ((data.drop (i * 256)).take 256).length) (0 : Byte)) ++
    padCat data (i + 1) k

theorem padCat_take (data : List Byte) :
    ∀ (k i : Nat), (data.drop (i * 256)).length ≤ k * 256 →
    (padCat data i k).take (data.drop (i * 256)).length = data.drop (i * 256)
  | 0, i, h => by
    have h0 : data.drop (i * 256) = [] := List.length_eq_zero.mp (by omega)
    rw [h0]
    rfl
  | k + 1, i, h => by
    show ((((data.drop (i * 256)).take 256) ++
      List.replicate (256 - ((data.drop (i * 256)).take 256).length) (0 : Byte)) ++
      padCat data (i + 1) k).take (data.drop (i * 256)).length = _
    by_cases hm : (data.drop (i * 256)).length ≤ 256
    · rw [List.take_all_of_le hm]
      rw [List.append_assoc]
      exact List.take_left _ _
    · push_neg at hm
      have h256 : ((data.drop (i * 256)).take 256).length = 256 := by
        rw [List.length_take]
        omega
      have hlen2 : (data.drop ((i + 1) * 256)).length =
          (data.drop (i * 256)).length - 256 := by
        simp only [List.length_drop]
        omega
      simp only [h256, Nat.sub_self, List.replicate_zero, List.append_nil]
      rw [show (data.drop (i * 256)).length =
        ((data.drop (i * 256)).take 256).length + (data.drop ((i + 1) * 256)).length by
          rw [h256, hlen2]; omega]
      rw [List.take_append]
      rw [padCat_take data k (i + 1) (by rw [hlen2]; omega)]
      rw [drop_shift]
      exact List.take_append_drop 256 _

theorem padCat_take0 (data : List Byte) (k : Nat) (h : data.length ≤ k * 256) :
    (padCat data 0 k).take data.length = data := by
  have h2 := padCat_take data k 0 (by simpa using h)
  simpa using h2

theorem wdisk_sec_at (data : List Byte) :
    ∀ (ps : List (Nat × Nat)) (j : Nat) (i : Nat) (d : Disk) (t u : Nat),
    ps.getD j (0, 0) = (t, u) → j < ps.length →
    List.Pairwise (fun p q : Nat × Nat =>
      p.1 * SECTORS_PER_TRACK + p.2 ≠ q.1 * SECTORS_PER_TRACK + q.2) ps →
    (wdisk data i ps d).sec (t * SECTORS_PER_TRACK + u) =
      (data.drop ((i + j) * 256)).take 256 ++
      List.replicate (256 - ((data.drop ((i + j) * 256)).take 256).length) (0 : Byte)
  | [], j, i, d, t, u, _, hjl, _ => by simp at hjl
  | (a, b) :: rest, 0, i, d, t, u, hj, _, hnodup => by
    simp only [List.getD_cons_zero] at hj
    obtain ⟨rfl, rfl⟩ := Prod.mk.inj hj
    rw [wdisk_cons]
    rw [wdisk_sec_other data (i + 1) rest _ _
      (fun p hp => ((List.pairwise_cons.mp hnodup).1 p hp).symm)]
    rw [dupd_sec_same]
    exact pad_take_collapse _
  | (a, b) :: rest, j + 1, i, d, t, u, hj, hjl, hnodup => by
    simp only [List.getD_cons_succ] at hj
    rw [wdisk_cons]
    rw [wdisk_sec_at data rest j (i + 1) _ t u hj
      (by simp only [List.length_cons] at hjl; omega)
      (List.pairwise_cons.mp hnodup).2]
    rw [show i + 1 + j = i + (j + 1) by omega]

/-- Concatenated chain sectors as padded data chunks. -/
theorem secCat_eq_padCat (D : Disk) (data : List Byte) :
    ∀ (chain : List (Nat × Nat)) (i : Nat),
    (∀ j, j < chain.length →
      D.sec ((chain.getD j (0, 0)).1 * SECTORS_PER_TRACK + (chain.getD j (0, 0)).2) =
        (data.drop ((i + j) * 256)).take 256 ++
        List.replicate (256 - ((data.drop ((i + j) * 256)).take 256).length) (0 : Byte)) →
    secCat D chain = padCat data i chain.length
  | [], i, _ => rfl
  | (t, u) :: rest, i, h => by
    show D.sec (t * SECTORS_PER_TRACK + u) ++ secCat D rest = _
    have h0 := h 0 (by simp)
    simp only [List.getD_cons_zero] at h0
    rw [h0]
    rw [secCat_eq_padCat D data rest (i + 1) (fun j hj => by
      have h1 := h (j + 1) (by simp only [List.length_cons]; omega)
      simp only [List.getD_cons_succ] at h1
      rw [show i + 1 + j = i + (j + 1) by omega]
      exact h1)]
    rfl

/-- The disk left by a successful fresh-disk save. -/
def savedD (data : List Byte) (chain : List (Nat × Nat)) (E : List Byte) : Disk :=
  dupdFat (dupd (wdisk data 0 chain freshD) 1
    ((freshD.sec 1).take 32 ++ E ++ (freshD.sec 1).drop 64))
    (chainWrite chain fat_init)

theorem savedD_sec1 (data : List Byte) (chain : List (Nat × Nat)) (E : List Byte) :
    (savedD data chain E).sec 1 =
      ((freshD.sec 1).take 32 ++ E ++ (freshD.sec 1).drop 64).take 256 := by
  unfold savedD
  rw [dupdFat_sec_other _ _ 1 (by omega), dupd_sec_same]

theorem savedD_secMid (data : List Byte) (chain : List (Nat × Nat)) (E : List Byte)
    (n : Nat) (hch : ∀ p ∈ chain, 16 ≤ p.1 * SECTORS_PER_TRACK + p.2)
    (h2 : 2 ≤ n) (h7 : n ≤ 7) :
    (savedD data chain E).sec n = freshD.sec n := by
  unfold savedD
  rw [dupdFat_sec_other _ _ n (by omega), dupd_sec_other _ _ _ _ (by omega),
    wdisk_sec_other data 0 chain freshD n (fun p hp => by have := hch p hp; omega)]

theorem savedD_secFat (data : List Byte) (chain : List (Nat × Nat)) (E : List Byte) :
    ∀ j, j < 8 → (savedD data chain E).sec (8 + j) =
      fatImage (chainWrite chain fat_init) j :=
  fun j hj => dupdFat_sec_fat _ _ j hj

theorem savedD_sec_chain (data : List Byte) (chain : List (Nat × Nat)) (E : List Byte)
    (hch : ∀ p ∈ chain, 16 ≤ p.1 * SECTORS_PER_TRACK + p.2 ∧
      p.1 * SECTORS_PER_TRACK + p.2 < 256)
    (hnodup : List.Pairwise (fun p q : Nat × Nat =>
      p.1 * SECTORS_PER_TRACK + p.2 ≠ q.1 * SECTORS_PER_TRACK + q.2) chain)
    (j t u : Nat) (hj : chain.getD j (0, 0) = (t, u)) (hjl : j < chain.length) :
    (savedD data chain E).sec (t * SECTORS_PER_TRACK + u) =
      (data.drop (j * 256)).take 256 ++
      List.replicate (256 - ((data.drop (j * 256)).take 256).length) (0 : Byte) := by
  have hmem : (t, u) ∈ chain := by
    rw [← hj]
    rw [List.getD_eq_getElem _ _ hjl]
    exact List.getElem_mem _
  have hidx := hch (t, u) hmem
  unfold savedD
  rw [dupdFat_sec_other _ _ _ (Or.inr hidx.1)]
  rw [dupd_sec_other _ _ _ _ (by intro he; rw [he] at hidx; omega)]
  have h := wdisk_sec_at data chain j 0 freshD t u hj hjl hnodup
  rw [Nat.zero_add] at h
  exact h

theorem find_file_hit1 (d : Disk)
    (h0 : FSkip (entryBytes d 0) ['A'] ['T', 'X', 'T'])
    (hne : bget (entryBytes d 1) 0 ≠ 255 ∧ bget (entryBytes d 1) 0 ≠ 0)
    (hn : ((entryBytes d 1).take 8).all (fun b => b.val < 128) = true)
    (he : (((entryBytes d 1).drop 8).take 3).all (fun b => b.val < 128) = true)
    (hm : py_strip (((entryBytes d 1).take 8).map (fun b => Char.ofNat b.val)) = ['A'] ∧
          py_strip ((((entryBytes d 1).drop 8).take 3).map
            (fun b => Char.ofNat b.val)) = ['T', 'X', 'T'])
    (hattr : bget (entryBytes d 1) 11 < 128) :
    find_file ['A', '.', 'T', 'X', 'T'] d = .ok (some (entryBytes d 1)) d := by
  unfold find_file
  rw [show (parse_83 ['A', '.', 'T', 'X', 'T']).1 = ['A'] from rfl,
      show (parse_83 ['A', '.', 'T', 'X', 'T']).2 = ['T', 'X', 'T'] from rfl]
  have hscan : find_file_scan ['A'] ['T', 'X', 'T'] (List.range DIR_ENTRIES) d =
      .ok (some 1) d := by
    rw [range64_eq]
    rw [find_file_scan_cons_skip d ['A'] ['T', 'X', 'T'] 0 _ h0]
    exact find_file_scan_hit d ['A'] ['T', 'X', 'T'] 1 _ hne hn he hm hattr
  rw [run_bind_ok _ _ _ _ _ hscan]
  beta_reduce
  show (read_dir_entry 1 >>= fun a => pure (some a) : M Disk (Option (List Byte))) d = _
  rw [run_bind_ok _ _ _ _ _ (read_dir_entry_run 1 d)]
  rfl

/-!  ## Fresh-disk allocations -/

theorem tsp_len : track_sector_pairs.length = 624 := rfl

theorem tsp_take1 : track_sector_pairs.take 1 = [(1, 0)] := rfl

theorem tsp_take2 : track_sector_pairs.take 2 = [(1, 0), (1, 1)] := rfl

theorem alloc_fresh_k (k : Nat) (res : List (Nat × Nat)) (hk1 : 1 ≤ k)
    (htake : track_sector_pairs.take k = res)
    (hfree : ∀ p ∈ res, p.1 * SECTORS_PER_TRACK + p.2 < 2048 ∧
      fat_init.getD (p.1 * SECTORS_PER_TRACK + p.2) 0 = 255)
    (hk624 : k ≤ 624) :
    allocate_sectors k freshD = .ok res freshD := by
  refine allocate_sectors_run freshD fat_init k res fat_init_length fat_init_lt
    freshD_secFat ?_
  have h := allocate_scan_takes k fat_init freshD track_sector_pairs []
    (by simpa using hk1)
    (by
      intro p hp
      simp only [List.length_nil, Nat.sub_zero] at hp
      rw [htake] at hp
      obtain ⟨h1, h2⟩ := hfree p hp
      exact ⟨by rw [fat_init_length]; exact h1, h2⟩)
    (by simp only [List.length_nil, Nat.sub_zero]; rw [tsp_len]; omega)
  simp only [List.length_nil, Nat.sub_zero, List.nil_append] at h
  rw [htake] at h
  exact h

theorem alloc_fresh0 : allocate_sectors 0 freshD = .ok [(1, 0)] freshD := by
  refine allocate_sectors_run freshD fat_init 0 _ fat_init_length fat_init_lt
    freshD_secFat ?_
  rw [show track_sector_pairs = (1, 0) :: track_sector_pairs.tail from rfl]
  exact allocate_scan_zero fat_init freshD 1 0 _
    (by rw [fat_init_length]; decide) (by decide)

theorem alloc_fresh1 : allocate_sectors 1 freshD = .ok [(1, 0)] freshD :=
  alloc_fresh_k 1 [(1, 0)] (by omega) tsp_take1
    (by intro p hp; fin_cases hp <;> exact ⟨by decide, by decide⟩) (by omega)

theorem alloc_fresh2 : allocate_sectors 2 freshD = .ok [(1, 0), (1, 1)] freshD :=
  alloc_fresh_k 2 [(1, 0), (1, 1)] (by omega) tsp_take2
    (by intro p hp; fin_cases hp <;> exact ⟨by decide, by decide⟩) (by omega)

theorem alloc_fresh10 : allocate_sectors 10 freshD =
    .ok [(1, 0), (1, 1), (1, 2), (1, 3), (1, 4), (1, 5), (1, 6), (1, 7), (1, 8), (1, 9)]
      freshD :=
  alloc_fresh_k 10 _ (by omega) tsp_take10
    (by intro p hp; fin_cases hp <;> exact ⟨by decide, by decide⟩) (by omega)

/-!  ## The five C6 scenarios -/

instance fatChainDec (fat : List Nat) : ∀ ps : List (Nat × Nat), Decidable (FatChain fat ps)
  | [] => isTrue trivial
  | [(t, u)] => by unfold FatChain; infer_instance
  | (t, u) :: (nt, nu) :: rest => by
    unfold FatChain
    have := fatChainDec fat ((nt, nu) :: rest)
    infer_instance

def chain1 : List (Nat × Nat) := [(1, 0)]

def chain2 : List (Nat × Nat) := [(1, 0), (1, 1)]

def chain10 : List (Nat × Nat) :=
  [(1, 0), (1, 1), (1, 2), (1, 3), (1, 4), (1, 5), (1, 6), (1, 7), (1, 8), (1, 9)]

/-- The A.TXT directory entry for size lo + 256 * hi, first sector track 1
sector 0. -/
def entA (lo hi : Nat) : List Byte :=
  [65, 32, 32, 32, 32, 32, 32, 32, 84, 88, 84, 0, 1, 0, byteOf lo, byteOf hi] ++
  List.replicate 16 (0 : Byte)

theorem create_A_0 (s : Disk) :
    create_dir_entry ['A'] ['T', 'X', 'T'] 1 0 0 0 s = .ok (entA 0 0) s := rfl

theorem create_A_1 (s : Disk) :
    create_dir_entry ['A'] ['T', 'X', 'T'] 1 0 0 1 s = .ok (entA 1 0) s := rfl

theorem create_A_256 (s : Disk) :
    create_dir_entry ['A'] ['T', 'X', 'T'] 1 0 0 256 s = .ok (entA 0 1) s := rfl

theorem create_A_257 (s : Disk) :
    create_dir_entry ['A'] ['T', 'X', 'T'] 1 0 0 257 s = .ok (entA 1 1) s := rfl

theorem create_A_2560 (s : Disk) :
    create_dir_entry ['A'] ['T', 'X', 'T'] 1 0 0 2560 s = .ok (entA 0 10) s := rfl

/-- One saved-disk load, shared by the five scenarios. -/
theorem load_saved_case (data : List Byte) (chain : List (Nat × Nat)) (E : List Byte)
    (L k ft fs : Nat)
    (hchainD : chain.getD 0 (0, 0) = (ft, fs))
    (hE : ((((freshD.sec 1).take 32 ++ E ++ (freshD.sec 1).drop 64).take 256).drop 32).take 32 = E)
    (hskip0 : FSkip (((((freshD.sec 1).take 32 ++ E ++ (freshD.sec 1).drop 64).take 256).drop 0).take 32) ['A'] ['T', 'X', 'T'])
    (hne : bget E 0 ≠ 255 ∧ bget E 0 ≠ 0)
    (hn : (E.take 8).all (fun b => b.val < 128) = true)
    (he : ((E.drop 8).take 3).all (fun b => b.val < 128) = true)
    (hm : py_strip ((E.take 8).map (fun b => Char.ofNat b.val)) = ['A'] ∧
          py_strip (((E.drop 8).take 3).map (fun b => Char.ofNat b.val)) = ['T', 'X', 'T'])
    (hattr : bget E 11 < 128)
    (htrack : bget E 12 = ft) (hsector : bget E 13 = fs)
    (hsize : bget E 14 + 256 * bget E 15 = L)
    (hch : ∀ p ∈ chain, 16 ≤ p.1 * SECTORS_PER_TRACK + p.2 ∧
      p.1 * SECTORS_PER_TRACK + p.2 < 256)
    (hnodup : List.Pairwise (fun p q : Nat × Nat =>
      p.1 * SECTORS_PER_TRACK + p.2 ≠ q.1 * SECTORS_PER_TRACK + q.2) chain)
    (hchain : FatChain (chainWrite chain fat_init) chain)
    (hclen : chain.length = k) (hk1 : 1 ≤ k) (hkF : k < 65536)
    (hL : data.length = L) (hLk : L ≤ k * 256) :
    load_file ['A', '.', 'T', 'X', 'T'] (savedD data chain E) =
      .ok (some data) (savedD data chain E) := by
  have hsec1 := savedD_sec1 data chain E
  have he0 : entryBytes (savedD data chain E) 0 =
      ((((freshD.sec 1).take 32 ++ E ++ (freshD.sec 1).drop 64).take 256).drop 0).take 32 := by
    unfold entryBytes
    rw [show (1 + (0 * 32) / 256 : Nat) = 1 from rfl,
        show ((0 * 32) % 256 : Nat) = 0 from rfl, hsec1]
  have he1 : entryBytes (savedD data chain E) 1 = E := by
    unfold entryBytes
    rw [show (1 + (1 * 32) / 256 : Nat) = 1 from rfl,
        show ((1 * 32) % 256 : Nat) = 32 from rfl, hsec1]
    exact hE
  have hff := find_file_hit1 (savedD data chain E)
    (by rw [he0]; exact hskip0)
    (by rw [he1]; exact hne)
    (by rw [he1]; exact hn)
    (by rw [he1]; exact he)
    (by rw [he1]; exact hm)
    (by rw [he1]; exact hattr)
  unfold load_file
  rw [run_bind_ok _ _ _ _ _ hff]
  beta_reduce
  rw [he1]
  show (load_chain FUEL (bget E 12) (bget E 13) []
    (bget E 14 + 256 * bget E 15)) (savedD data chain E) = _
  rw [htrack, hsector, hsize]
  obtain ⟨ps, rfl⟩ : ∃ ps, chain = (ft, fs) :: ps := by
    cases chain with
    | nil => simp at hclen; omega
    | cons a rest =>
      simp only [List.getD_cons_zero] at hchainD
      exact ⟨rest, by rw [hchainD]⟩
  rw [load_chain_run (savedD data ((ft, fs) :: ps) E) (chainWrite ((ft, fs) :: ps) fat_init)
    (by rw [chainWrite_length, fat_init_length])
    (chainWrite_lt _ _ fat_init_lt (fun p hp => (hch p hp).2))
    (savedD_secFat data ((ft, fs) :: ps) E)
    ps ft fs [] L FUEL hchain
    (by simp only [List.length_cons] at hclen; simp only [FUEL]; omega)]
  rw [List.nil_append]
  rw [secCat_eq_padCat (savedD data ((ft, fs) :: ps) E) data ((ft, fs) :: ps) 0
    (fun j hj => by
      have hs := savedD_sec_chain data ((ft, fs) :: ps) E hch hnodup j
        (((ft, fs) :: ps).getD j (0, 0)).1 (((ft, fs) :: ps).getD j (0, 0)).2
        rfl hj
      rw [Nat.zero_add]
      exact hs)]
  rw [hclen]
  have hre := padCat_take0 data k (by omega)
  rw [hL] at hre
  rw [hre]

theorem saveload_0 (data : List Byte) (hL : data.length = 0) :
    save_file ['A', '.', 'T', 'X', 'T'] data freshD =
      .ok true (savedD data chain1 (entA 0 0)) ∧
    load_file ['A', '.', 'T', 'X', 'T'] (savedD data chain1 (entA 0 0)) =
      .ok (some data) (savedD data chain1 (entA 0 0)) :=
  ⟨save_fresh_run data 0 1 0 [] (entA 0 0) (by rw [hL]; rfl) alloc_fresh0
      (fun s => by rw [hL]; exact create_A_0 s) (by decide),
   load_saved_case data chain1 (entA 0 0) 0 1 1 0 rfl (by decide) (by decide)
      (by decide) (by decide) (by decide) (by decide) (by decide)
      (by decide) (by decide) (by decide) (by decide) (by decide)
      (by decide) rfl (by omega) (by omega) hL (by omega)⟩

theorem saveload_1 (data : List Byte) (hL : data.length = 1) :
    save_file ['A', '.', 'T', 'X', 'T'] data freshD =
      .ok true (savedD data chain1 (entA 1 0)) ∧
    load_file ['A', '.', 'T', 'X', 'T'] (savedD data chain1 (entA 1 0)) =
      .ok (some data) (savedD data chain1 (entA 1 0)) :=
  ⟨save_fresh_run data 1 1 0 [] (entA 1 0) (by rw [hL]; rfl) alloc_fresh1
      (fun s => by rw [hL]; exact create_A_1 s) (by decide),
   load_saved_case data chain1 (entA 1 0) 1 1 1 0 rfl (by decide) (by decide)
      (by decide) (by decide) (by decide) (by decide) (by decide)
      (by decide) (by decide) (by decide) (by decide) (by decide)
      (by decide) rfl (by omega) (by omega) hL (by omega)⟩

theorem saveload_256 (data : List Byte) (hL : data.length = 256) :
    save_file ['A', '.', 'T', 'X', 'T'] data freshD =
      .ok true (savedD data chain1 (entA 0 1)) ∧
    load_file ['A', '.', 'T', 'X', 'T'] (savedD data chain1 (entA 0 1)) =
      .ok (some data) (savedD data chain1 (entA 0 1)) :=
  ⟨save_fresh_run data 1 1 0 [] (entA 0 1) (by rw [hL]; rfl) alloc_fresh1
      (fun s => by rw [hL]; exact create_A_256 s) (by decide),
   load_saved_case data chain1 (entA 0 1) 256 1 1 0 rfl (by decide) (by decide)
      (by decide) (by decide) (by decide) (by decide) (by decide)
      (by decide) (by decide) (by decide) (by decide) (by decide)
      (by decide) rfl (by omega) (by omega) hL (by omega)⟩

theorem saveload_257 (data : List Byte) (hL : data.length = 257) :
    save_file ['A', '.', 'T', 'X', 'T'] data freshD =
      .ok true (savedD data chain2 (entA 1 1)) ∧
    load_file ['A', '.', 'T', 'X', 'T'] (savedD data chain2 (entA 1 1)) =
      .ok (some data) (savedD data chain2 (entA 1 1)) :=
  ⟨save_fresh_run data 2 1 0 [(1, 1)] (entA 1 1) (by rw [hL]; rfl) alloc_fresh2
      (fun s => by rw [hL]; exact create_A_257 s) (by decide),
   load_saved_case data chain2 (entA 1 1) 257 2 1 0 rfl (by decide) (by decide)
      (by decide) (by decide) (by decide) (by decide) (by decide)
      (by decide) (by decide) (by decide) (by decide) (by decide)
      (by decide) rfl (by omega) (by omega) hL (by omega)⟩

theorem saveload_2560 (data : List Byte) (hL : data.length = 2560) :
    save_file ['A', '.', 'T', 'X', 'T'] data freshD =
      .ok true (savedD data chain10 (entA 0 10)) ∧
    load_file ['A', '.', 'T', 'X', 'T'] (savedD data chain10 (entA 0 10)) =
      .ok (some data) (savedD data chain10 (entA 0 10)) :=
  ⟨save_fresh_run data 10 1 0
      [(1, 1), (1, 2), (1, 3), (1, 4), (1, 5), (1, 6), (1, 7), (1, 8), (1, 9)]
      (entA 0 10) (by rw [hL]; rfl) alloc_fresh10
      (fun s => by rw [hL]; exact create_A_2560 s) (by decide),
   load_saved_case data chain10 (entA 0 10) 2560 10 1 0 rfl (by decide) (by decide)
      (by decide) (by decide) (by decide) (by decide) (by decide)
      (by decide) (by decide) (by decide) (by decide) (by decide)
      (by decide) rfl (by omega) (by omega) hL (by omega)⟩

/-- C6: starting from a freshly formatted disk, for data of length 0, 1,
256, 257 or 2560 bytes, save_file "A.TXT" returns true and a subsequent
load_file "A.TXT" returns exactly the saved bytes. -/
theorem C6_save_load_roundtrip (data : List Byte)
    (hL : data.length = 0 ∨ data.length = 1 ∨ data.length = 256 ∨
      data.length = 257 ∨ data.length = 2560) :
    ∃ d', save_file ['A', '.', 'T', 'X', 'T'] data freshDisk = .ok true d' ∧
      load_file ['A', '.', 'T', 'X', 'T'] d' = .ok (some data) d' := by
  rw [freshDisk_eq]
  rcases hL with h | h | h | h | h
  · exact ⟨_, saveload_0 data h⟩
  · exact ⟨_, saveload_1 data h⟩
  · exact ⟨_, saveload_256 data h⟩
  · exact ⟨_, saveload_257 data h⟩
  · exact ⟨_, saveload_2560 data h⟩

theorem C6_save_load_roundtrip_witness :
    ((List.replicate 2560 (65 : Byte)).length = 0 ∨
     (List.replicate 2560 (65 : Byte)).length = 1 ∨
     (List.replicate 2560 (65 : Byte)).length = 256 ∨
     (List.replicate 2560 (65 : Byte)).length = 257 ∨
     (List.replicate 2560 (65 : Byte)).length = 2560) ∧
    ∃ d', save_file ['A', '.', 'T', 'X', 'T'] (List.replicate 2560 (65 : Byte))
        freshDisk = .ok true d' ∧
      load_file ['A', '.', 'T', 'X', 'T'] d' =
        .ok (some (List.replicate 2560 (65 : Byte))) d' :=
  ⟨by norm_num,
   C6_save_load_roundtrip (List.replicate 2560 (65 : Byte)) (by norm_num)⟩


/-!  ## C1: a failing save destroys the previously saved same-named file -/

def dataA : List Byte := [(65 : Byte)]

def D1 : Disk := savedD dataA chain1 (entA 1 0)

def fat1 : List Nat := chainWrite chain1 fat_init

def fat2 : List Nat := fat1.set 16 255

def D1b : Disk := dupdFat (dupd D1 1 ((D1.sec 1).set 43 (byteOf 128))) fat2

theorem fat1_length : fat1.length = 2048 := by
  unfold fat1
  rw [chainWrite_length, fat_init_length]

theorem fat1_lt : ∀ x ∈ fat1, x < 256 :=
  chainWrite_lt chain1 fat_init fat_init_lt (by decide)

theorem fat2_length : fat2.length = 2048 := by
  unfold fat2
  rw [List.length_set]
  exact fat1_length

theorem fat2_lt : ∀ x ∈ fat2, x < 256 := by
  intro x hx
  rcases List.mem_or_eq_of_mem_set hx with h | h
  · exact fat1_lt x h
  · omega

theorem find_file_entry_hit1 (d : Disk)
    (h0 : FSkip (entryBytes d 0) ['A'] ['T', 'X', 'T'])
    (hne : bget (entryBytes d 1) 0 ≠ 255 ∧ bget (entryBytes d 1) 0 ≠ 0)
    (hn : ((entryBytes d 1).take 8).all (fun b => b.val < 128) = true)
    (he : (((entryBytes d 1).drop 8).take 3).all (fun b => b.val < 128) = true)
    (hm : py_strip (((entryBytes d 1).take 8).map (fun b => Char.ofNat b.val)) = ['A'] ∧
          py_strip ((((entryBytes d 1).drop 8).take 3).map
            (fun b => Char.ofNat b.val)) = ['T', 'X', 'T'])
    (hattr : bget (entryBytes d 1) 11 < 128) :
    find_file_entry ['A', '.', 'T', 'X', 'T'] d = .ok (some (0, 1, 32)) d := by
  unfold find_file_entry
  rw [show (parse_83 ['A', '.', 'T', 'X', 'T']).1 = ['A'] from rfl,
      show (parse_83 ['A', '.', 'T', 'X', 'T']).2 = ['T', 'X', 'T'] from rfl]
  have hscan : find_file_scan ['A'] ['T', 'X', 'T'] (List.range DIR_ENTRIES) d =
      .ok (some 1) d := by
    rw [range64_eq]
    rw [find_file_scan_cons_skip d ['A'] ['T', 'X', 'T'] 0 _ h0]
    exact find_file_scan_hit d ['A'] ['T', 'X', 'T'] 1 _ hne hn he hm hattr
  rw [run_bind_ok _ _ _ _ _ hscan]
  rfl

theorem delete_file_D1 : delete_file ['A', '.', 'T', 'X', 'T'] D1 = .ok true D1b := by
  unfold delete_file
  rw [run_bind_ok _ _ _ _ _ (find_file_entry_hit1 D1 (by decide) (by decide)
    (by decide) (by decide) (by decide) (by decide))]
  beta_reduce
  show (do
    let sector_data ← read_sector 0 1
    let new_attr ← to_byte (Nat.lor (bget sector_data (32 + 11)) 128)
    write_sector 0 1 (sector_data.set (32 + 11) new_attr)
    free_fat_chain (bget sector_data (32 + 12)) (bget sector_data (32 + 13))
    save_disk
    M.pure true) D1 = _
  rw [run_bind_ok _ _ _ _ _ (read_sector_run 0 1 D1)]
  beta_reduce
  rw [show (0 * SECTORS_PER_TRACK + 1 : Nat) = 1 by simp]
  rw [show Nat.lor (bget (D1.sec 1) (32 + 11)) 128 = 128 from by decide]
  rw [run_bind_ok _ _ _ _ _
    (show to_byte 128 D1 = .ok (byteOf 128) D1 from rfl)]
  beta_reduce
  rw [run_bind_ok _ _ _ _ _ (write_sector_run 0 1 _ D1)]
  rw [show (0 * SECTORS_PER_TRACK + 1 : Nat) = 1 by simp]
  rw [show bget (D1.sec 1) (32 + 12) = 1 from by decide,
      show bget (D1.sec 1) (32 + 13) = 0 from by decide]
  have hfsec1 : ∀ j, j < 8 →
      (dupd D1 1 ((D1.sec 1).set (32 + 11) (byteOf 128))).sec (8 + j) =
        fatImage fat1 j := by
    intro j hj
    rw [dupd_sec_other _ _ _ _ (by omega)]
    exact savedD_secFat dataA chain1 (entA 1 0) j hj
  rw [run_bind_ok _ _ _ _ _ (free_fat_chain_run 1 0 _ fat1 fat1_length fat1_lt
    hfsec1 (by omega) (by decide) (by decide))]
  rfl

theorem find_free_D1b : find_free_dir_entry D1b = .ok (some (0, 1, 32)) D1b := by
  unfold find_free_dir_entry
  rw [range64_eq]
  rw [find_free_dir_scan_cons_used D1b 0 _ (by decide)]
  rw [find_free_dir_scan_cons_free D1b 1 _ (by decide)]

theorem tsp_idx : ∀ p ∈ track_sector_pairs,
    p.1 * SECTORS_PER_TRACK + p.2 < 2048 := by decide

theorem alloc_D1b : allocate_sectors 625 D1b = .ok [] D1b := by
  refine allocate_sectors_run D1b fat2 625 [] fat2_length fat2_lt
    (fun j hj => dupdFat_sec_fat _ fat2 j hj) ?_
  refine allocate_scan_insufficient 625 fat2 D1b track_sector_pairs []
    (fun p hp => by rw [fat2_length]; exact tsp_idx p hp) ?_
  simp only [List.length_nil]
  rw [tsp_len]
  omega

theorem saveC1_fail (data2 : List Byte) (hlen : data2.length = 159745) :
    save_file ['A', '.', 'T', 'X', 'T'] data2 D1 = .ok false D1b := by
  show (do
    let _ ← delete_file ['A', '.', 'T', 'X', 'T']
    let dir_entry_addr ← find_free_dir_entry
    match dir_entry_addr with
    | none => M.pure false
    | some (dt, ds, off) => do
      let sectors_needed := (data2.length + BYTES_PER_SECTOR - 1) / BYTES_PER_SECTOR
      let allocated ← allocate_sectors sectors_needed
      match allocated with
      | [] => M.pure false
      | (first_track, first_sector) :: _ => do
        write_data_loop data2 0 allocated
        let dir_entry ← create_dir_entry ['A'] ['T', 'X', 'T'] first_track first_sector 0 data2.length
        let sector_data ← read_sector dt ds
        write_sector dt ds ((sector_data.take off) ++ dir_entry ++ (sector_data.drop (off + 32)))
        update_fat_chain allocated
        save_disk
        M.pure true) D1 = _
  rw [run_bind_ok _ _ _ _ _ delete_file_D1]
  beta_reduce
  rw [run_bind_ok _ _ _ _ _ find_free_D1b]
  beta_reduce
  show (do
    let allocated ← allocate_sectors ((data2.length + BYTES_PER_SECTOR - 1) / BYTES_PER_SECTOR)
    match allocated with
    | [] => M.pure false
    | (first_track, first_sector) :: _ => do
      write_data_loop data2 0 allocated
      let dir_entry ← create_dir_entry ['A'] ['T', 'X', 'T'] first_track first_sector 0 data2.length
      let sector_data ← read_sector 0 1
      write_sector 0 1 ((sector_data.take 32) ++ dir_entry ++ (sector_data.drop (32 + 32)))
      update_fat_chain allocated
      save_disk
      M.pure true) D1b = _
  rw [show (data2.length + BYTES_PER_SECTOR - 1) / BYTES_PER_SECTOR = 625 by
    rw [hlen]; rfl]
  rw [run_bind_ok _ _ _ _ _ alloc_D1b]
  beta_reduce
  rfl

theorem loadC1_none : load_file ['A', '.', 'T', 'X', 'T'] D1b = .ok none D1b := by
  unfold load_file
  have hff : find_file ['A', '.', 'T', 'X', 'T'] D1b = .ok none D1b := by
    unfold find_file
    rw [show (parse_83 ['A', '.', 'T', 'X', 'T']).1 = ['A'] from rfl,
        show (parse_83 ['A', '.', 'T', 'X', 'T']).2 = ['T', 'X', 'T'] from rfl]
    rw [run_bind_ok _ _ _ _ _ (find_file_scan_skip D1b ['A'] ['T', 'X', 'T']
      (List.range DIR_ENTRIES) (by
        intro i hi
        rw [range64_eq] at hi
        fin_cases hi <;> decide))]
    rfl
  rw [run_bind_ok _ _ _ _ _ hff]
  rfl

/-!  ## Failed saves without a same-named file leave the disk unchanged -/

theorem run_bind_eq (x : M σ α) (f : α → M σ β) (s : σ) :
    (x >>= f) s = match x s with
      | .ok a t => f a t
      | .err e t => .err e t
      | .hang => .hang := rfl

theorem bind_ok_inv (x : M σ α) (f : α → M σ β) (s s' : σ) (b : β)
    (h : (x >>= f) s = .ok b s') : ∃ a t, x s = .ok a t ∧ f a t = .ok b s' := by
  rw [run_bind_eq] at h
  cases hx : x s with
  | ok a t =>
    rw [hx] at h
    exact ⟨a, t, rfl, h⟩
  | err e t =>
    rw [hx] at h
    exact Out.noConfusion h
  | hang =>
    rw [hx] at h
    exact Out.noConfusion h

theorem find_free_scan_ro : ∀ (idxs : List Nat) (d : Disk),
    ∃ r, find_free_dir_scan idxs d = .ok r d
  | [], d => ⟨none, rfl⟩
  | i :: rest, d => by
    simp only [find_free_dir_scan]
    rw [run_bind_ok _ _ _ _ _ (read_dir_entry_run i d)]
    beta_reduce
    by_cases hc : bget (entryBytes d i) 0 = 255 ∨ bget (entryBytes d i) 0 = 0 ∨
        bget (entryBytes d i) 11 ≥ 128
    · exact ⟨_, by rw [if_pos hc]; rfl⟩
    · obtain ⟨r, hr⟩ := find_free_scan_ro rest d
      exact ⟨r, by rw [if_neg hc]; exact hr⟩

theorem read_fat_loop_ro : ∀ (idxs : List Nat) (d : Disk),
    ∃ l, read_fat_loop idxs d = .ok l d
  | [], d => ⟨[], rfl⟩
  | i :: rest, d => by
    simp only [read_fat_loop]
    rw [run_bind_ok _ _ _ _ _ (read_sector_run 0 (FAT_SECTOR + i) d)]
    beta_reduce
    obtain ⟨l, hl⟩ := read_fat_loop_ro rest d
    exact ⟨_, by rw [run_bind_ok _ _ _ _ _ hl]; rfl⟩

theorem allocate_scan_cases (count : Nat) (fat : List Nat) :
    ∀ (ps acc : List (Nat × Nat)) (d : Disk),
    (∃ r, allocate_scan count fat acc ps d = .ok r d) ∨
    allocate_scan count fat acc ps d = .err .addrRange d
  | [], acc, d => Or.inl ⟨[], rfl⟩
  | (t, u) :: rest, acc, d => by
    simp only [allocate_scan]
    by_cases hidx : t * SECTORS_PER_TRACK + u < fat.length
    · rw [run_bind_ok _ _ _ _ _ (fat_get_run fat _ d hidx)]
      beta_reduce
      by_cases hv : fat.getD (t * SECTORS_PER_TRACK + u) 0 = 255
      · rw [if_pos hv]
        by_cases hfull : (acc ++ [(t, u)]).length ≥ count
        · exact Or.inl ⟨_, by rw [if_pos hfull]; rfl⟩
        · rw [if_neg hfull]
          exact allocate_scan_cases count fat rest (acc ++ [(t, u)]) d
      · rw [if_neg hv]
        exact allocate_scan_cases count fat rest acc d
    · rw [run_bind_err _ _ _ _ _ (show fat_get fat (t * SECTORS_PER_TRACK + u) d =
        .err .addrRange d from by simp [fat_get, hidx])]
      exact Or.inr rfl

theorem allocate_sectors_cases (count : Nat) (d : Disk) :
    (∃ r, allocate_sectors count d = .ok r d) ∨
    allocate_sectors count d = .err .addrRange d := by
  unfold allocate_sectors
  obtain ⟨fat, hfat⟩ := read_fat_loop_ro (List.range 8) d
  have hfat' : read_fat d = .ok fat d := hfat
  rw [run_bind_ok _ _ _ _ _ hfat']
  beta_reduce
  exact allocate_scan_cases count fat track_sector_pairs [] d

/-- Amended C1.  When no file of the given name exists on the disk, a
save_file call that returns false (no free directory slot, or not
enough free sectors) leaves the disk byte-for-byte unchanged, so every
stored file keeps its contents.  The unqualified original claim is
refuted by the counterexample: a same-named file is deleted before the
free-slot and free-sector checks, so a failing save destroys it. -/
theorem C1_failed_save_preserves (filename : List Char) (data : List Byte)
    (d d' : Disk) (hnone : find_file_entry filename d = .ok none d)
    (hfail : save_file filename data d = .ok false d') : d' = d := by
  have hdel : delete_file filename d = .ok false d := by
    unfold delete_file
    rw [run_bind_ok _ _ _ _ _ hnone]
    rfl
  replace hfail : (do
    let _ ← delete_file filename
    let dir_entry_addr ← find_free_dir_entry
    match dir_entry_addr with
    | none => M.pure false
    | some (dt, ds, off) => do
      let allocated ← allocate_sectors
        ((data.length + BYTES_PER_SECTOR - 1) / BYTES_PER_SECTOR)
      match allocated with
      | [] => M.pure false
      | (first_track, first_sector) :: _ => do
        write_data_loop data 0 allocated
        let dir_entry ← create_dir_entry
          (match split_dot (upper_l filename) with
            | [] => filename.take 8
            | p :: _ => p.take 8)
          (match split_dot (upper_l filename) with
            | _ :: e :: _ => e.take 3
            | _ => [' ', ' ', ' '])
          first_track first_sector 0 data.length
        let sector_data ← read_sector dt ds
        write_sector dt ds ((sector_data.take off) ++ dir_entry ++
          (sector_data.drop (off + 32)))
        update_fat_chain allocated
        save_disk
        M.pure true) d = .ok false d' := hfail
  obtain ⟨b1, t1, h1, h2⟩ := bind_ok_inv _ _ _ _ _ hfail
  rw [hdel] at h1
  simp only [Out.ok.injEq] at h1
  obtain ⟨hb1, ht1⟩ := h1
  subst ht1
  obtain ⟨r, t2, h3, h4⟩ := bind_ok_inv _ _ _ _ _ h2
  obtain ⟨r', hr'⟩ := find_free_scan_ro (List.range DIR_ENTRIES) d
  have hff : find_free_dir_entry d = .ok r' d := hr'
  rw [hff] at h3
  simp only [Out.ok.injEq] at h3
  obtain ⟨hr2, ht2⟩ := h3
  subst ht2
  subst hr2
  rcases r' with _ | ⟨dt, ds, off⟩
  · replace h4 : (Out.ok false d : Out Disk Bool) = .ok false d' := h4
    simp only [Out.ok.injEq] at h4
    exact h4.2.symm
  · obtain ⟨res, t3, h5, h6⟩ := bind_ok_inv _ _ _ _ _ h4
    rcases allocate_sectors_cases
        ((data.length + BYTES_PER_SECTOR - 1) / BYTES_PER_SECTOR) d with
      ⟨r2, hr2'⟩ | herr
    · rw [hr2'] at h5
      simp only [Out.ok.injEq] at h5
      obtain ⟨hres, ht3⟩ := h5
      subst ht3
      subst hres
      rcases r2 with _ | ⟨⟨ft, fs⟩, chrest⟩
      · replace h6 : (Out.ok false d : Out Disk Bool) = .ok false d' := h6
        simp only [Out.ok.injEq] at h6
        exact h6.2.symm
      · exfalso
        obtain ⟨u1, t4, h7, h8⟩ := bind_ok_inv _ _ _ _ _ h6
        obtain ⟨e1, t5, h9, h10⟩ := bind_ok_inv _ _ _ _ _ h8
        obtain ⟨sd, t6, h11, h12⟩ := bind_ok_inv _ _ _ _ _ h10
        obtain ⟨u2, t7, h13, h14⟩ := bind_ok_inv _ _ _ _ _ h12
        obtain ⟨u3, t8, h15, h16⟩ := bind_ok_inv _ _ _ _ _ h14
        obtain ⟨u4, t9, h17, h18⟩ := bind_ok_inv _ _ _ _ _ h16
        replace h18 : (Out.ok true t9 : Out Disk Bool) = .ok false d' := h18
        simp only [Out.ok.injEq] at h18
        exact absurd h18.1 (by simp)
    · rw [herr] at h5
      exact Out.noConfusion h5

theorem alloc_fresh625 : allocate_sectors 625 freshD = .ok [] freshD := by
  refine allocate_sectors_run freshD fat_init 625 [] fat_init_length fat_init_lt
    freshD_secFat ?_
  refine allocate_scan_insufficient 625 fat_init freshD track_sector_pairs []
    (fun p hp => by rw [fat_init_length]; exact tsp_idx p hp) ?_
  simp only [List.length_nil]
  rw [tsp_len]
  omega

theorem saveC1_fresh_fail (data2 : List Byte) (hlen : data2.length = 159745) :
    save_file ['A', '.', 'T', 'X', 'T'] data2 freshD = .ok false freshD := by
  show (do
    let _ ← delete_file ['A', '.', 'T', 'X', 'T']
    let dir_entry_addr ← find_free_dir_entry
    match dir_entry_addr with
    | none => M.pure false
    | some (dt, ds, off) => do
      let sectors_needed := (data2.length + BYTES_PER_SECTOR - 1) / BYTES_PER_SECTOR
      let allocated ← allocate_sectors sectors_needed
      match allocated with
      | [] => M.pure false
      | (first_track, first_sector) :: _ => do
        write_data_loop data2 0 allocated
        let dir_entry ← create_dir_entry ['A'] ['T', 'X', 'T'] first_track first_sector 0 data2.length
        let sector_data ← read_sector dt ds
        write_sector dt ds ((sector_data.take off) ++ dir_entry ++ (sector_data.drop (off + 32)))
        update_fat_chain allocated
        save_disk
        M.pure true) freshD = _
  rw [run_bind_ok _ _ _ _ _ delete_file_fresh]
  beta_reduce
  rw [run_bind_ok _ _ _ _ _ find_free_fresh]
  beta_reduce
  show (do
    let allocated ← allocate_sectors ((data2.length + BYTES_PER_SECTOR - 1) / BYTES_PER_SECTOR)
    match allocated with
    | [] => M.pure false
    | (first_track, first_sector) :: _ => do
      write_data_loop data2 0 allocated
      let dir_entry ← create_dir_entry ['A'] ['T', 'X', 'T'] first_track first_sector 0 data2.length
      let sector_data ← read_sector 0 1
      write_sector 0 1 ((sector_data.take 32) ++ dir_entry ++ (sector_data.drop (32 + 32)))
      update_fat_chain allocated
      save_disk
      M.pure true) freshD = _
  rw [show (data2.length + BYTES_PER_SECTOR - 1) / BYTES_PER_SECTOR = 625 by
    rw [hlen]; rfl]
  rw [run_bind_ok _ _ _ _ _ alloc_fresh625]
  beta_reduce
  rfl

/-- C1 counterexample.  Save A.TXT (one byte) on a fresh disk, then
attempt to save A.TXT again with data needing 625 sectors — more than
the 624 the disk has.  The second save returns false, but because
save_file deletes the same-named file before checking for free space,
the original A.TXT is gone: load_file, which returned its contents
before the failing save, now returns none. -/
theorem C1_counterexample :
    save_file ['A', '.', 'T', 'X', 'T'] dataA freshDisk = .ok true D1
    ∧ load_file ['A', '.', 'T', 'X', 'T'] D1 = .ok (some dataA) D1
    ∧ save_file ['A', '.', 'T', 'X', 'T'] (List.replicate 159745 (66 : Byte)) D1 =
        .ok false D1b
    ∧ load_file ['A', '.', 'T', 'X', 'T'] D1b = .ok none D1b :=
  ⟨by rw [freshDisk_eq]; exact (saveload_1 dataA rfl).1,
   (saveload_1 dataA rfl).2,
   saveC1_fail _ (List.length_replicate _ _),
   loadC1_none⟩

theorem C1_failed_save_preserves_witness :
    (find_file_entry ['A', '.', 'T', 'X', 'T'] freshDisk = .ok none freshDisk
      ∧ save_file ['A', '.', 'T', 'X', 'T'] (List.replicate 159745 (66 : Byte))
          freshDisk = .ok false freshDisk)
    ∧ freshDisk = freshDisk :=
  ⟨⟨by rw [freshDisk_eq]; exact find_file_entry_fresh,
    by rw [freshDisk_eq]; exact saveC1_fresh_fail _ (List.length_replicate _ _)⟩,
   C1_failed_save_preserves ['A', '.', 'T', 'X', 'T']
     (List.replicate 159745 (66 : Byte)) freshDisk freshDisk
     (by rw [freshDisk_eq]; exact find_file_entry_fresh)
     (by rw [freshDisk_eq]; exact saveC1_fresh_fail _ (List.length_replicate _ _))⟩

